import Mathlib

/-!
Verification development for the git-visualizer core: a shallow embedding of
the object model (`GitHash`, `GitBlob`, `GitTree`, `GitCommit`,
`GitRepository`) and of the pure graph algorithms (`topologicalSort`,
`calculateLayout`, `findShortestPath`, `detectCycle`), with theorems settling
the specification claims about them.

JavaScript strings are embedded as lists of UTF-16 code units (`JStr`);
JavaScript `Map` objects are embedded as association lists with
first-match lookup and replace-in-place insertion (`JMap`), which preserves
the insertion-order iteration semantics of `Map.forEach`.
-/

/-- A JavaScript string, as its list of UTF-16 code units. -/
abbrev JStr := List Nat

/-- A JavaScript `Map`, as an association list in key-insertion order. -/
abbrev JMap (κ β : Type) := List (κ × β)

namespace JMap

variable {κ β : Type} [DecidableEq κ]

/-- The empty map. -/
def empty : JMap κ β := []

/-- `Map.get`: first matching entry, if any. -/
def get (m : JMap κ β) (k : κ) : Option β :=
  match m with
  | [] => none
  | (k', v) :: rest => if k' = k then some v else get rest k

/-- `Map.set`: replace the value in place if the key exists, else append. -/
def set (m : JMap κ β) (k : κ) (v : β) : JMap κ β :=
  match m with
  | [] => [(k, v)]
  | (k', v') :: rest => if k' = k then (k', v) :: rest else (k', v') :: set rest k v

/-- `Map.has`. -/
def has (m : JMap κ β) (k : κ) : Bool := (m.get k).isSome

/-- The entries of the map in iteration order (as the underlying list). -/
def entries (m : JMap κ β) : List (κ × β) := m

/-- The number of entries. -/
def size (m : JMap κ β) : Nat := m.entries.length

@[simp] theorem get_empty (k : κ) : (empty : JMap κ β).get k = none := rfl

theorem get_set (m : JMap κ β) (k k' : κ) (v : β) :
    (m.set k v).get k' = if k = k' then some v else m.get k' := by
  induction m with
  | nil =>
    by_cases h : k = k' <;> simp [set, get, h]
  | cons hd tl ih =>
    obtain ⟨k₀, v₀⟩ := hd
    by_cases h₀ : k₀ = k
    · subst h₀
      by_cases h : k₀ = k' <;> simp [set, get, h]
    · simp only [set, if_neg h₀, get]
      by_cases h₁ : k₀ = k'
      · subst h₁
        have hne : ¬k = k₀ := fun hh => h₀ hh.symm
        simp [hne]
      · simp [h₁, ih]

@[simp] theorem get_set_self (m : JMap κ β) (k : κ) (v : β) :
    (m.set k v).get k = some v := by
  simp [get_set]

theorem get_set_ne (m : JMap κ β) (k k' : κ) (v : β) (h : k ≠ k') :
    (m.set k v).get k' = m.get k' := by
  simp [get_set, h]

end JMap

/-- JavaScript `Set.add` on a set kept as a list in insertion order. -/
def setAdd {α : Type} [DecidableEq α] (s : List α) (a : α) : List α :=
  if a ∈ s then s else s ++ [a]

theorem mem_setAdd {α : Type} [DecidableEq α] (s : List α) (a b : α) :
    b ∈ setAdd s a ↔ b ∈ s ∨ b = a := by
  by_cases h : a ∈ s
  · simp only [setAdd, if_pos h]
    constructor
    · exact Or.inl
    · rintro (hb | rfl)
      · exact hb
      · exact h
  · simp [setAdd, if_neg h]

theorem setAdd_sub {α : Type} [DecidableEq α] (s : List α) (a : α) :
    s ⊆ setAdd s a := by
  intro x hx
  exact (mem_setAdd s a x).2 (Or.inl hx)

/-! ## Fingerprinting (`GitHash.generate`)

`GitHash.generate(content)` serializes `content` with `JSON.stringify` and
runs the classic 32-bit string hash `h := (h << 5) - h + c` (that is,
`h := 31*h + c` modulo `2^32`, kept as a signed 32-bit integer), then takes
`Math.abs(h).toString(16).padStart(40, '0').slice(0, 40)`. -/

/-- One step of the 32-bit rolling hash, on the unsigned residue mod `2^32`. -/
def hashStep (h c : Nat) : Nat := (31 * h + c) % 4294967296

/-- The unsigned 32-bit residue of hashing a whole string. -/
def hashAcc (s : JStr) : Nat := s.foldl hashStep 0

/-- `Math.abs` of the signed 32-bit reading of the residue. -/
def hashAbs (r : Nat) : Nat := if r < 2147483648 then r else 4294967296 - r

/-- Lowercase hexadecimal digit code unit. -/
def hexDigit (n : Nat) : Nat := if n < 10 then 48 + n else 87 + n

/-- Hex digits of `n`, most significant first (fuelled; 8 digits suffice
below `2^32`). -/
def toHexAux : Nat → Nat → JStr → JStr
  | 0, _, acc => acc
  | f + 1, n, acc => if n = 0 then acc else toHexAux f (n / 16) (hexDigit (n % 16) :: acc)

/-- `Number.prototype.toString(16)` for naturals below `2^32`. -/
def toHex (n : Nat) : JStr := if n = 0 then [48] else toHexAux 9 n []

/-- `padStart(40, '0')` followed by `slice(0, 40)`. -/
def padStart40 (s : JStr) : JStr := (List.replicate (40 - s.length) 48 ++ s).take 40

/-- The full fingerprint pipeline on an already-serialized string. -/
def hashString (s : JStr) : JStr := padStart40 (toHex (hashAbs (hashAcc s)))

theorem toHexAux_length_le (f n : Nat) (acc : JStr) :
    (toHexAux f n acc).length ≤ f + acc.length := by
  induction f generalizing n acc with
  | zero => simp [toHexAux]
  | succ f ih =>
    by_cases h : n = 0
    · simp only [toHexAux, if_pos h]
      omega
    · simp only [toHexAux, if_neg h]
      have := ih (n / 16) (hexDigit (n % 16) :: acc)
      simp only [List.length_cons] at this
      omega

theorem toHex_length_le (n : Nat) : (toHex n).length ≤ 9 := by
  by_cases h : n = 0
  · simp [toHex, h]
  · simp only [toHex, if_neg h]
    have := toHexAux_length_le 9 n []
    simpa using this

theorem hashString_length (s : JStr) : (hashString s).length = 40 := by
  have h := toHex_length_le (hashAbs (hashAcc s))
  simp only [hashString, padStart40]
  rw [List.length_take, List.length_append, List.length_replicate]
  omega

theorem hashString_ne_nil (s : JStr) : hashString s ≠ [] := by
  intro h
  have := hashString_length s
  rw [h] at this
  simp at this

/-! ## JSON serialization (`JSON.stringify`) for the object shapes used -/

/-- `JSON.stringify` escaping of one code unit inside a string literal.
(Unpaired surrogates are emitted verbatim; the repository never produces
them.) -/
def jsonEscapeChar (c : Nat) : JStr :=
  if c = 34 then [92, 34]
  else if c = 92 then [92, 92]
  else if c = 8 then [92, 98]
  else if c = 9 then [92, 116]
  else if c = 10 then [92, 110]
  else if c = 12 then [92, 102]
  else if c = 13 then [92, 114]
  else if c < 32 then [92, 117, 48, 48, hexDigit (c / 16), hexDigit (c % 16)]
  else [c]

/-- `JSON.stringify` of a string value. -/
def jsonString (s : JStr) : JStr := 34 :: s.flatMap jsonEscapeChar ++ [34]

/-- Comma-separated concatenation. -/
def joinComma (l : List JStr) : JStr := List.intercalate [44] l

/-- `JSON.stringify` of an array of strings. -/
def jsonStrArray (l : List JStr) : JStr := 91 :: joinComma (l.map jsonString) ++ [93]

/-! ## Object model: blobs, trees, commits -/

/-- The literal `\x7b"type":"blob","content":`. -/
def litBlobPre : JStr := [123, 34, 116, 121, 112, 101, 34, 58, 34, 98, 108, 111, 98, 34, 44, 34, 99, 111, 110, 116, 101, 110, 116, 34, 58]

/-- The literal `\x7b"type":"tree","entries":[`. -/
def litTreePre : JStr := [123, 34, 116, 121, 112, 101, 34, 58, 34, 116, 114, 101, 101, 34, 44, 34, 101, 110, 116, 114, 105, 101, 115, 34, 58, 91]

/-- The literal `]\x7d`. -/
def litTreeSuf : JStr := [93, 125]

/-- The literal `\x7b"mode":`. -/
def litEntryMode : JStr := [123, 34, 109, 111, 100, 101, 34, 58]

/-- The literal `,"name":`. -/
def litEntryName : JStr := [44, 34, 110, 97, 109, 101, 34, 58]

/-- The literal `,"hash":`. -/
def litEntryHash : JStr := [44, 34, 104, 97, 115, 104, 34, 58]

/-- The literal `,"type":`. -/
def litEntryType : JStr := [44, 34, 116, 121, 112, 101, 34, 58]

/-- The literal `\x7d`. -/
def litRBrace : JStr := [125]

/-- The literal `\x7b"type":"commit","tree":`. -/
def litCommitPre : JStr := [123, 34, 116, 121, 112, 101, 34, 58, 34, 99, 111, 109, 109, 105, 116, 34, 44, 34, 116, 114, 101, 101, 34, 58]

/-- The literal `,"parents":`. -/
def litParents : JStr := [44, 34, 112, 97, 114, 101, 110, 116, 115, 34, 58]

/-- The literal `,"author":`. -/
def litAuthor : JStr := [44, 34, 97, 117, 116, 104, 111, 114, 34, 58]

/-- The literal `,"message":`. -/
def litMessage : JStr := [44, 34, 109, 101, 115, 115, 97, 103, 101, 34, 58]

/-- The literal `,"timestamp":`. -/
def litTimestamp : JStr := [44, 34, 116, 105, 109, 101, 115, 116, 97, 109, 112, 34, 58]

/-- A tree entry `(mode, name, hash, type)`, with the key order used by
`addEntry`. The source's field `type` is named `kind` here. -/
structure TreeEntry where
  mode : JStr
  name : JStr
  hash : JStr
  kind : JStr
deriving DecidableEq, Repr

/-- `JSON.stringify` of one tree entry object. -/
def jsonTreeEntry (e : TreeEntry) : JStr :=
  litEntryMode ++ jsonString e.mode ++ litEntryName ++ jsonString e.name ++
    litEntryHash ++ jsonString e.hash ++ litEntryType ++ jsonString e.kind ++ litRBrace

/-- `JSON.stringify` of the content hashed by a `GitBlob`. -/
def jsonBlobContent (content : JStr) : JStr :=
  litBlobPre ++ jsonString content ++ litRBrace

/-- `JSON.stringify` of the content hashed by a `GitTree`. -/
def jsonTreeContent (entries : List TreeEntry) : JStr :=
  litTreePre ++ joinComma (entries.map jsonTreeEntry) ++ litTreeSuf

/-- `JSON.stringify` of the content hashed by a `GitCommit`
(key order `type, tree, parents, author, message, timestamp`). -/
def jsonCommitContent (tree : List Nat) (parents : List JStr)
    (author message timestamp : JStr) : JStr :=
  litCommitPre ++ jsonString tree ++ litParents ++ jsonStrArray parents ++
    litAuthor ++ jsonString author ++ litMessage ++ jsonString message ++
    litTimestamp ++ jsonString timestamp ++ litRBrace

/-- Fingerprint of a blob with the given content. -/
def blobHash (content : JStr) : JStr := hashString (jsonBlobContent content)

/-- Fingerprint of a tree with the given entries. -/
def treeHash (entries : List TreeEntry) : JStr := hashString (jsonTreeContent entries)

/-- Fingerprint of a commit with the given fields. -/
def commitHash (tree : JStr) (parents : List JStr) (author message timestamp : JStr) : JStr :=
  hashString (jsonCommitContent tree parents author message timestamp)

/-- A stored git object: `GitBlob`, `GitTree` or `GitCommit` (the `type` tag
is the constructor; every object carries its `hash` field). -/
inductive GObj where
  | blob (content : JStr) (hash : JStr)
  | tree (entries : List TreeEntry) (hash : JStr)
  | commit (tree : JStr) (parents : List JStr) (author message timestamp : JStr) (hash : JStr)
deriving DecidableEq, Repr

/-- The `hash` field of an object. -/
def GObj.hashOf : GObj → JStr
  | .blob _ h => h
  | .tree _ h => h
  | .commit _ _ _ _ _ h => h

/-- `new GitBlob(content)`. -/
def mkBlob (content : JStr) : GObj := .blob content (blobHash content)

/-- `new GitTree(entries)`. -/
def mkTree (entries : List TreeEntry) : GObj := .tree entries (treeHash entries)

/-- `new GitCommit(tree, parents, author, message, timestamp)` with the
timestamp passed explicitly (the source defaults it to the current clock). -/
def mkCommit (tree : JStr) (parents : List JStr) (author message timestamp : JStr) : GObj :=
  .commit tree parents author message timestamp (commitHash tree parents author message timestamp)

/-- The mutable `GitTree` object: its entries and its current `hash` field. -/
structure GitTree where
  entries : List TreeEntry
  hash : JStr
deriving DecidableEq, Repr

/-- The `GitTree` constructor. -/
def GitTree.new (entries : List TreeEntry) : GitTree :=
  { entries := entries, hash := treeHash entries }

/-- `GitTree.addEntry(mode, name, hash, type)`: push the entry and recompute
the `hash` field over the new entries sequence. -/
def GitTree.addEntry (t : GitTree) (mode name hash kind : JStr) : GitTree :=
  let es := t.entries ++ [{ mode := mode, name := name, hash := hash, kind := kind }]
  { entries := es, hash := treeHash es }

/-! ## Repository state and operations -/

/-- The string `main` (code units). -/
def mainStr : JStr := [109, 97, 105, 110]

/-- `GitRepository`: object store, ref table, and the current reference. -/
structure GitRepository where
  objects : JMap JStr GObj
  refs : JMap JStr JStr
  HEAD : JStr
deriving DecidableEq

/-- `new GitRepository()`. -/
def GitRepository.empty : GitRepository :=
  { objects := JMap.empty, refs := JMap.empty, HEAD := mainStr }

/-- `storeObject(obj)`: insert under the object's `hash` field. -/
def GitRepository.storeObject (r : GitRepository) (o : GObj) : GitRepository :=
  { r with objects := r.objects.set o.hashOf o }

/-- `getObject(hash)`. -/
def GitRepository.getObject (r : GitRepository) (h : JStr) : Option GObj :=
  r.objects.get h

/-- `commit(treeHash, message, author)` with the clock's timestamp passed in.
The parent list is `[refs.get(HEAD)]` when that value is truthy (present and
non-empty), else `[]`; the new commit is stored and the current reference is
repointed at it. Returns the commit and the new state. -/
def GitRepository.commit (r : GitRepository) (tree message author timestamp : JStr) :
    GObj × GitRepository :=
  let parents : List JStr :=
    match r.refs.get r.HEAD with
    | some h => if h = [] then [] else [h]
    | none => []
  let c := mkCommit tree parents author message timestamp
  let r1 := r.storeObject c
  (c, { r1 with refs := r1.refs.set r.HEAD c.hashOf })

/-- `createBranch(branchName, commitHash)`: the target is `commitHash` when
truthy, else `refs.get(HEAD)`; the branch is created only when that target is
itself truthy. -/
def GitRepository.createBranch (r : GitRepository) (branchName : JStr)
    (commitHash : Option JStr) : GitRepository :=
  let hash : Option JStr :=
    match commitHash with
    | some h => if h = [] then r.refs.get r.HEAD else some h
    | none => r.refs.get r.HEAD
  match hash with
  | some h => if h = [] then r else { r with refs := r.refs.set branchName h }
  | none => r

/-- `checkout(branchName)`: switch `HEAD` only when the branch exists. -/
def GitRepository.checkout (r : GitRepository) (branchName : JStr) :
    Bool × GitRepository :=
  if r.refs.has branchName then (true, { r with HEAD := branchName })
  else (false, r)

/-! ## Commit graph operations -/

/-- The inner `dfs` of `getCommitHistory`: skip falsy or visited hashes, mark
visited, and only emit (and recurse into, via a fold over the parent list in
declared order) objects of kind commit. The state is `(visited, history)`.
Fuel bounds the recursion depth; `getCommitHistory` passes more fuel than any
chain of distinct hashes can consume. -/
def chDfs (r : GitRepository) : Nat → JStr → List JStr × List GObj → List JStr × List GObj
  | 0, _, st => st
  | f + 1, h, st =>
    if h = [] ∨ h ∈ st.1 then st
    else
      match r.getObject h with
      | some (GObj.commit t ps a m ts hh) =>
          ps.foldl (fun st2 p => chDfs r f p st2)
            (st.1 ++ [h], st.2 ++ [GObj.commit t ps a m ts hh])
      | _ => (st.1 ++ [h], st.2)

/-- `getCommitHistory(startHash)`: the starting hash is the argument when
truthy, else `refs.get(HEAD)`; a falsy start yields `[]`. -/
def GitRepository.getCommitHistory (r : GitRepository) (startHash : Option JStr) : List GObj :=
  let h : Option JStr :=
    match startHash with
    | some s => if s = [] then r.refs.get r.HEAD else some s
    | none => r.refs.get r.HEAD
  match h with
  | none => []
  | some h0 => if h0 = [] then [] else (chDfs r (r.objects.size + 2) h0 ([], [])).2

/-- The `traverse` closure of `findMergeBase`: collect the inclusive ancestor
set of a hash into `anc`, skipping falsy or already-collected hashes and
folding over parents in declared order. -/
def mbTraverse (r : GitRepository) : Nat → JStr → List JStr → List JStr
  | 0, _, anc => anc
  | f + 1, h, anc =>
    if h = [] ∨ h ∈ anc then anc
    else
      match r.getObject h with
      | some (GObj.commit _ ps _ _ _ _) =>
          ps.foldl (fun anc2 p => mbTraverse r f p anc2) (anc ++ [h])
      | _ => anc ++ [h]

/-- The `findCommon` closure of `findMergeBase`: first hash on the
depth-first ancestry walk that is in `anc` (tip first, then each parent in
declared order; the source keeps no visited set here). -/
def mbFindCommon (r : GitRepository) (anc : List JStr) : Nat → JStr → Option JStr
  | 0, _ => none
  | f + 1, h =>
    if h = [] then none
    else if h ∈ anc then some h
    else
      match r.getObject h with
      | some (GObj.commit _ ps _ _ _ _) =>
          ps.foldl
            (fun res p =>
              match res with
              | some c => some c
              | none => mbFindCommon r anc f p)
            none
      | _ => none

/-- `findMergeBase(branch1, branch2)`. -/
def GitRepository.findMergeBase (r : GitRepository) (branch1 branch2 : JStr) : Option JStr :=
  match r.refs.get branch1, r.refs.get branch2 with
  | some h1, some h2 =>
    if h1 = [] ∨ h2 = [] then none
    else
      let anc := mbTraverse r (r.objects.size + 2) h1 []
      mbFindCommon r anc (r.objects.size + 2) h2
  | _, _ => none

/-- A node of the visualization snapshot
(`id, hash(short), message, author, timestamp, parents`). -/
structure SnapNode where
  id : JStr
  short : JStr
  message : JStr
  author : JStr
  timestamp : JStr
  parents : List JStr
deriving DecidableEq, Repr

/-- A directed edge of the snapshot; the source's fields `from`/`to` are
named `fromId`/`toId` (`from` is a Lean keyword). -/
structure SnapEdge where
  fromId : JStr
  toId : JStr
deriving DecidableEq, Repr

/-- The result of `getCommitGraph()`. -/
structure Snapshot where
  nodes : List SnapNode
  edges : List SnapEdge
  branches : JMap JStr JStr
  head : JStr
deriving DecidableEq

/-- `getCommitGraph()`: union the histories of all refs into a set of commit
hashes, then emit one node per hash and one edge per commit-to-parent link.
(On a hash whose object is not a commit the source would fail reading commit
fields; such states are not produced by the API and yield no node here.) -/
def GitRepository.getCommitGraph (r : GitRepository) : Snapshot :=
  let allCommits : List JStr :=
    r.refs.entries.foldl
      (fun acc br =>
        (r.getCommitHistory (some br.2)).foldl (fun a c => setAdd a c.hashOf) acc)
      []
  let ne : List SnapNode × List SnapEdge :=
    allCommits.foldl
      (fun (st : List SnapNode × List SnapEdge) h =>
        match r.getObject h with
        | some (GObj.commit _ ps a m ts hh) =>
            (st.1 ++ [{ id := hh, short := hh.take 7, message := m, author := a,
                        timestamp := ts, parents := ps }],
             st.2 ++ ps.map fun p => { fromId := hh, toId := p })
        | _ => st)
      ([], [])
  { nodes := ne.1, edges := ne.2, branches := r.refs, head := r.HEAD }

/-! ## Pure graph algorithms (store-independent) -/

/-- An abstract graph node (only its `id` is read by the algorithms). -/
structure GNode (α : Type) where
  id : α
deriving DecidableEq, Repr

/-- An abstract directed edge; the source's fields `from`/`to` are named
`fromId`/`toId` (`from` is a Lean keyword). -/
structure GEdge (α : Type) where
  fromId : α
  toId : α
deriving DecidableEq, Repr

section GraphAlgorithms

variable {α : Type} [DecidableEq α]

/-- The adjacency list and in-degree maps built by `topologicalSort`: every
node id gets an empty list and degree 0, then each edge whose two endpoints
are both known appends `to` to `from`'s list and increments `to`'s degree. -/
def buildTopoGraph (nodes : List (GNode α)) (edges : List (GEdge α)) :
    JMap α (List α) × JMap α Int :=
  let init : JMap α (List α) × JMap α Int :=
    nodes.foldl (fun st n => (st.1.set n.id [], st.2.set n.id 0)) (JMap.empty, JMap.empty)
  edges.foldl
    (fun st e =>
      if st.1.has e.fromId && st.1.has e.toId then
        (st.1.set e.fromId (((st.1.get e.fromId).getD []) ++ [e.toId]),
         st.2.set e.toId (((st.2.get e.toId).getD 0) + 1))
      else st)
    init

/-- The initial queue: ids of in-degree 0, in map iteration order. -/
def kahnInitQueue (d : JMap α Int) : List α :=
  d.entries.foldl (fun q kv => if kv.2 = 0 then q ++ [kv.1] else q) []

/-- The work loop of Kahn's algorithm: pop the queue head, append it to the
output, decrement each neighbour's in-degree and enqueue those that reach 0.
Fuel bounds the number of iterations; `topologicalSort` passes more fuel than
the total number of possible queue insertions. -/
def kahnLoop (g : JMap α (List α)) : Nat → List α → JMap α Int → List α → List α
  | 0, _, _, s => s
  | _ + 1, [], _, s => s
  | f + 1, v :: q, d, s =>
    let dq : JMap α Int × List α :=
      ((g.get v).getD []).foldl
        (fun (st : JMap α Int × List α) nb =>
          let dv := ((st.1.get nb).getD 0) - 1
          (st.1.set nb dv, if dv = 0 then st.2 ++ [nb] else st.2))
        (d, q)
    kahnLoop g f dq.2 dq.1 (s ++ [v])

/-- `topologicalSort(nodes, edges)`: Kahn's algorithm, with the result
reversed before being returned. -/
def topologicalSort (nodes : List (GNode α)) (edges : List (GEdge α)) : List α :=
  let gd := buildTopoGraph nodes edges
  (kahnLoop gd.1 (nodes.length + edges.length + 1) (kahnInitQueue gd.2) gd.2 []).reverse

/-- A laid-out node: its id and the `x`/`y` coordinates assigned by
`calculateLayout` (`none` until assigned). -/
structure LNode (α : Type) where
  id : α
  x : Option ℚ
  y : Option ℚ
deriving DecidableEq, Repr

/-- A laid-out edge with its endpoint and control coordinates
(`none` when an endpoint node is unknown or not yet placed). -/
structure LEdge (α : Type) where
  fromId : α
  toId : α
  x1 : Option ℚ
  y1 : Option ℚ
  x2 : Option ℚ
  y2 : Option ℚ
  controlX1 : Option ℚ
  controlY1 : Option ℚ
  controlX2 : Option ℚ
  controlY2 : Option ℚ
deriving DecidableEq, Repr

/-- `calculateLayout(nodes, edges, options)`: topological sort, layer
assignment `layer = length - index - 1`, evenly spaced centred positions
within each layer, and cubic-curve endpoints per edge. -/
def calculateLayout (nodes : List (GNode α)) (edges : List (GEdge α))
    (nodeWidth nodeHeight horizontalGap verticalGap : ℚ) :
    List (LNode α) × List (LEdge α) :=
  if nodes.length = 0 then ([], [])
  else
    let sorted := topologicalSort nodes edges
    let layers : JMap α Nat :=
      sorted.enum.foldl (fun m p => m.set p.2 (sorted.length - p.1 - 1)) JMap.empty
    let nodeMap0 : JMap α (LNode α) :=
      nodes.foldl (fun m n => m.set n.id { id := n.id, x := none, y := none }) JMap.empty
    let layerCounts : JMap Nat Nat :=
      layers.entries.foldl (fun m kv => m.set kv.2 (((m.get kv.2).getD 0) + 1)) JMap.empty
    let placed : JMap Nat Nat × JMap α (LNode α) :=
      layers.entries.foldl
        (fun (st : JMap Nat Nat × JMap α (LNode α)) kv =>
          let position := (st.1.get kv.2).getD 0
          let pos' := st.1.set kv.2 (position + 1)
          match st.2.get kv.1 with
          | some ln =>
            let layerSize := (layerCounts.get kv.2).getD 0
            let totalWidth : ℚ :=
              (layerSize : ℚ) * nodeWidth + ((layerSize : ℚ) - 1) * horizontalGap
            let startX : ℚ := -totalWidth / 2
            let x : ℚ := startX + (position : ℚ) * (nodeWidth + horizontalGap) + nodeWidth / 2
            let y : ℚ := (kv.2 : ℚ) * verticalGap + nodeHeight / 2
            (pos', st.2.set kv.1 { ln with x := some x, y := some y })
          | none => (pos', st.2))
        (JMap.empty, nodeMap0)
    let nodeMap := placed.2
    let edgesWithPaths : List (LEdge α) :=
      edges.map fun e =>
        match nodeMap.get e.fromId, nodeMap.get e.toId with
        | some fn, some tn =>
          match fn.x, fn.y, tn.x, tn.y with
          | some fx, some fy, some tx, some ty =>
            { fromId := e.fromId, toId := e.toId,
              x1 := some fx, y1 := some (fy + nodeHeight / 2),
              x2 := some tx, y2 := some (ty - nodeHeight / 2),
              controlX1 := some fx, controlY1 := some (fy + (ty - fy) / 2),
              controlX2 := some tx, controlY2 := some (fy + (ty - fy) / 2) }
          | _, _, _, _ =>
            { fromId := e.fromId, toId := e.toId, x1 := none, y1 := none,
              x2 := none, y2 := none, controlX1 := none, controlY1 := none,
              controlX2 := none, controlY2 := none }
        | _, _ =>
          { fromId := e.fromId, toId := e.toId, x1 := none, y1 := none,
            x2 := none, y2 := none, controlX1 := none, controlY1 := none,
            controlX2 := none, controlY2 := none }
    (nodeMap.entries.map (·.2), edgesWithPaths)

/-- The undirected adjacency map built by `findShortestPath`. -/
def buildPathGraph (edges : List (GEdge α)) : JMap α (List α) :=
  edges.foldl
    (fun g e =>
      let g1 := if g.has e.fromId then g else g.set e.fromId []
      let g2 := if g1.has e.toId then g1 else g1.set e.toId []
      let g3 := g2.set e.fromId (((g2.get e.fromId).getD []) ++ [e.toId])
      g3.set e.toId (((g3.get e.toId).getD []) ++ [e.fromId]))
    JMap.empty

/-- The BFS work loop of `findShortestPath`: pop a path, return it when it
reaches the target, else extend it by each unvisited neighbour. Fuel bounds
the number of iterations; `findShortestPath` passes more fuel than the total
number of possible queue insertions. -/
def bfsLoop (g : JMap α (List α)) (endId : α) :
    Nat → List (List α) → List α → Option (List α)
  | _, [], _ => none
  | 0, _ :: _, _ => none
  | f + 1, path :: rest, visited =>
    match path.getLast? with
    | none => bfsLoop g endId f rest visited
    | some node =>
      if node = endId then some path
      else
        let st : List α × List (List α) :=
          ((g.get node).getD []).foldl
            (fun (st : List α × List (List α)) nb =>
              if nb ∈ st.1 then st else (st.1 ++ [nb], st.2 ++ [path ++ [nb]]))
            (visited, rest)
        bfsLoop g endId f st.2 st.1

/-- `findShortestPath(startId, endId, edges)`: BFS over the undirected view
of the edges, recording the full path at each queued state. -/
def findShortestPath (startId endId : α) (edges : List (GEdge α)) : Option (List α) :=
  if startId = endId then some [startId]
  else bfsLoop (buildPathGraph edges) endId (4 * edges.length + 2) [[startId]] [startId]

/-- The directed adjacency map built by `detectCycle` (only edges whose
source is a known node id are kept; targets may be unknown ids). -/
def buildCycleGraph (nodes : List (GNode α)) (edges : List (GEdge α)) : JMap α (List α) :=
  let g0 := nodes.foldl (fun g n => g.set n.id []) JMap.empty
  edges.foldl
    (fun g e =>
      if g.has e.fromId then g.set e.fromId (((g.get e.fromId).getD []) ++ [e.toId])
      else g)
    g0

/-- The three-colour DFS of `detectCycle`: grey = on the current stack
(`vis`), black = fully processed (`vd`). The state of the neighbour fold is
`(found, vis, vd)`; once `found` is set the remaining neighbours are skipped,
matching the source's early return. Fuel bounds the recursion depth;
`detectCycle` passes more fuel than any chain of distinct ids can consume. -/
def dcDfs (g : JMap α (List α)) : Nat → α → List α → List α → Bool × List α × List α
  | 0, _, vis, vd => (false, vis, vd)
  | f + 1, n, vis, vd =>
    let res : Bool × List α × List α :=
      ((g.get n).getD []).foldl
        (fun st nb =>
          if st.1 then st
          else if nb ∈ st.2.1 then (true, st.2)
          else if nb ∈ st.2.2 then st
          else dcDfs g f nb st.2.1 st.2.2)
        (false, setAdd vis n, vd)
    if res.1 then res else (false, res.2.1.erase n, setAdd res.2.2 n)

/-- The outer loop of `detectCycle`: restart the DFS from every node not yet
fully processed. -/
def dcLoop (g : JMap α (List α)) (fuel : Nat) :
    List (GNode α) → List α → List α → Bool
  | [], _, _ => false
  | nd :: rest, vis, vd =>
    if nd.id ∈ vd then dcLoop g fuel rest vis vd
    else
      match dcDfs g fuel nd.id vis vd with
      | (true, _, _) => true
      | (false, v2, d2) => dcLoop g fuel rest v2 d2

/-- `detectCycle(nodes, edges)`. -/
def detectCycle (nodes : List (GNode α)) (edges : List (GEdge α)) : Bool :=
  dcLoop (buildCycleGraph nodes edges) (nodes.length + edges.length + 2) nodes [] []

end GraphAlgorithms

/-- The snapshot's node list in the abstract shape consumed by the graph
algorithms (only `id` is read). -/
def Snapshot.gnodes (s : Snapshot) : List (GNode JStr) := s.nodes.map fun n => { id := n.id }

/-- The snapshot's edge list in the abstract shape consumed by the graph
algorithms. -/
def Snapshot.gedges (s : Snapshot) : List (GEdge JStr) :=
  s.edges.map fun e => { fromId := e.fromId, toId := e.toId }

/-! ## Claim-level definitions -/

/-- The parent list of an object (empty for blobs and trees). -/
def GObj.parentsOf : GObj → List JStr
  | .commit _ ps _ _ _ _ => ps
  | _ => []

/-- Whether an object is a commit. -/
def GObj.isCommit : GObj → Bool
  | .commit _ _ _ _ _ _ => true
  | _ => false

/-- A one-commit repository used as a concrete test state. -/
def repoOne : GitRepository := (GitRepository.empty.commit [116] [109] [97] [122]).2

/-- The depth-first ancestry walk described by the spec for `mergeBase`:
the tip first, then the walks of its parents in declared order (skipping
falsy hashes and stopping at missing or non-commit objects), with the same
depth fuel as the source's `findCommon` recursion. -/
def specAncestryWalk (r : GitRepository) : Nat → JStr → List JStr
  | 0, _ => []
  | f + 1, h =>
    if h = [] then []
    else
      h ::
        (match r.getObject h with
         | some (GObj.commit _ ps _ _ _ _) => ps.flatMap fun p => specAncestryWalk r f p
         | _ => [])

/-- One parent-following step: `y` is a (truthy) declared parent of the
commit stored at `x`. -/
def parentStep (r : GitRepository) (x y : JStr) : Prop :=
  ∃ t ps a m ts hh,
    r.getObject x = some (GObj.commit t ps a m ts hh) ∧ y ∈ ps ∧ y ≠ []

/-- `x` is an inclusive ancestor of `tip`: reachable by zero or more
parent-following steps. -/
def AncestorOf (r : GitRepository) (tip x : JStr) : Prop :=
  Relation.ReflTransGen (parentStep r) tip x

/-- The branch name used in the merge-base scenario. -/
def featureStr : JStr := [102, 98]

/-- Scenario history: two commits on `main`. -/
def scRepo2 : GitRepository := (repoOne.commit [116] [109, 50] [97] [122]).2

/-- The second scenario commit's fingerprint. -/
def scC2hash : JStr := (repoOne.commit [116] [109, 50] [97] [122]).1.hashOf

/-- Scenario history: a feature branch forked at the second commit, one
commit on it, then a fourth commit back on `main`. -/
def scRepoFinal : GitRepository :=
  (((((scRepo2.createBranch featureStr none).checkout featureStr).2.commit
      [116] [109, 51] [97] [122]).2.checkout mainStr).2.commit
      [116] [109, 52] [97] [122]).2

/-- Proof measure: the number of object-store keys not yet collected in
`anc` (the traverse fuel exceeds it). -/
def travMeasure (r : GitRepository) (anc : List JStr) : Nat :=
  ((r.objects.entries.map Prod.fst).filter fun k => decide (k ∉ anc)).length

/-- Scenario state after forking and checking out the feature branch. -/
def scRepo3 : GitRepository := ((scRepo2.createBranch featureStr none).checkout featureStr).2

/-- The feature branch tip (third scenario commit). -/
def scFeatureTip : JStr := (scRepo3.commit [116] [109, 51] [97] [122]).1.hashOf

/-- The main branch tip (fourth scenario commit). -/
def scMainTip : JStr :=
  ((((scRepo3.commit [116] [109, 51] [97] [122]).2.checkout mainStr).2.commit
      [116] [109, 52] [97] [122]).1).hashOf

section GraphClaimDefs

variable {α : Type} [DecidableEq α]

/-- An edge list is acyclic when some rank function strictly increases along
every edge (child `fromId` to parent `toId`). -/
def AcyclicEdges (edges : List (GEdge α)) : Prop :=
  ∃ rk : α → Nat, ∀ e ∈ edges, rk e.fromId < rk e.toId

/-- The edges kept by `topologicalSort`: both endpoints are node ids. -/
def fEdges (nodes : List (GNode α)) (edges : List (GEdge α)) : List (GEdge α) :=
  edges.filter fun e =>
    decide (e.fromId ∈ nodes.map GNode.id) && decide (e.toId ∈ nodes.map GNode.id)

/-- The adjacency list of `k` as built by `topologicalSort`. -/
def adjOf (nodes : List (GNode α)) (edges : List (GEdge α)) (k : α) : List α :=
  ((fEdges nodes edges).filter fun e => decide (e.fromId = k)).map GEdge.toId

/-- The number of kept edges into `k` whose source is not yet in `s`
(the current value of `k` in the in-degree map). -/
def degRem (nodes : List (GNode α)) (edges : List (GEdge α)) (s : List α) (k : α) : Nat :=
  ((fEdges nodes edges).filter fun e =>
    decide (e.toId = k) && decide (e.fromId ∉ s)).length

/-- The number of kept edges from `v` to `k`. -/
def cntEdge (nodes : List (GNode α)) (edges : List (GEdge α)) (v k : α) : Nat :=
  ((fEdges nodes edges).filter fun e =>
    decide (e.fromId = v) && decide (e.toId = k)).length

/-- The contract of the Kahn work loop: the output extends `s`, repeats no
node, is exactly the node-id set, and lists every kept edge's source before
its target. -/
def KahnOut (nodes : List (GNode α)) (edges : List (GEdge α)) (s out : List α) : Prop :=
  (∃ t, out = s ++ t) ∧ out.Nodup ∧ (∀ x ∈ out, x ∈ nodes.map GNode.id) ∧
  (∀ k ∈ nodes.map GNode.id, k ∈ out) ∧
  (∀ e ∈ fEdges nodes edges, ∃ l1 l2, out = l1 ++ e.toId :: l2 ∧ e.fromId ∈ l1)

end GraphClaimDefs

section LayoutDefs

variable {α : Type} [DecidableEq α]

/-- The layer map built by `calculateLayout`: node id to
`sorted.length - index - 1`. -/
def layersOf (nodes : List (GNode α)) (edges : List (GEdge α)) : JMap α Nat :=
  let sorted := topologicalSort nodes edges
  sorted.enum.foldl (fun m p => m.set p.2 (sorted.length - p.1 - 1)) JMap.empty

/-- The initial node map of `calculateLayout`: every node unplaced. -/
def nodeMap0Of (nodes : List (GNode α)) : JMap α (LNode α) :=
  nodes.foldl (fun m n => m.set n.id { id := n.id, x := none, y := none }) JMap.empty

/-- The per-layer node count map built by `calculateLayout`. -/
def countsOf (nodes : List (GNode α)) (edges : List (GEdge α)) : JMap Nat Nat :=
  (layersOf nodes edges).entries.foldl
    (fun m kv => m.set kv.2 (((m.get kv.2).getD 0) + 1)) JMap.empty

/-- One step of `calculateLayout`'s placement fold. -/
def placeBody (layerCounts : JMap Nat Nat)
    (nodeWidth nodeHeight horizontalGap verticalGap : ℚ)
    (st : JMap Nat Nat × JMap α (LNode α)) (kv : α × Nat) :
    JMap Nat Nat × JMap α (LNode α) :=
  let position := (st.1.get kv.2).getD 0
  let pos' := st.1.set kv.2 (position + 1)
  match st.2.get kv.1 with
  | some ln =>
    let layerSize := (layerCounts.get kv.2).getD 0
    let totalWidth : ℚ :=
      (layerSize : ℚ) * nodeWidth + ((layerSize : ℚ) - 1) * horizontalGap
    let startX : ℚ := -totalWidth / 2
    let x : ℚ := startX + (position : ℚ) * (nodeWidth + horizontalGap) + nodeWidth / 2
    let y : ℚ := (kv.2 : ℚ) * verticalGap + nodeHeight / 2
    (pos', st.2.set kv.1 { ln with x := some x, y := some y })
  | none => (pos', st.2)

/-- The placement fold of `calculateLayout` over the layer entries. -/
def placedOf (nodes : List (GNode α)) (edges : List (GEdge α))
    (nodeWidth nodeHeight horizontalGap verticalGap : ℚ) :
    JMap Nat Nat × JMap α (LNode α) :=
  (layersOf nodes edges).entries.foldl
    (placeBody (countsOf nodes edges) nodeWidth nodeHeight horizontalGap verticalGap)
    (JMap.empty, nodeMap0Of nodes)

/-- The edge-path record built by `calculateLayout` for one edge. -/
def layoutEdgeOf (nodeMap : JMap α (LNode α)) (nodeHeight : ℚ) (e : GEdge α) : LEdge α :=
  match nodeMap.get e.fromId, nodeMap.get e.toId with
  | some fn, some tn =>
    match fn.x, fn.y, tn.x, tn.y with
    | some fx, some fy, some tx, some ty =>
      { fromId := e.fromId, toId := e.toId,
        x1 := some fx, y1 := some (fy + nodeHeight / 2),
        x2 := some tx, y2 := some (ty - nodeHeight / 2),
        controlX1 := some fx, controlY1 := some (fy + (ty - fy) / 2),
        controlX2 := some tx, controlY2 := some (fy + (ty - fy) / 2) }
    | _, _, _, _ =>
      { fromId := e.fromId, toId := e.toId, x1 := none, y1 := none,
        x2 := none, y2 := none, controlX1 := none, controlY1 := none,
        controlX2 := none, controlY2 := none }
  | _, _ =>
    { fromId := e.fromId, toId := e.toId, x1 := none, y1 := none,
      x2 := none, y2 := none, controlX1 := none, controlY1 := none,
      controlX2 := none, controlY2 := none }

/-- `calculateLayout` staged through the named intermediate maps. -/
def calcStaged (nodes : List (GNode α)) (edges : List (GEdge α))
    (nodeWidth nodeHeight horizontalGap verticalGap : ℚ) :
    List (LNode α) × List (LEdge α) :=
  if nodes.length = 0 then ([], [])
  else
    ((placedOf nodes edges nodeWidth nodeHeight horizontalGap verticalGap).2.entries.map (·.2),
     edges.map fun e =>
       layoutEdgeOf (placedOf nodes edges nodeWidth nodeHeight horizontalGap verticalGap).2
         nodeHeight e)

/-- The placed form of a node: `x` centred at 0, `y` from its layer. -/
def placeNode (base : α → LNode α) (lv : α → Nat) (nodeHeight verticalGap : ℚ) (k : α) :
    LNode α :=
  { base k with x := some 0, y := some ((lv k : ℚ) * verticalGap + nodeHeight / 2) }

end LayoutDefs

section BfsDefs

variable {α : Type} [DecidableEq α]

/-- Undirected adjacency induced by an edge list. -/
def adjB (edges : List (GEdge α)) (u v : α) : Bool :=
  edges.any fun e => (decide (e.fromId = u) && decide (e.toId = v)) ||
    (decide (e.toId = u) && decide (e.fromId = v))

/-- Consecutive vertices all adjacent (undirected). -/
def chainAdj (edges : List (GEdge α)) : List α → Bool
  | [] => true
  | [_] => true
  | u :: v :: rest => adjB edges u v && chainAdj edges (v :: rest)

/-- An undirected path from `s` to `t`: nonempty, starts at `s`, ends at
`t`, consecutive vertices adjacent. -/
def UPath (edges : List (GEdge α)) (s t : α) (q : List α) : Prop :=
  q.head? = some s ∧ q.getLast? = some t ∧ chainAdj edges q = true

/-- One edge-processing step of `buildPathGraph`. -/
def bpgStep (g : JMap α (List α)) (e : GEdge α) : JMap α (List α) :=
  let g1 := if g.has e.fromId then g else g.set e.fromId []
  let g2 := if g1.has e.toId then g1 else g1.set e.toId []
  let g3 := g2.set e.fromId (((g2.get e.fromId).getD []) ++ [e.toId])
  g3.set e.toId (((g3.get e.toId).getD []) ++ [e.fromId])

/-- One neighbour-processing step of `findShortestPath`'s loop. -/
def bfsStep (path : List α) (st : List α × List (List α)) (nb : α) :
    List α × List (List α) :=
  if nb ∈ st.1 then st else (st.1 ++ [nb], st.2 ++ [path ++ [nb]])

end BfsDefs

section CycleDefs

variable {α : Type} [DecidableEq α]

/-- One edge step of `buildCycleGraph`. -/
def bcgStep (g : JMap α (List α)) (e : GEdge α) : JMap α (List α) :=
  if g.has e.fromId then g.set e.fromId (((g.get e.fromId).getD []) ++ [e.toId])
  else g

/-- One neighbour step of `detectCycle`'s DFS, abstracted over the recursive
call. -/
def dcStep (rec : α → List α → List α → Bool × List α × List α)
    (st : Bool × List α × List α) (nb : α) : Bool × List α × List α :=
  if st.1 then st
  else if nb ∈ st.2.1 then (true, st.2)
  else if nb ∈ st.2.2 then st
  else rec nb st.2.1 st.2.2

end CycleDefs

section RepoCycleDefs

/-- The hashes an object mentions: its own `hash` field, plus (for a commit)
its parent hashes. -/
def GObj.mentioned : GObj → List JStr
  | .blob _ h => [h]
  | .tree _ h => [h]
  | .commit _ ps _ _ _ h => h :: ps

/-- Every hash a repository state mentions: object-store keys, ref-table
values, and all hash/parent fields of stored objects. -/
def mentionedHashes (r : GitRepository) : List JStr :=
  r.objects.entries.map Prod.fst ++ r.refs.entries.map Prod.snd ++
    (r.objects.entries.map Prod.snd).flatMap GObj.mentioned

/-- Repository states reachable from a fresh repository through the public
API: `commit`, `createBranch`, `checkout`. -/
inductive Reachable : GitRepository → Prop where
  | empty : Reachable GitRepository.empty
  | commit (r : GitRepository) (t m a ts : JStr) : Reachable r →
      Reachable (r.commit t m a ts).2
  | createBranch (r : GitRepository) (n : JStr) (h : Option JStr) : Reachable r →
      Reachable (r.createBranch n h)
  | checkout (r : GitRepository) (n : JStr) : Reachable r →
      Reachable (r.checkout n).2

/-- Reachability through the public API in which every `commit`'s new
fingerprint is fresh: it collides with no hash the state already mentions. -/
inductive ReachableFresh : GitRepository → Prop where
  | empty : ReachableFresh GitRepository.empty
  | commit (r : GitRepository) (t m a ts : JStr) : ReachableFresh r →
      (r.commit t m a ts).1.hashOf ∉ mentionedHashes r →
      ReachableFresh (r.commit t m a ts).2
  | createBranch (r : GitRepository) (n : JStr) (h : Option JStr) : ReachableFresh r →
      ReachableFresh (r.createBranch n h)
  | checkout (r : GitRepository) (n : JStr) : ReachableFresh r →
      ReachableFresh (r.checkout n).2

/-- A rank certificate for a store: every mentioned hash ranks below `N` and
every stored commit ranks strictly above its parents. -/
def RankedStore (r : GitRepository) : Prop :=
  ∃ rk : JStr → Nat, ∃ N : Nat,
    (∀ h ∈ mentionedHashes r, rk h < N) ∧
    (∀ h t ps a m ts hh, r.objects.get h = some (GObj.commit t ps a m ts hh) →
      ∀ p ∈ ps, rk p < rk hh)

end RepoCycleDefs

section SnapDefs

/-- The union of all refs' commit histories, as folded by `getCommitGraph`. -/
def allCommitsOf (r : GitRepository) : List JStr :=
  r.refs.entries.foldl
    (fun acc br =>
      (r.getCommitHistory (some br.2)).foldl (fun a c => setAdd a c.hashOf) acc)
    []

/-- One hash step of `getCommitGraph`'s node/edge fold. -/
def snapStep (r : GitRepository) (st : List SnapNode × List SnapEdge) (h : JStr) :
    List SnapNode × List SnapEdge :=
  match r.getObject h with
  | some (GObj.commit _ ps a m ts hh) =>
      (st.1 ++ [{ id := hh, short := hh.take 7, message := m, author := a,
                  timestamp := ts, parents := ps }],
       st.2 ++ ps.map fun p => { fromId := hh, toId := p })
  | _ => st

end SnapDefs

section CycleCe

/-- The crafted branch target: 32 zeros then `12345678`. -/
def cyG : JStr := List.replicate 32 48 ++ [49, 50, 51, 52, 53, 54, 55, 56]

/-- The branch name `b`. -/
def cyB : JStr := [98]

/-- A repository reached by `createBranch("b", cyG)`, `checkout("b")`, then a
commit whose crafted message makes its fingerprint equal `cyG` — its own
parent. -/
def cyRepo : GitRepository :=
  ((((GitRepository.empty.createBranch cyB (some cyG)).checkout cyB).2).commit
    [116] [109, 49, 53, 49, 57, 73, 57, 67] [97] [116, 115]).2

end CycleCe


/-! ## Theorems -/

/-- C7: `checkout(name)` returns success and repoints `HEAD` at `name`
exactly when `name` has a ref-table entry; otherwise it reports failure and
leaves the whole repository state unchanged. -/
theorem checkout_switches_iff_branch_exists (r : GitRepository) (n : JStr) :
    ((r.checkout n).1 = r.refs.has n) ∧
    (r.refs.has n = true → (r.checkout n).2 = { r with HEAD := n }) ∧
    (r.refs.has n = false → (r.checkout n).2 = r) := by
  unfold GitRepository.checkout
  by_cases h : r.refs.has n <;> simp [h]

/-- Witness for C7 at concrete inputs: checking out a missing branch from the
empty repository fails and changes nothing, and the success flag matches
`refs.has`. -/
theorem checkout_switches_iff_branch_exists_witness :
    (GitRepository.empty.checkout mainStr).2 = GitRepository.empty ∧
    (GitRepository.empty.checkout mainStr).1 = GitRepository.empty.refs.has mainStr :=
  ⟨(checkout_switches_iff_branch_exists GitRepository.empty mainStr).2.2 (by decide),
   (checkout_switches_iff_branch_exists GitRepository.empty mainStr).1⟩

theorem commit_fst_eq (r : GitRepository) (t m a ts : JStr) :
    (r.commit t m a ts).1 =
      mkCommit t
        (match r.refs.get r.HEAD with
         | some h => if h = [] then [] else [h]
         | none => []) a m ts := rfl

theorem commit_HEAD_eq (r : GitRepository) (t m a ts : JStr) :
    (r.commit t m a ts).2.HEAD = r.HEAD := rfl

theorem commit_fst_exists (r : GitRepository) (t m a ts : JStr) :
    ∃ ps, (r.commit t m a ts).1 = mkCommit t ps a m ts := ⟨_, rfl⟩

theorem commit_hash_ne_nil (r : GitRepository) (t m a ts : JStr) :
    (r.commit t m a ts).1.hashOf ≠ [] := by
  obtain ⟨ps, hps⟩ := commit_fst_exists r t m a ts
  rw [hps]
  simp only [mkCommit, GObj.hashOf, commitHash]
  exact hashString_ne_nil _

theorem commit_refs_get_HEAD (r : GitRepository) (t m a ts : JStr) :
    (r.commit t m a ts).2.refs.get r.HEAD = some (r.commit t m a ts).1.hashOf := by
  simp [GitRepository.commit, GitRepository.storeObject]

theorem commit_parents_of_none (r : GitRepository) (t m a ts : JStr)
    (h : r.refs.get r.HEAD = none) : (r.commit t m a ts).1.parentsOf = [] := by
  rw [commit_fst_eq, h]
  rfl

theorem commit_parents_of_some (r : GitRepository) (t m a ts h : JStr)
    (hh : r.refs.get r.HEAD = some h) (hne : h ≠ []) :
    (r.commit t m a ts).1.parentsOf = [h] := by
  rw [commit_fst_eq, hh]
  simp [hne, mkCommit, GObj.parentsOf]

/-- C3: `commit(treeHash, message, author)` builds a commit whose parent list
is the current reference's target when the ref table maps `HEAD` to a commit
fingerprint and is empty otherwise, stores the new commit under its
fingerprint, and repoints the current reference at it; from an empty
repository the first commit has no parents and a second commit on the same
reference has exactly the first commit's fingerprint as its single parent. -/
theorem commit_parents_store_and_ref (r : GitRepository) (t m a ts : JStr) :
    (r.refs.get r.HEAD = none → (r.commit t m a ts).1.parentsOf = []) ∧
    (∀ h, r.refs.get r.HEAD = some h → h ≠ [] →
      (r.commit t m a ts).1.parentsOf = [h]) ∧
    ((r.commit t m a ts).2.objects.get (r.commit t m a ts).1.hashOf =
      some (r.commit t m a ts).1) ∧
    ((r.commit t m a ts).2.refs.get r.HEAD = some (r.commit t m a ts).1.hashOf) ∧
    ((GitRepository.empty.commit t m a ts).1.parentsOf = []) ∧
    (∀ t2 m2 a2 ts2,
      (((GitRepository.empty.commit t m a ts).2.commit t2 m2 a2 ts2).1.parentsOf =
        [(GitRepository.empty.commit t m a ts).1.hashOf])) := by
  refine ⟨?_, ?_, ?_, ?_, ?_, ?_⟩
  · intro h
    exact commit_parents_of_none r t m a ts h
  · intro h hh hne
    exact commit_parents_of_some r t m a ts h hh hne
  · simp [GitRepository.commit, GitRepository.storeObject]
  · simp [GitRepository.commit, GitRepository.storeObject]
  · exact commit_parents_of_none GitRepository.empty t m a ts rfl
  · intro t2 m2 a2 ts2
    have hh : (GitRepository.empty.commit t m a ts).2.refs.get
        ((GitRepository.empty.commit t m a ts).2.HEAD) =
        some (GitRepository.empty.commit t m a ts).1.hashOf := by
      rw [commit_HEAD_eq]
      exact commit_refs_get_HEAD GitRepository.empty t m a ts
    exact commit_parents_of_some _ t2 m2 a2 ts2 _ hh (commit_hash_ne_nil _ _ _ _ _)

/-- Witness for C3 at concrete inputs: from the empty repository, the first
commit has no parents and a second commit has the first's fingerprint as its
single parent. -/
theorem commit_parents_store_and_ref_witness :
    (GitRepository.empty.commit [116] [109] [97] [122]).1.parentsOf = [] ∧
    (((GitRepository.empty.commit [116] [109] [97] [122]).2.commit
        [116] [110] [97] [122]).1.parentsOf =
      [(GitRepository.empty.commit [116] [109] [97] [122]).1.hashOf]) ∧
    (GitRepository.empty.refs.get GitRepository.empty.HEAD = none → True) :=
  ⟨(commit_parents_store_and_ref GitRepository.empty [116] [109] [97] [122]).2.2.2.2.1,
   (commit_parents_store_and_ref GitRepository.empty [116] [109] [97] [122]).2.2.2.2.2
      [116] [110] [97] [122],
   fun _ => trivial⟩

theorem createBranch_none_refs (r : GitRepository) (n h : JStr)
    (hh : r.refs.get r.HEAD = some h) (hne : h ≠ []) :
    (r.createBranch n none).refs = r.refs.set n h ∧ (r.createBranch n none).HEAD = r.HEAD := by
  simp [GitRepository.createBranch, hh, hne]

/-- C8: after `createBranch(feature)`, `checkout(feature)` and `commit(...)`,
every ref-table entry other than `feature`'s is exactly as before, and
`feature`'s entry is the new commit's fingerprint. -/
theorem branch_isolation_after_feature_commit (r : GitRepository)
    (h t m a ts b feat : JStr)
    (hh : r.refs.get r.HEAD = some h) (hne : h ≠ []) (hb : b ≠ feat) :
    ((((r.createBranch feat none).checkout feat).2.commit t m a ts).2.refs.get b =
        r.refs.get b) ∧
    ((((r.createBranch feat none).checkout feat).2.commit t m a ts).2.refs.get feat =
        some ((((r.createBranch feat none).checkout feat).2.commit t m a ts).1.hashOf)) := by
  obtain ⟨hrefs, hHEAD⟩ := createBranch_none_refs r feat h hh hne
  set r1 := r.createBranch feat none with hr1
  have hhas : r1.refs.has feat = true := by
    rw [hrefs]
    simp [JMap.has]
  have hco : (r1.checkout feat).2 = { r1 with HEAD := feat } := by
    simp [GitRepository.checkout, hhas]
  rw [hco]
  constructor
  · have hcr :
        ({ r1 with HEAD := feat } : GitRepository).commit t m a ts
          = (({ r1 with HEAD := feat } : GitRepository).commit t m a ts) := rfl
    have hrefs2 :
        (({ r1 with HEAD := feat } : GitRepository).commit t m a ts).2.refs =
          r1.refs.set feat
            ((({ r1 with HEAD := feat } : GitRepository).commit t m a ts).1.hashOf) := rfl
    rw [hrefs2, JMap.get_set_ne _ _ _ _ (fun e => hb e.symm), hrefs,
      JMap.get_set_ne _ _ _ _ (fun e => hb e.symm)]
  · have := commit_refs_get_HEAD ({ r1 with HEAD := feat } : GitRepository) t m a ts
    simpa using this

/-- Witness for C8 at concrete inputs: a repository with one commit on
`main`, then `createBranch`/`checkout`/`commit` on a feature branch, leaves
`main`'s entry untouched and advances only the feature entry. -/
theorem branch_isolation_after_feature_commit_witness :
    ((((GitRepository.empty.commit [116] [109] [97] [122]).2.createBranch [102] none).checkout
          [102]).2.commit [116] [110] [97] [122]).2.refs.get mainStr =
      (GitRepository.empty.commit [116] [109] [97] [122]).2.refs.get mainStr ∧
    ((((GitRepository.empty.commit [116] [109] [97] [122]).2.createBranch [102] none).checkout
          [102]).2.commit [116] [110] [97] [122]).2.refs.get [102] =
      some (((((GitRepository.empty.commit [116] [109] [97] [122]).2.createBranch [102]
          none).checkout [102]).2.commit [116] [110] [97] [122]).1.hashOf) :=
  branch_isolation_after_feature_commit
    (GitRepository.empty.commit [116] [109] [97] [122]).2
    ((GitRepository.empty.commit [116] [109] [97] [122]).1.hashOf)
    [116] [110] [97] [122] mainStr [102]
    (commit_refs_get_HEAD GitRepository.empty [116] [109] [97] [122])
    (commit_hash_ne_nil GitRepository.empty [116] [109] [97] [122])
    (by decide)

theorem chDfs_zero (r : GitRepository) (h : JStr) (st : List JStr × List GObj) :
    chDfs r 0 h st = st := by
  rw [chDfs]

theorem foldl_preserve {β σ : Type _} (g : σ → β → σ) (P : σ → Prop)
    (hstep : ∀ s b, P s → P (g s b)) :
    ∀ (l : List β) (s : σ), P s → P (l.foldl g s) := by
  intro l
  induction l with
  | nil => intro s hs; exact hs
  | cons b bs ih =>
    intro s hs
    exact ih _ (hstep s b hs)

theorem chDfs_commits (r : GitRepository) :
    ∀ (f : Nat) (h : JStr) (st : List JStr × List GObj),
      (∀ o ∈ st.2, o.isCommit = true) →
      ∀ o ∈ (chDfs r f h st).2, o.isCommit = true := by
  intro f
  induction f with
  | zero =>
    intro h st hinv o ho
    rw [chDfs_zero] at ho
    exact hinv o ho
  | succ f ih =>
    intro h st hinv o ho
    by_cases hskip : h = [] ∨ h ∈ st.1
    · rw [chDfs, if_pos hskip] at ho
      exact hinv o ho
    · rw [chDfs, if_neg hskip] at ho
      rcases hobj : r.getObject h with _ | o'
      · rw [hobj] at ho
        exact hinv o ho
      · rcases o' with ⟨c, h'⟩ | ⟨es, h'⟩ | ⟨t, ps, a, m, ts, hh⟩
        · rw [hobj] at ho
          exact hinv o ho
        · rw [hobj] at ho
          exact hinv o ho
        · rw [hobj] at ho
          refine foldl_preserve (fun st2 p => chDfs r f p st2)
            (fun st2 => ∀ o ∈ st2.2, o.isCommit = true) ?_ ps _ ?_ o ho
          · intro st2 p hp
            exact ih p st2 hp
          · intro o2 ho2
            rcases List.mem_append.1 ho2 with h2 | h2
            · exact hinv o2 h2
            · rcases List.mem_singleton.1 h2 with rfl
              rfl

theorem chDfs_noncommit_start (r : GitRepository) (f : Nat) (h : JStr)
    (hne : h ≠ []) (hnc : ∀ o, r.objects.get h = some o → o.isCommit = false) :
    (chDfs r (f + 1) h ([], [])).2 = [] := by
  have hskip : ¬(h = [] ∨ h ∈ (([], []) : List JStr × List GObj).1) := by
    simp [hne]
  rw [chDfs, if_neg hskip]
  rcases hobj : r.getObject h with _ | o'
  · rfl
  · rcases o' with ⟨c, h'⟩ | ⟨es, h'⟩ | ⟨t, ps, a, m, ts, hh⟩
    · rfl
    · rfl
    · have := hnc _ hobj
      simp [GObj.isCommit] at this

theorem getCommitHistory_some_ne (r : GitRepository) (s : JStr) (hs : s ≠ []) :
    r.getCommitHistory (some s) = (chDfs r (r.objects.size + 2) s ([], [])).2 := by
  unfold GitRepository.getCommitHistory
  simp [hs]

theorem getCommitHistory_none_eq (r : GitRepository) :
    r.getCommitHistory none =
      (match r.refs.get r.HEAD with
       | none => []
       | some h0 => if h0 = [] then [] else (chDfs r (r.objects.size + 2) h0 ([], [])).2) := rfl

theorem getCommitHistory_some_nil (r : GitRepository) :
    r.getCommitHistory (some []) = r.getCommitHistory none := rfl

/-- C10 (amended): `getCommitHistory` returns the empty sequence when the
requested start — a given non-empty fingerprint, or the current reference's
target when the argument is omitted or empty (a falsy, hence omitted-like,
value) — is absent from the object store or names a non-commit object; and
no blob or tree ever appears in any returned history. -/
theorem getCommitHistory_absent_or_noncommit (r : GitRepository) :
    (∀ s, s ≠ [] → (∀ o, r.objects.get s = some o → o.isCommit = false) →
      r.getCommitHistory (some s) = []) ∧
    (r.refs.get r.HEAD = none → r.getCommitHistory none = []) ∧
    (∀ h, r.refs.get r.HEAD = some h → h = [] → r.getCommitHistory none = []) ∧
    (∀ h, r.refs.get r.HEAD = some h → h ≠ [] →
      (∀ o, r.objects.get h = some o → o.isCommit = false) →
      r.getCommitHistory none = []) ∧
    (∀ start, ∀ o ∈ r.getCommitHistory start, o.isCommit = true) := by
  have hsz : r.objects.size + 2 = (r.objects.size + 1) + 1 := by omega
  refine ⟨?_, ?_, ?_, ?_, ?_⟩
  · intro s hs hnc
    rw [getCommitHistory_some_ne r s hs, hsz]
    exact chDfs_noncommit_start r _ s hs hnc
  · intro h
    rw [getCommitHistory_none_eq, h]
  · intro h hh he
    rw [getCommitHistory_none_eq, hh]
    simp [he]
  · intro h hh hne hnc
    rw [getCommitHistory_none_eq, hh]
    simp only [if_neg hne]
    rw [hsz]
    exact chDfs_noncommit_start r _ h hne hnc
  · have hbase : ∀ h0 : JStr,
        ∀ o ∈ (chDfs r (r.objects.size + 2) h0 ([], [])).2, o.isCommit = true := by
      intro h0 o ho
      exact chDfs_commits r _ h0 ([], []) (by intro o2 ho2; simp at ho2) o ho
    have hnone : ∀ o ∈ r.getCommitHistory none, o.isCommit = true := by
      intro o ho
      rw [getCommitHistory_none_eq] at ho
      rcases hr : r.refs.get r.HEAD with _ | h
      · rw [hr] at ho
        simp at ho
      · rw [hr] at ho
        have ho2 : o ∈ (if h = [] then ([] : List GObj)
            else (chDfs r (r.objects.size + 2) h ([], [])).2) := ho
        by_cases he : h = []
        · rw [if_pos he] at ho2
          simp at ho2
        · rw [if_neg he] at ho2
          exact hbase h o ho2
    intro start o ho
    rcases start with _ | s
    · exact hnone o ho
    · by_cases hs : s = []
      · subst hs
        rw [getCommitHistory_some_nil] at ho
        exact hnone o ho
      · rw [getCommitHistory_some_ne r s hs] at ho
        exact hbase s o ho

/-- Witness for C10's amended theorem at concrete inputs: on the empty
repository any non-empty start yields an empty history, and the omitted-start
history is empty too. -/
theorem getCommitHistory_absent_or_noncommit_witness :
    GitRepository.empty.getCommitHistory (some [97]) = [] ∧
    GitRepository.empty.getCommitHistory none = [] :=
  ⟨(getCommitHistory_absent_or_noncommit GitRepository.empty).1 [97] (by decide)
      (by intro o ho; simp [GitRepository.empty, JMap.empty, JMap.get] at ho),
   (getCommitHistory_absent_or_noncommit GitRepository.empty).2.1 rfl⟩

set_option maxRecDepth 10000 in
/-- Counterexample to C10 as stated: in a one-commit repository the empty
fingerprint is absent from the object store, yet
`getCommitHistory(some "")` is not empty — the empty string is falsy, so the
source falls back to the current reference's target and returns its full
history instead of the empty sequence. -/
theorem getCommitHistory_empty_start_counterexample :
    repoOne.objects.get [] = none ∧ repoOne.getCommitHistory (some []) ≠ [] := by
  constructor
  · decide
  · decide

theorem mbTraverse_zero (r : GitRepository) (h : JStr) (anc : List JStr) :
    mbTraverse r 0 h anc = anc := by
  rw [mbTraverse]

theorem mbTraverse_nilhash (r : GitRepository) (f : Nat) (anc : List JStr) :
    mbTraverse r f [] anc = anc := by
  cases f with
  | zero => rw [mbTraverse]
  | succ f => rw [mbTraverse, if_pos (Or.inl rfl)]

theorem foldl_preserve_mem {β σ : Type _} (g : σ → β → σ) (P : σ → Prop) :
    ∀ (l : List β), (∀ s b, b ∈ l → P s → P (g s b)) →
      ∀ (s : σ), P s → P (l.foldl g s) := by
  intro l
  induction l with
  | nil => intro _ s hs; exact hs
  | cons b bs ih =>
    intro hstep s hs
    exact ih (fun s2 b2 hb2 => hstep s2 b2 (List.mem_cons_of_mem b hb2)) _
      (hstep s b (List.mem_cons_self b bs) hs)

theorem mbTraverse_mono (r : GitRepository) :
    ∀ (f : Nat) (h : JStr) (anc : List JStr), anc ⊆ mbTraverse r f h anc := by
  intro f
  induction f with
  | zero =>
    intro h anc
    rw [mbTraverse_zero]
    exact List.Subset.refl anc
  | succ f ih =>
    intro h anc
    rw [mbTraverse]
    by_cases hskip : h = [] ∨ h ∈ anc
    · rw [if_pos hskip]
      exact List.Subset.refl anc
    · rw [if_neg hskip]
      rcases hobj : r.getObject h with _ | o'
      · exact List.subset_append_left anc [h]
      · rcases o' with ⟨c, h'⟩ | ⟨es, h'⟩ | ⟨t, ps, a, m, ts, hh⟩
        · exact List.subset_append_left anc [h]
        · exact List.subset_append_left anc [h]
        · refine Set.Subset.trans (List.subset_append_left anc [h]) ?_
          exact foldl_preserve_mem (fun anc2 p => mbTraverse r f p anc2)
            (fun a => anc ++ [h] ⊆ a) ps
            (fun s b _ hsub => Set.Subset.trans hsub (ih b s)) _ (List.Subset.refl _)

theorem mbTraverse_self (r : GitRepository) (f : Nat) (h : JStr) (anc : List JStr)
    (hne : h ≠ []) : h ∈ mbTraverse r (f + 1) h anc := by
  rw [mbTraverse]
  by_cases hmem : h ∈ anc
  · rw [if_pos (Or.inr hmem)]
    exact hmem
  · have hskip : ¬(h = [] ∨ h ∈ anc) := by
      rintro (he | hm)
      · exact hne he
      · exact hmem hm
    rw [if_neg hskip]
    have hbase : h ∈ anc ++ [h] := List.mem_append_right anc (List.mem_singleton_self h)
    rcases hobj : r.getObject h with _ | o'
    · exact hbase
    · rcases o' with ⟨c, h'⟩ | ⟨es, h'⟩ | ⟨t, ps, a, m, ts, hh⟩
      · exact hbase
      · exact hbase
      · exact foldl_preserve_mem (fun anc2 p => mbTraverse r f p anc2)
          (fun a => h ∈ a) ps
          (fun s b _ hsub => mbTraverse_mono r f b s hsub) _ hbase

theorem mbTraverse_sound (r : GitRepository) :
    ∀ (f : Nat) (h : JStr) (anc : List JStr) (x : JStr),
      x ∈ mbTraverse r f h anc → x ∈ anc ∨ (x ≠ [] ∧ AncestorOf r h x) := by
  intro f
  induction f with
  | zero =>
    intro h anc x hx
    rw [mbTraverse_zero] at hx
    exact Or.inl hx
  | succ f ih =>
    intro h anc x hx
    rw [mbTraverse] at hx
    by_cases hskip : h = [] ∨ h ∈ anc
    · rw [if_pos hskip] at hx
      exact Or.inl hx
    · rw [if_neg hskip] at hx
      have hne : h ≠ [] := fun he => hskip (Or.inl he)
      have hself : ∀ y : JStr, y = h → y ∈ anc ∨ (y ≠ [] ∧ AncestorOf r h y) := by
        rintro y rfl
        exact Or.inr ⟨hne, Relation.ReflTransGen.refl⟩
      rcases hobj : r.getObject h with _ | o'
      · rw [hobj] at hx
        rcases List.mem_append.1 hx with hx | hx
        · exact Or.inl hx
        · exact hself x (List.mem_singleton.1 hx)
      · rcases o' with ⟨c, h'⟩ | ⟨es, h'⟩ | ⟨t, ps, a, m, ts, hh⟩
        · rw [hobj] at hx
          rcases List.mem_append.1 hx with hx | hx
          · exact Or.inl hx
          · exact hself x (List.mem_singleton.1 hx)
        · rw [hobj] at hx
          rcases List.mem_append.1 hx with hx | hx
          · exact Or.inl hx
          · exact hself x (List.mem_singleton.1 hx)
        · rw [hobj] at hx
          have hfold :
              ∀ y ∈ ps.foldl (fun anc2 p => mbTraverse r f p anc2) (anc ++ [h]),
                y ∈ anc ∨ (y ≠ [] ∧ AncestorOf r h y) := by
            refine foldl_preserve_mem (fun anc2 p => mbTraverse r f p anc2)
              (fun a => ∀ y ∈ a, y ∈ anc ∨ (y ≠ [] ∧ AncestorOf r h y)) ps ?_ _ ?_
            · intro s p hp hs y hy
              by_cases hpe : p = []
              · subst hpe
                have hy2 : y ∈ mbTraverse r f [] s := hy
                rw [mbTraverse_nilhash] at hy2
                exact hs y hy2
              · rcases ih p s y hy with hy2 | ⟨hyne, hanc⟩
                · exact hs y hy2
                · refine Or.inr ⟨hyne, ?_⟩
                  exact Relation.ReflTransGen.head ⟨t, ps, a, m, ts, hh, hobj, hp, hpe⟩ hanc
            · intro y hy
              rcases List.mem_append.1 hy with hy | hy
              · exact Or.inl hy
              · exact hself y (List.mem_singleton.1 hy)
          exact hfold x hx

theorem length_filter_mono {α : Type} {p q : α → Bool} :
    ∀ l : List α, (∀ a ∈ l, p a = true → q a = true) →
      (l.filter p).length ≤ (l.filter q).length := by
  intro l
  induction l with
  | nil => intro _; simp
  | cons a l ih =>
    intro himp
    have ihl := ih fun b hb => himp b (List.mem_cons_of_mem a hb)
    by_cases hp : p a = true
    · have hq := himp a (List.mem_cons_self a l) hp
      simp [List.filter, hp, hq]
      omega
    · have hp' : p a = false := Bool.eq_false_iff.2 hp
      by_cases hq : q a = true
      · simp [List.filter, hp', hq]
        omega
      · have hq' : q a = false := Bool.eq_false_iff.2 hq
        simp [List.filter, hp', hq']
        omega

theorem travMeasure_mono (r : GitRepository) (anc anc' : List JStr) (hsub : anc ⊆ anc') :
    travMeasure r anc' ≤ travMeasure r anc := by
  refine length_filter_mono _ ?_
  intro a _ ha
  rw [decide_eq_true_iff] at ha ⊢
  intro hmem
  exact ha (hsub hmem)

theorem JMap.get_some_mem {κ β : Type} [DecidableEq κ] (m : JMap κ β) (k : κ) (v : β)
    (h : m.get k = some v) : k ∈ m.entries.map Prod.fst := by
  induction m with
  | nil => simp [JMap.get] at h
  | cons hd tl ih =>
    obtain ⟨k0, v0⟩ := hd
    rw [JMap.get] at h
    by_cases hk : k0 = k
    · subst hk
      exact List.mem_cons_self _ _
    · rw [if_neg hk] at h
      exact List.mem_cons_of_mem _ (ih h)

theorem filter_snoc_lt {α : Type} (p q : α → Bool) (h : α)
    (hph : p h = false) (hqh : q h = true) (hagree : ∀ a, a ≠ h → p a = q a) :
    ∀ L : List α, h ∈ L → (L.filter p).length + 1 ≤ (L.filter q).length := by
  intro L
  induction L with
  | nil => intro hmem; simp at hmem
  | cons a L ih =>
    intro hmem
    have hmono : (L.filter p).length ≤ (L.filter q).length := by
      refine length_filter_mono L ?_
      intro b _ hb
      by_cases hbh : b = h
      · subst hbh
        rw [hph] at hb
        exact absurd hb (by simp)
      · rw [← hagree b hbh]
        exact hb
    by_cases hah : a = h
    · subst hah
      simp only [List.filter, hph, hqh, List.length_cons]
      omega
    · have hmem' : h ∈ L := by
        rcases List.mem_cons.1 hmem with he | hm
        · exact absurd he.symm hah
        · exact hm
      have ihl := ih hmem'
      rcases hpa : p a with _ | _
      · have hqa : q a = false := by rw [← hagree a hah]; exact hpa
        simp only [List.filter, hpa, hqa]
        omega
      · have hqa : q a = true := by rw [← hagree a hah]; exact hpa
        simp only [List.filter, hpa, hqa, List.length_cons]
        omega

theorem travMeasure_snoc_lt (r : GitRepository) (anc : List JStr) (h : JStr)
    (hk : h ∈ r.objects.entries.map Prod.fst) (hnm : h ∉ anc) :
    travMeasure r (anc ++ [h]) + 1 ≤ travMeasure r anc := by
  unfold travMeasure
  refine filter_snoc_lt _ _ h ?_ ?_ ?_ _ hk
  · simp
  · simpa using hnm
  · intro a hah
    simp only [decide_eq_decide]
    constructor
    · intro ha hm
      exact ha (List.mem_append_left [h] hm)
    · intro ha hm
      rcases List.mem_append.1 hm with hm1 | hm2
      · exact ha hm1
      · exact hah (List.mem_singleton.1 hm2)

theorem mbTraverse_parents_mem (r : GitRepository) (f : Nat) :
    ∀ (l : List JStr) (acc : List JStr), ∀ q ∈ l, q ≠ [] →
      q ∈ l.foldl (fun anc2 p => mbTraverse r (f + 1) p anc2) acc := by
  intro l
  induction l with
  | nil => intro acc q hq; simp at hq
  | cons q0 l ih =>
    intro acc q hq hqne
    rcases List.mem_cons.1 hq with rfl | hq2
    · have hself : q ∈ mbTraverse r (f + 1) q acc := mbTraverse_self r f q acc hqne
      simp only [List.foldl_cons]
      exact foldl_preserve_mem (fun anc2 p => mbTraverse r (f + 1) p anc2)
        (fun a => q ∈ a) l
        (fun s b _ hmem => mbTraverse_mono r (f + 1) b s hmem) _ hself
    · simp only [List.foldl_cons]
      exact ih _ q hq2 hqne

theorem mbTraverse_succ_skip (r : GitRepository) (f : Nat) (h : JStr) (anc : List JStr)
    (hskip : h = [] ∨ h ∈ anc) : mbTraverse r (f + 1) h anc = anc := by
  rw [mbTraverse, if_pos hskip]

theorem mbTraverse_succ_none (r : GitRepository) (f : Nat) (h : JStr) (anc : List JStr)
    (hskip : ¬(h = [] ∨ h ∈ anc)) (hobj : r.getObject h = none) :
    mbTraverse r (f + 1) h anc = anc ++ [h] := by
  rw [mbTraverse, if_neg hskip, hobj]

theorem mbTraverse_succ_blob (r : GitRepository) (f : Nat) (h : JStr) (anc : List JStr)
    (c h' : JStr) (hskip : ¬(h = [] ∨ h ∈ anc))
    (hobj : r.getObject h = some (GObj.blob c h')) :
    mbTraverse r (f + 1) h anc = anc ++ [h] := by
  rw [mbTraverse, if_neg hskip, hobj]

theorem mbTraverse_succ_tree (r : GitRepository) (f : Nat) (h : JStr) (anc : List JStr)
    (es : List TreeEntry) (h' : JStr) (hskip : ¬(h = [] ∨ h ∈ anc))
    (hobj : r.getObject h = some (GObj.tree es h')) :
    mbTraverse r (f + 1) h anc = anc ++ [h] := by
  rw [mbTraverse, if_neg hskip, hobj]

theorem mbTraverse_succ_commit (r : GitRepository) (f : Nat) (h : JStr) (anc : List JStr)
    (t0 : JStr) (ps0 : List JStr) (a0 m0 ts0 hh0 : JStr)
    (hskip : ¬(h = [] ∨ h ∈ anc))
    (hobj : r.getObject h = some (GObj.commit t0 ps0 a0 m0 ts0 hh0)) :
    mbTraverse r (f + 1) h anc =
      ps0.foldl (fun anc2 p => mbTraverse r f p anc2) (anc ++ [h]) := by
  rw [mbTraverse, if_neg hskip, hobj]

theorem mbTraverse_closed (r : GitRepository) :
    ∀ (f : Nat) (h : JStr) (anc : List JStr),
      travMeasure r anc + 2 ≤ f →
      ∀ x ∈ mbTraverse r f h anc, x ∉ anc →
      ∀ t ps a m ts hh, r.getObject x = some (GObj.commit t ps a m ts hh) →
      ∀ p ∈ ps, p ≠ [] → p ∈ mbTraverse r f h anc := by
  intro f
  induction f with
  | zero =>
    intro h anc hf
    exact absurd hf (by omega)
  | succ f ih =>
    intro h anc hf x hx hxanc t ps a m ts hh hxobj p hp hpne
    by_cases hskip : h = [] ∨ h ∈ anc
    · rw [mbTraverse_succ_skip r f h anc hskip] at hx ⊢
      exact absurd hx hxanc
    · have hne : h ≠ [] := fun he => hskip (Or.inl he)
      have hnm : h ∉ anc := fun hm => hskip (Or.inr hm)
      rcases hobj : r.getObject h with _ | o'
      · rw [mbTraverse_succ_none r f h anc hskip hobj] at hx ⊢
        rcases List.mem_append.1 hx with hxa | hxh
        · exact absurd hxa hxanc
        · rcases List.mem_singleton.1 hxh with rfl
          rw [hxobj] at hobj
          exact absurd hobj (by simp)
      · rcases o' with ⟨c, h'⟩ | ⟨es, h'⟩ | ⟨t0, ps0, a0, m0, ts0, hh0⟩
        · rw [mbTraverse_succ_blob r f h anc c h' hskip hobj] at hx ⊢
          rcases List.mem_append.1 hx with hxa | hxh
          · exact absurd hxa hxanc
          · rcases List.mem_singleton.1 hxh with rfl
            rw [hxobj] at hobj
            exact absurd hobj (by simp)
        · rw [mbTraverse_succ_tree r f h anc es h' hskip hobj] at hx ⊢
          rcases List.mem_append.1 hx with hxa | hxh
          · exact absurd hxa hxanc
          · rcases List.mem_singleton.1 hxh with rfl
            rw [hxobj] at hobj
            exact absurd hobj (by simp)
        · rw [mbTraverse_succ_commit r f h anc t0 ps0 a0 m0 ts0 hh0 hskip hobj] at hx ⊢
          have hkey : h ∈ r.objects.entries.map Prod.fst :=
            JMap.get_some_mem r.objects h _ hobj
          have hmeas : travMeasure r (anc ++ [h]) + 1 ≤ travMeasure r anc :=
            travMeasure_snoc_lt r anc h hkey hnm
          have hfold :
              (anc ++ [h]) ⊆
                  ps0.foldl (fun anc2 p => mbTraverse r f p anc2) (anc ++ [h]) ∧
                (∀ y ∈ ps0.foldl (fun anc2 p => mbTraverse r f p anc2) (anc ++ [h]),
                  y ∉ anc ++ [h] →
                  ∀ t1 ps1 a1 m1 ts1 hh1,
                    r.getObject y = some (GObj.commit t1 ps1 a1 m1 ts1 hh1) →
                    ∀ q ∈ ps1, q ≠ [] →
                    q ∈ ps0.foldl (fun anc2 p => mbTraverse r f p anc2) (anc ++ [h])) := by
            refine foldl_preserve (fun anc2 p => mbTraverse r f p anc2)
              (fun acc => (anc ++ [h]) ⊆ acc ∧
                (∀ y ∈ acc, y ∉ anc ++ [h] →
                  ∀ t1 ps1 a1 m1 ts1 hh1,
                    r.getObject y = some (GObj.commit t1 ps1 a1 m1 ts1 hh1) →
                    ∀ q ∈ ps1, q ≠ [] → q ∈ acc)) ?_ ps0 _
              ⟨List.Subset.refl _, ?_⟩
            · rintro s p' ⟨hsub, hcl⟩
              constructor
              · exact Set.Subset.trans hsub (mbTraverse_mono r f p' s)
              · intro y hy hyb t1 ps1 a1 m1 ts1 hh1 hyobj q hq hqne
                by_cases hys : y ∈ s
                · exact mbTraverse_mono r f p' s
                    (hcl y hys hyb t1 ps1 a1 m1 ts1 hh1 hyobj q hq hqne)
                · have hms : travMeasure r s + 2 ≤ f := by
                    have h1 : travMeasure r s ≤ travMeasure r (anc ++ [h]) :=
                      travMeasure_mono r _ _ hsub
                    omega
                  exact ih p' s hms y hy hys t1 ps1 a1 m1 ts1 hh1 hyobj q hq hqne
            · intro y hy hyb
              exact absurd hy hyb
          by_cases hxh : x = h
          · subst hxh
            rw [hxobj] at hobj
            have hinj := hobj
            injection hinj with hinj2
            injection hinj2 with e1 e2 e3 e4 e5 e6
            have hf1 : f = (f - 1) + 1 := by omega
            rw [hf1]
            refine mbTraverse_parents_mem r (f - 1) ps0 (anc ++ [x]) p ?_ hpne
            rw [← e2]
            exact hp
          · have hxb : x ∉ anc ++ [h] := by
              intro hxm
              rcases List.mem_append.1 hxm with hxa | hxs
              · exact hxanc hxa
              · exact hxh (List.mem_singleton.1 hxs)
            exact hfold.2 x hx hxb t ps a m ts hh hxobj p hp hpne

theorem travMeasure_nil (r : GitRepository) : travMeasure r [] = r.objects.size := by
  unfold travMeasure JMap.size JMap.entries
  have : ∀ L : List JStr, (L.filter fun k => decide (k ∉ ([] : List JStr))).length = L.length := by
    intro L
    induction L with
    | nil => rfl
    | cons a L ih => simp [List.filter, ih]
  rw [this (List.map Prod.fst r.objects)]
  exact List.length_map r.objects Prod.fst

theorem mbTraverse_complete (r : GitRepository) (h1 x : JStr) (hne : h1 ≠ [])
    (hanc : AncestorOf r h1 x) :
    x ∈ mbTraverse r (r.objects.size + 2) h1 [] := by
  induction hanc with
  | refl =>
    have hsz : r.objects.size + 2 = (r.objects.size + 1) + 1 := by omega
    rw [hsz]
    exact mbTraverse_self r _ h1 [] hne
  | tail hstep hparent ih =>
    rename_i y p
    obtain ⟨t, ps, a, m, ts, hh, hyobj, hpmem, hpne⟩ := hparent
    have hmeas : travMeasure r ([] : List JStr) + 2 ≤ r.objects.size + 2 := by
      rw [travMeasure_nil]
    exact mbTraverse_closed r (r.objects.size + 2) h1 [] hmeas y ih (by simp)
      t ps a m ts hh hyobj p hpmem hpne

/-- The computed ancestor set is exactly the set of non-falsy inclusive
ancestors of the tip. -/
theorem mbTraverse_eq_ancestors (r : GitRepository) (h1 : JStr) (hne : h1 ≠ []) :
    ∀ x, x ∈ mbTraverse r (r.objects.size + 2) h1 [] ↔ (x ≠ [] ∧ AncestorOf r h1 x) := by
  intro x
  constructor
  · intro hx
    rcases mbTraverse_sound r _ h1 [] x hx with hx0 | hx1
    · simp at hx0
    · exact hx1
  · rintro ⟨hxne, hanc⟩
    exact mbTraverse_complete r h1 x hne hanc

theorem mbFindCommon_zero (r : GitRepository) (anc : List JStr) (h : JStr) :
    mbFindCommon r anc 0 h = none := by
  rw [mbFindCommon]

theorem specAncestryWalk_zero (r : GitRepository) (h : JStr) :
    specAncestryWalk r 0 h = [] := by
  rw [specAncestryWalk]

theorem mbFindCommon_fold_some (r : GitRepository) (anc : List JStr) (f : Nat) (c : JStr) :
    ∀ ps : List JStr,
      ps.foldl
        (fun res p =>
          match res with
          | some c' => some c'
          | none => mbFindCommon r anc f p) (some c) = some c := by
  intro ps
  induction ps with
  | nil => rfl
  | cons p ps ih => simpa using ih

theorem find?_append_cases (p : JStr → Bool) (l1 l2 : List JStr) :
    (l1 ++ l2).find? p =
      match l1.find? p with
      | some c => some c
      | none => l2.find? p := by
  induction l1 with
  | nil => simp
  | cons a l ih =>
    by_cases h : p a
    · simp [List.find?, h]
    · have h' : p a = false := Bool.eq_false_iff.2 h
      simp [List.find?, h', ih]

theorem mbFindCommon_eq_walk (r : GitRepository) (anc : List JStr) :
    ∀ (f : Nat) (h : JStr),
      mbFindCommon r anc f h =
        (specAncestryWalk r f h).find? fun x => decide (x ∈ anc) := by
  intro f
  induction f with
  | zero =>
    intro h
    rw [mbFindCommon_zero, specAncestryWalk_zero]
    rfl
  | succ f ih =>
    intro h
    rw [mbFindCommon, specAncestryWalk]
    by_cases he : h = []
    · rw [if_pos he, if_pos he]
      rfl
    · rw [if_neg he, if_neg he]
      by_cases hmem : h ∈ anc
      · rw [if_pos hmem]
        have hdec : (decide (h ∈ anc)) = true := by simpa using hmem
        simp [List.find?, hdec]
      · rw [if_neg hmem]
        have hdec : (decide (h ∈ anc)) = false := by simpa using hmem
        rcases hobj : r.getObject h with _ | o'
        · simp [List.find?, hdec]
        · rcases o' with ⟨c, h'⟩ | ⟨es, h'⟩ | ⟨t0, ps0, a0, m0, ts0, hh0⟩
          · simp [List.find?, hdec]
          · simp [List.find?, hdec]
          · simp only [List.find?, hdec]
            have hlist :
                ∀ ps : List JStr,
                  ps.foldl
                    (fun res p =>
                      match res with
                      | some c' => some c'
                      | none => mbFindCommon r anc f p) none =
                  (ps.flatMap fun p => specAncestryWalk r f p).find?
                    fun x => decide (x ∈ anc) := by
              intro ps
              induction ps with
              | nil => rfl
              | cons p ps ihl =>
                simp only [List.foldl_cons, List.flatMap_cons]
                rw [find?_append_cases]
                rcases hfc : mbFindCommon r anc f p with _ | c
                · have : (specAncestryWalk r f p).find? (fun x => decide (x ∈ anc)) = none := by
                    rw [← ih p, hfc]
                  rw [this]
                  exact ihl
                · have : (specAncestryWalk r f p).find? (fun x => decide (x ∈ anc)) = some c := by
                    rw [← ih p, hfc]
                  rw [this]
                  exact mbFindCommon_fold_some r anc f c ps
            exact hlist ps0

set_option maxRecDepth 100000 in
/-- C2: `findMergeBase(branchA, branchB)` returns absent when either branch
has no ref-table entry; otherwise (for well-formed, non-falsy tips) it
returns the first fingerprint on the depth-first ancestry walk of branchB's
tip (tip first, then parents in declared order) that belongs to the computed
ancestor set of branchA's tip, which is exactly the set of inclusive
parent-reachable ancestors; on the history c1 → c2 → c3 (feature) and
c2 → c4 (main), the merge base of the feature branch and main is c2's
fingerprint. -/
theorem findMergeBase_first_common_ancestor (r : GitRepository) (b1 b2 : JStr) :
    ((r.refs.get b1 = none ∨ r.refs.get b2 = none) → r.findMergeBase b1 b2 = none) ∧
    (∀ h1 h2, r.refs.get b1 = some h1 → r.refs.get b2 = some h2 → h1 ≠ [] → h2 ≠ [] →
      (r.findMergeBase b1 b2 =
        (specAncestryWalk r (r.objects.size + 2) h2).find?
          (fun x => decide (x ∈ mbTraverse r (r.objects.size + 2) h1 [])) ∧
       ∀ x, x ∈ mbTraverse r (r.objects.size + 2) h1 [] ↔ (x ≠ [] ∧ AncestorOf r h1 x))) ∧
    scRepoFinal.findMergeBase featureStr mainStr = some scC2hash := by
  refine ⟨?_, ?_, ?_⟩
  · intro hnone
    unfold GitRepository.findMergeBase
    rcases hr1 : r.refs.get b1 with _ | h1
    · rfl
    · rcases hr2 : r.refs.get b2 with _ | h2
      · rfl
      · rcases hnone with hn | hn
        · rw [hr1] at hn
          exact absurd hn (by simp)
        · rw [hr2] at hn
          exact absurd hn (by simp)
  · intro h1 h2 hh1 hh2 hn1 hn2
    have heq : r.findMergeBase b1 b2 =
        mbFindCommon r (mbTraverse r (r.objects.size + 2) h1 []) (r.objects.size + 2) h2 := by
      unfold GitRepository.findMergeBase
      rw [hh1, hh2]
      have hcond : ¬(h1 = [] ∨ h2 = []) := by
        rintro (he | he)
        · exact hn1 he
        · exact hn2 he
      show (if h1 = [] ∨ h2 = [] then none
        else mbFindCommon r (mbTraverse r (r.objects.size + 2) h1 [])
          (r.objects.size + 2) h2) =
        mbFindCommon r (mbTraverse r (r.objects.size + 2) h1 []) (r.objects.size + 2) h2
      rw [if_neg hcond]
    constructor
    · rw [heq]
      exact mbFindCommon_eq_walk r _ _ h2
    · exact mbTraverse_eq_ancestors r h1 hn1
  · decide

set_option maxRecDepth 100000 in
/-- Witness for C2 at concrete inputs: a missing branch yields absent, the
walk characterization holds on the scenario repository, and the scenario
merge base is the second commit. -/
theorem findMergeBase_first_common_ancestor_witness :
    GitRepository.empty.findMergeBase [97] [98] = none ∧
    (scRepoFinal.findMergeBase featureStr mainStr =
      (specAncestryWalk scRepoFinal (scRepoFinal.objects.size + 2) scMainTip).find?
        (fun x => decide
          (x ∈ mbTraverse scRepoFinal (scRepoFinal.objects.size + 2) scFeatureTip []))) ∧
    scRepoFinal.findMergeBase featureStr mainStr = some scC2hash :=
  ⟨(findMergeBase_first_common_ancestor GitRepository.empty [97] [98]).1 (Or.inl rfl),
   ((findMergeBase_first_common_ancestor scRepoFinal featureStr mainStr).2.1
      scFeatureTip scMainTip (by decide) (by decide) (by decide) (by decide)).1,
   (findMergeBase_first_common_ancestor scRepoFinal featureStr mainStr).2.2⟩

section KahnLemmas

variable {α : Type} [DecidableEq α]

theorem JMap.set_new {β : Type} (m : JMap α β) (k : α) (v : β) (h : m.get k = none) :
    m.set k v = m ++ [(k, v)] := by
  induction m with
  | nil => rfl
  | cons hd tl ih =>
    obtain ⟨k0, v0⟩ := hd
    rw [JMap.get] at h
    by_cases hk : k0 = k
    · rw [if_pos hk] at h
      exact absurd h (by simp)
    · rw [if_neg hk] at h
      show JMap.set ((k0, v0) :: tl) k v = (k0, v0) :: tl ++ [(k, v)]
      rw [JMap.set, if_neg hk, ih h]
      rfl

theorem JMap.get_mapped {β : Type} (g : α → β) (k : α) :
    ∀ ids : List α,
      JMap.get (ids.map fun i => (i, g i)) k = if k ∈ ids then some (g k) else none := by
  intro ids
  induction ids with
  | nil => simp [JMap.get]
  | cons i ids ih =>
    show JMap.get ((i, g i) :: ids.map fun i => (i, g i)) k = _
    rw [JMap.get]
    by_cases hik : i = k
    · subst hik
      simp
    · rw [if_neg hik, ih]
      by_cases hk : k ∈ ids
      · simp [hk, List.mem_cons, Ne.symm hik]
      · have : ¬k ∈ i :: ids := by
          simp [hk, Ne.symm hik]
        simp [hk, this]

theorem JMap.set_mapped {β : Type} (g : α → β) (k : α) (v : β) :
    ∀ ids : List α, ids.Nodup → k ∈ ids →
      JMap.set (ids.map fun i => (i, g i)) k v =
        ids.map fun i => (i, if i = k then v else g i) := by
  intro ids
  induction ids with
  | nil => intro _ h; simp at h
  | cons i ids ih =>
    intro hnd hk
    have hnd1 : ids.Nodup := (List.nodup_cons.1 hnd).2
    have hni : i ∉ ids := (List.nodup_cons.1 hnd).1
    show JMap.set ((i, g i) :: ids.map fun i => (i, g i)) k v = _
    rw [JMap.set]
    by_cases hik : i = k
    · rw [if_pos hik]
      subst hik
      simp only [List.map_cons, if_pos rfl]
      congr 1
      refine (List.map_congr_left ?_).symm
      intro x hx
      have hxk : x ≠ i := fun he => hni (he ▸ hx)
      simp [hxk]
    · rw [if_neg hik]
      have hk' : k ∈ ids := by
        rcases List.mem_cons.1 hk with he | hm
        · exact absurd he.symm hik
        · exact hm
      rw [ih hnd1 hk']
      simp [hik]

end KahnLemmas

section KahnLemmas2

variable {α : Type} [DecidableEq α]

theorem length_filter_split {p r q : α → Bool} (hq : ∀ a, q a = (p a || r a))
    (hdisj : ∀ a, ¬(p a = true ∧ r a = true)) :
    ∀ l : List α, (l.filter q).length = (l.filter p).length + (l.filter r).length := by
  intro l
  induction l with
  | nil => simp
  | cons a l ih =>
    rcases hpa : p a with _ | _
    · rcases hra : r a with _ | _
      · have hqa : q a = false := by rw [hq a, hpa, hra]; rfl
        simp only [List.filter, hpa, hra, hqa]
        exact ih
      · have hqa : q a = true := by rw [hq a, hpa, hra]; rfl
        simp only [List.filter, hpa, hra, hqa, List.length_cons]
        omega
    · rcases hra : r a with _ | _
      · have hqa : q a = true := by rw [hq a, hpa, hra]; rfl
        simp only [List.filter, hpa, hra, hqa, List.length_cons]
        omega
      · exact absurd ⟨hpa, hra⟩ (hdisj a)

theorem filter_length_zero_iff {p : α → Bool} (l : List α) :
    (l.filter p).length = 0 ↔ ∀ a ∈ l, p a = false := by
  induction l with
  | nil => simp
  | cons a l ih =>
    rcases hpa : p a with _ | _
    · simp only [List.filter, hpa]
      rw [ih]
      constructor
      · intro hall b hb
        rcases List.mem_cons.1 hb with rfl | hm
        · exact hpa
        · exact hall b hm
      · intro hall b hb
        exact hall b (List.mem_cons_of_mem a hb)
    · simp only [List.filter, hpa, List.length_cons]
      constructor
      · intro h
        omega
      · intro hall
        have := hall a (List.mem_cons_self a l)
        rw [hpa] at this
        exact absurd this (by simp)

theorem degRem_zero_iff (nodes : List (GNode α)) (edges : List (GEdge α))
    (s : List α) (k : α) :
    degRem nodes edges s k = 0 ↔
      ∀ e ∈ fEdges nodes edges, e.toId = k → e.fromId ∈ s := by
  unfold degRem
  rw [filter_length_zero_iff]
  constructor
  · intro hall e he hto
    have := hall e he
    rcases hmem : decide (e.fromId ∉ s) with _ | _
    · simpa using hmem
    · rw [hto] at this
      simp [hmem] at this
  · intro hall e he
    by_cases hto : e.toId = k
    · have := hall e he hto
      simp [this]
    · simp [hto]

theorem count_map_toId (k : α) :
    ∀ l : List (GEdge α),
      (l.map GEdge.toId).count k = (l.filter fun e => decide (e.toId = k)).length := by
  intro l
  induction l with
  | nil => rfl
  | cons e l ih =>
    by_cases hto : e.toId = k
    · simp only [List.map_cons, List.count_cons, List.filter, hto]
      simp [ih]
    · simp only [List.map_cons, List.count_cons, List.filter]
      have h1 : (decide (e.toId = k)) = false := by simpa using hto
      rw [h1]
      simp [ih, hto]

theorem filter_comm_length {p q : α → Bool} :
    ∀ l : List α, ((l.filter p).filter q).length = (l.filter fun a => p a && q a).length := by
  intro l
  induction l with
  | nil => rfl
  | cons a l ih =>
    rcases hpa : p a with _ | _
    · simp only [List.filter, hpa, Bool.false_and]
      exact ih
    · rcases hqa : q a with _ | _
      · simp only [List.filter, hpa, hqa, Bool.true_and]
        exact ih
      · simp only [List.filter, hpa, hqa, Bool.true_and, List.length_cons]
        omega

theorem count_adjOf (nodes : List (GNode α)) (edges : List (GEdge α)) (v k : α) :
    (adjOf nodes edges v).count k = cntEdge nodes edges v k := by
  unfold adjOf cntEdge
  rw [count_map_toId, filter_comm_length]

theorem cntEdge_le_degRem (nodes : List (GNode α)) (edges : List (GEdge α))
    (s : List α) (v k : α) (hvs : v ∉ s) :
    degRem nodes edges (s ++ [v]) k + cntEdge nodes edges v k = degRem nodes edges s k := by
  unfold degRem cntEdge
  refine (length_filter_split ?_ ?_ (fEdges nodes edges)).symm
  · intro e
    by_cases hto : e.toId = k
    · by_cases hfv : e.fromId = v
      · have h1 : e.fromId ∉ s := hfv ▸ hvs
        simp [hto, hfv, h1, hvs]
      · by_cases hfs : e.fromId ∈ s
        · have h1 : e.fromId ∈ s ++ [v] := List.mem_append_left [v] hfs
          simp [hto, hfv, hfs, h1]
        · have h1 : e.fromId ∉ s ++ [v] := by
            intro hm
            rcases List.mem_append.1 hm with hm1 | hm2
            · exact hfs hm1
            · exact hfv (List.mem_singleton.1 hm2)
          simp [hto, hfv, hfs, h1]
    · simp [hto]
  · rintro e ⟨h1, h2⟩
    simp only [Bool.and_eq_true, decide_eq_true_eq] at h1 h2
    exact h1.2 (List.mem_append_right s (List.mem_singleton.2 h2.1))

theorem adjOf_subset_ids (nodes : List (GNode α)) (edges : List (GEdge α)) (v : α) :
    ∀ x ∈ adjOf nodes edges v, x ∈ nodes.map GNode.id := by
  intro x hx
  unfold adjOf at hx
  rcases List.mem_map.1 hx with ⟨e, he, rfl⟩
  have he2 := List.mem_of_mem_filter he
  unfold fEdges at he2
  have := List.of_mem_filter he2
  simp only [Bool.and_eq_true, decide_eq_true_eq] at this
  exact this.2

theorem fEdges_eq_of_ends (nodes : List (GNode α)) (edges : List (GEdge α))
    (hEnds : ∀ e ∈ edges, e.fromId ∈ nodes.map GNode.id ∧ e.toId ∈ nodes.map GNode.id) :
    fEdges nodes edges = edges := by
  unfold fEdges
  refine List.filter_eq_self.2 ?_
  intro e he
  have := hEnds e he
  simp [this.1, this.2]

end KahnLemmas2

section KahnBuild

variable {α : Type} [DecidableEq α]

theorem filter_singleton_true {p : GEdge α → Bool} (e : GEdge α) (h : p e = true) :
    List.filter p [e] = [e] := by
  simp [List.filter, h]

theorem filter_singleton_false {p : GEdge α → Bool} (e : GEdge α) (h : p e = false) :
    List.filter p [e] = [] := by
  simp [List.filter, h]

theorem fEdges_append_in (nodes : List (GNode α)) (E : List (GEdge α)) (e : GEdge α)
    (h1 : e.fromId ∈ nodes.map GNode.id) (h2 : e.toId ∈ nodes.map GNode.id) :
    fEdges nodes (E ++ [e]) = fEdges nodes E ++ [e] := by
  unfold fEdges
  rw [List.filter_append]
  congr 1
  refine filter_singleton_true e ?_
  rw [Bool.and_eq_true, decide_eq_true_iff, decide_eq_true_iff]
  exact ⟨h1, h2⟩

theorem fEdges_append_out (nodes : List (GNode α)) (E : List (GEdge α)) (e : GEdge α)
    (h : ¬(e.fromId ∈ nodes.map GNode.id ∧ e.toId ∈ nodes.map GNode.id)) :
    fEdges nodes (E ++ [e]) = fEdges nodes E := by
  unfold fEdges
  rw [List.filter_append]
  have hfalse : (decide (e.fromId ∈ nodes.map GNode.id) &&
      decide (e.toId ∈ nodes.map GNode.id)) = false := by
    by_cases h1 : e.fromId ∈ nodes.map GNode.id
    · by_cases h2 : e.toId ∈ nodes.map GNode.id
      · exact absurd ⟨h1, h2⟩ h
      · simp [h2]
    · simp [h1]
  rw [filter_singleton_false e hfalse, List.append_nil]

theorem adjOf_append_in (nodes : List (GNode α)) (E : List (GEdge α)) (e : GEdge α)
    (h1 : e.fromId ∈ nodes.map GNode.id) (h2 : e.toId ∈ nodes.map GNode.id) (k : α) :
    adjOf nodes (E ++ [e]) k =
      adjOf nodes E k ++ (if e.fromId = k then [e.toId] else []) := by
  unfold adjOf
  rw [fEdges_append_in nodes E e h1 h2, List.filter_append, List.map_append]
  congr 1
  by_cases hf : e.fromId = k
  · rw [filter_singleton_true e (by simpa using hf)]
    simp [hf]
  · rw [filter_singleton_false e (by simpa using hf)]
    simp [hf]

theorem degRem_append_in (nodes : List (GNode α)) (E : List (GEdge α)) (e : GEdge α)
    (h1 : e.fromId ∈ nodes.map GNode.id) (h2 : e.toId ∈ nodes.map GNode.id) (k : α) :
    degRem nodes (E ++ [e]) [] k =
      degRem nodes E [] k + (if e.toId = k then 1 else 0) := by
  unfold degRem
  rw [fEdges_append_in nodes E e h1 h2, List.filter_append, List.length_append]
  congr 1
  by_cases ht : e.toId = k
  · rw [filter_singleton_true e (by simp [ht])]
    simp [ht]
  · rw [filter_singleton_false e (by simp [ht])]
    simp [ht]

theorem adjOf_nil_edges (nodes : List (GNode α)) (k : α) :
    adjOf nodes [] k = [] := rfl

theorem degRem_nil_edges (nodes : List (GNode α)) (k : α) :
    degRem nodes [] [] k = 0 := rfl

end KahnBuild

section KahnBuild2

variable {α : Type} [DecidableEq α]

theorem buildTopoGraph_init (nodes : List (GNode α)) :
    ∀ done : List α, (done ++ nodes.map GNode.id).Nodup →
      nodes.foldl
        (fun (st : JMap α (List α) × JMap α Int) n => (st.1.set n.id [], st.2.set n.id 0))
        ((done.map fun k => (k, ([] : List α))), (done.map fun k => (k, (0 : Int)))) =
      (((done ++ nodes.map GNode.id).map fun k => (k, ([] : List α))),
       ((done ++ nodes.map GNode.id).map fun k => (k, (0 : Int)))) := by
  induction nodes with
  | nil =>
    intro done _
    simp
  | cons n nodes ih =>
    intro done hnd
    have hmem : n.id ∉ done := by
      intro hm
      rw [List.nodup_append] at hnd
      exact hnd.2.2 hm (List.mem_cons_self n.id _)
    have hg : JMap.get (done.map fun k => (k, ([] : List α))) n.id = none := by
      rw [JMap.get_mapped]
      simp [hmem]
    have hd : JMap.get (done.map fun k => (k, (0 : Int))) n.id = none := by
      rw [JMap.get_mapped]
      simp [hmem]
    simp only [List.foldl_cons]
    rw [show (JMap.set (done.map fun k => (k, ([] : List α))) n.id []) =
        ((done ++ [n.id]).map fun k => (k, ([] : List α))) by
      rw [JMap.set_new _ _ _ hg, List.map_append]
      rfl]
    rw [show (JMap.set (done.map fun k => (k, (0 : Int))) n.id 0) =
        ((done ++ [n.id]).map fun k => (k, (0 : Int))) by
      rw [JMap.set_new _ _ _ hd, List.map_append]
      rfl]
    rw [ih (done ++ [n.id]) (by simpa using hnd)]
    simp

theorem adjOf_append_out (nodes : List (GNode α)) (E : List (GEdge α)) (e : GEdge α)
    (h : ¬(e.fromId ∈ nodes.map GNode.id ∧ e.toId ∈ nodes.map GNode.id)) (k : α) :
    adjOf nodes (E ++ [e]) k = adjOf nodes E k := by
  unfold adjOf
  rw [fEdges_append_out nodes E e h]

theorem degRem_append_out (nodes : List (GNode α)) (E : List (GEdge α)) (e : GEdge α)
    (h : ¬(e.fromId ∈ nodes.map GNode.id ∧ e.toId ∈ nodes.map GNode.id)) (k : α) :
    degRem nodes (E ++ [e]) [] k = degRem nodes E [] k := by
  unfold degRem
  rw [fEdges_append_out nodes E e h]

theorem buildTopoGraph_edges (nodes : List (GNode α)) (hnd : (nodes.map GNode.id).Nodup) :
    ∀ (es : List (GEdge α)) (E : List (GEdge α)),
      es.foldl
        (fun (st : JMap α (List α) × JMap α Int) e =>
          if st.1.has e.fromId && st.1.has e.toId then
            (st.1.set e.fromId (((st.1.get e.fromId).getD []) ++ [e.toId]),
             st.2.set e.toId (((st.2.get e.toId).getD 0) + 1))
          else st)
        (((nodes.map GNode.id).map fun k => (k, adjOf nodes E k)),
         ((nodes.map GNode.id).map fun k => (k, (degRem nodes E [] k : Int)))) =
      (((nodes.map GNode.id).map fun k => (k, adjOf nodes (E ++ es) k)),
       ((nodes.map GNode.id).map fun k => (k, (degRem nodes (E ++ es) [] k : Int)))) := by
  intro es
  induction es with
  | nil =>
    intro E
    simp
  | cons e es ih =>
    intro E
    have hsplit : E ++ e :: es = (E ++ [e]) ++ es := by
      simp
    rw [hsplit]
    simp only [List.foldl_cons]
    by_cases hin : e.fromId ∈ nodes.map GNode.id ∧ e.toId ∈ nodes.map GNode.id
    · have hhas1 : JMap.has ((nodes.map GNode.id).map fun k => (k, adjOf nodes E k))
          e.fromId = true := by
        unfold JMap.has
        rw [JMap.get_mapped]
        simp [hin.1]
      have hhas2 : JMap.has ((nodes.map GNode.id).map fun k => (k, adjOf nodes E k))
          e.toId = true := by
        unfold JMap.has
        rw [JMap.get_mapped]
        simp [hin.2]
      rw [if_pos (by rw [hhas1, hhas2]; rfl)]
      rw [JMap.get_mapped (fun k => adjOf nodes E k) e.fromId (nodes.map GNode.id)]
      rw [JMap.get_mapped (fun k => ((degRem nodes E [] k : Int))) e.toId (nodes.map GNode.id)]
      rw [if_pos hin.1, if_pos hin.2]
      rw [JMap.set_mapped (fun k => adjOf nodes E k) e.fromId _ _ hnd hin.1]
      rw [JMap.set_mapped (fun k => ((degRem nodes E [] k : Int))) e.toId _ _ hnd hin.2]
      have hmap1 :
          ((nodes.map GNode.id).map fun i =>
            (i, if i = e.fromId then (some (adjOf nodes E e.fromId)).getD [] ++ [e.toId]
                else adjOf nodes E i)) =
          ((nodes.map GNode.id).map fun k => (k, adjOf nodes (E ++ [e]) k)) := by
        refine List.map_congr_left ?_
        intro i _
        by_cases hif : i = e.fromId
        · subst hif
          rw [if_pos rfl, adjOf_append_in nodes E e hin.1 hin.2, if_pos rfl]
          rfl
        · rw [if_neg hif, adjOf_append_in nodes E e hin.1 hin.2,
            if_neg (fun hh => hif hh.symm), List.append_nil]
      have hmap2 :
          ((nodes.map GNode.id).map fun i =>
            (i, if i = e.toId then (some ((degRem nodes E [] e.toId : Int))).getD 0 + 1
                else ((degRem nodes E [] i : Int)))) =
          ((nodes.map GNode.id).map fun k => (k, (degRem nodes (E ++ [e]) [] k : Int))) := by
        refine List.map_congr_left ?_
        intro i _
        by_cases hif : i = e.toId
        · subst hif
          rw [if_pos rfl, degRem_append_in nodes E e hin.1 hin.2, if_pos rfl]
          simp
        · rw [if_neg hif, degRem_append_in nodes E e hin.1 hin.2,
            if_neg (fun hh => hif hh.symm), Nat.add_zero]
      rw [hmap1, hmap2, ih (E ++ [e])]
    · have hhas : (JMap.has ((nodes.map GNode.id).map fun k => (k, adjOf nodes E k))
          e.fromId && JMap.has ((nodes.map GNode.id).map fun k => (k, adjOf nodes E k))
          e.toId) = false := by
        unfold JMap.has
        rw [JMap.get_mapped, JMap.get_mapped]
        by_cases h1 : e.fromId ∈ nodes.map GNode.id
        · have h2 : ¬ e.toId ∈ nodes.map GNode.id := fun h2 => hin ⟨h1, h2⟩
          simp [h1, h2]
        · simp [h1]
      rw [if_neg (by rw [hhas]; simp)]
      have hadj : ∀ k, adjOf nodes (E ++ [e]) k = adjOf nodes E k :=
        adjOf_append_out nodes E e hin
      have hdeg : ∀ k, degRem nodes (E ++ [e]) [] k = degRem nodes E [] k :=
        degRem_append_out nodes E e hin
      rw [show (((nodes.map GNode.id).map fun k => (k, adjOf nodes E k)),
           ((nodes.map GNode.id).map fun k => (k, (degRem nodes E [] k : Int)))) =
          (((nodes.map GNode.id).map fun k => (k, adjOf nodes (E ++ [e]) k)),
           ((nodes.map GNode.id).map fun k => (k, (degRem nodes (E ++ [e]) [] k : Int)))) by
        refine congrArg₂ Prod.mk ?_ ?_
        · refine List.map_congr_left ?_
          intro k _
          rw [hadj k]
        · refine List.map_congr_left ?_
          intro k _
          rw [hdeg k]]
      exact ih (E ++ [e])

end KahnBuild2

section KahnBuild3

variable {α : Type} [DecidableEq α]

theorem buildTopoGraph_spec (nodes : List (GNode α)) (edges : List (GEdge α))
    (hnd : (nodes.map GNode.id).Nodup) :
    buildTopoGraph nodes edges =
      (((nodes.map GNode.id).map fun k => (k, adjOf nodes edges k)),
       ((nodes.map GNode.id).map fun k => (k, (degRem nodes edges [] k : Int)))) := by
  unfold buildTopoGraph
  have hinit := buildTopoGraph_init (α := α) nodes [] (by simpa using hnd)
  simp only [List.nil_append, List.map_nil] at hinit
  rw [show ((JMap.empty : JMap α (List α)), (JMap.empty : JMap α Int)) =
      ((([] : List (α × List α))), (([] : List (α × Int)))) from rfl]
  rw [hinit]
  have hstart :
      (((nodes.map GNode.id).map fun k => (k, ([] : List α))),
       ((nodes.map GNode.id).map fun k => (k, (0 : Int)))) =
      (((nodes.map GNode.id).map fun k => (k, adjOf nodes [] k)),
       ((nodes.map GNode.id).map fun k => (k, (degRem nodes [] [] k : Int)))) := by
    refine congrArg₂ Prod.mk ?_ ?_
    · refine List.map_congr_left ?_
      intro k _
      rfl
    · refine List.map_congr_left ?_
      intro k _
      rfl
  rw [hstart]
  have hedges := buildTopoGraph_edges nodes hnd edges []
  simp only [List.nil_append] at hedges
  rw [hedges]

theorem kahnInitQueue_mapped (g : α → Int) :
    ∀ (ids acc : List α),
      (ids.map fun k => (k, g k)).foldl
        (fun q kv => if kv.2 = 0 then q ++ [kv.1] else q) acc =
      acc ++ ids.filter fun k => decide (g k = 0) := by
  intro ids
  induction ids with
  | nil => intro acc; simp
  | cons i ids ih =>
    intro acc
    simp only [List.map_cons, List.foldl_cons]
    by_cases hz : g i = 0
    · rw [if_pos hz, ih (acc ++ [i])]
      have : (decide (g i = 0)) = true := by simp [hz]
      simp [List.filter, this]
    · rw [if_neg hz, ih acc]
      have : (decide (g i = 0)) = false := by simp [hz]
      simp [List.filter, this]

theorem kahnInitQueue_spec (nodes : List (GNode α)) (edges : List (GEdge α)) :
    kahnInitQueue ((nodes.map GNode.id).map fun k => (k, (degRem nodes edges [] k : Int))) =
      (nodes.map GNode.id).filter fun k => decide ((degRem nodes edges [] k : Int) = 0) := by
  unfold kahnInitQueue JMap.entries
  rw [kahnInitQueue_mapped (fun k => (degRem nodes edges [] k : Int)) (nodes.map GNode.id) []]
  rfl

end KahnBuild3

section KahnFold

variable {α : Type} [DecidableEq α]

theorem kahnFold_spec (nodes : List (GNode α)) (edges : List (GEdge α))
    (hnd : (nodes.map GNode.id).Nodup) (s : List α) (v : α) :
    ∀ (Nrem P rest pushes : List α),
      adjOf nodes edges v = P ++ Nrem →
      (s ++ v :: (rest ++ pushes)).Nodup →
      (∀ x ∈ s ++ v :: (rest ++ pushes), x ∈ nodes.map GNode.id) →
      (∀ k ∈ nodes.map GNode.id,
        (k ∈ s ++ v :: (rest ++ pushes) ↔ degRem nodes edges s k ≤ P.count k)) →
      ∃ pushes2 : List α,
        Nrem.foldl
          (fun (st : JMap α Int × List α) nb =>
            let dv := ((st.1.get nb).getD 0) - 1
            (st.1.set nb dv, if dv = 0 then st.2 ++ [nb] else st.2))
          (((nodes.map GNode.id).map fun k =>
              (k, ((degRem nodes edges s k : Int) - P.count k))), rest ++ pushes)
          =
          (((nodes.map GNode.id).map fun k =>
              (k, ((degRem nodes edges s k : Int) - (P ++ Nrem).count k))),
           rest ++ (pushes ++ pushes2)) ∧
        (s ++ v :: (rest ++ (pushes ++ pushes2))).Nodup ∧
        (∀ x ∈ s ++ v :: (rest ++ (pushes ++ pushes2)), x ∈ nodes.map GNode.id) ∧
        (∀ k ∈ nodes.map GNode.id,
          (k ∈ s ++ v :: (rest ++ (pushes ++ pushes2)) ↔
            degRem nodes edges s k ≤ (P ++ Nrem).count k)) := by
  intro Nrem
  induction Nrem with
  | nil =>
    intro P rest pushes hadj hnodup hsub hcrit
    refine ⟨[], ?_, ?_, ?_, ?_⟩
    · simp
    · simpa using hnodup
    · simpa using hsub
    · simpa using hcrit
  | cons nb Nrem ih =>
    intro P rest pushes hadj hnodup hsub hcrit
    have hnbids : nb ∈ nodes.map GNode.id := by
      refine adjOf_subset_ids nodes edges v nb ?_
      rw [hadj]
      exact List.mem_append_right P (List.mem_cons_self nb Nrem)
    simp only [List.foldl_cons]
    rw [JMap.get_mapped (fun k => ((degRem nodes edges s k : Int) - P.count k)) nb
      (nodes.map GNode.id), if_pos hnbids]
    rw [JMap.set_mapped (fun k => ((degRem nodes edges s k : Int) - P.count k)) nb _
      (nodes.map GNode.id) hnd hnbids]
    have hdmap :
        ((nodes.map GNode.id).map fun i =>
          (i, if i = nb then (some ((degRem nodes edges s nb : Int) - P.count nb)).getD 0 - 1
              else ((degRem nodes edges s i : Int) - P.count i))) =
        ((nodes.map GNode.id).map fun k =>
          (k, ((degRem nodes edges s k : Int) - (P ++ [nb]).count k))) := by
      refine List.map_congr_left ?_
      intro i _
      by_cases hif : i = nb
      · subst hif
        rw [if_pos rfl]
        have hc : (P ++ [i]).count i = P.count i + 1 := by
          simp
        rw [hc]
        simp only [Option.getD_some]
        congr 1
        push_cast
        ring
      · rw [if_neg hif]
        have : (P ++ [nb]).count i = P.count i := by
          rw [List.count_append]
          simp [List.count_singleton, hif]
        rw [this]
    rw [hdmap]
    by_cases hpush : ((degRem nodes edges s nb : Int) - P.count nb) - 1 = 0
    · have hdegnb : degRem nodes edges s nb = P.count nb + 1 := by
        have : ((degRem nodes edges s nb : Int)) = P.count nb + 1 := by omega
        exact_mod_cast this
      have hfresh : nb ∉ s ++ v :: (rest ++ pushes) := by
        intro hm
        have := (hcrit nb hnbids).1 hm
        omega
      have hpos : ((some ((degRem nodes edges s nb : Int) - P.count nb)).getD 0 - 1) = 0 := by
        simpa using hpush
      rw [if_pos hpos]
      have hnodup2 : (s ++ v :: ((rest ++ pushes) ++ [nb])).Nodup := by
        have heq : s ++ v :: ((rest ++ pushes) ++ [nb]) =
            (s ++ v :: (rest ++ pushes)) ++ [nb] := by
          simp
        rw [heq, List.nodup_append]
        refine ⟨hnodup, List.nodup_singleton nb, ?_⟩
        intro a ha hb
        rcases List.mem_singleton.1 hb with rfl
        exact hfresh ha
      have hsub2 : ∀ x ∈ s ++ v :: ((rest ++ pushes) ++ [nb]), x ∈ nodes.map GNode.id := by
        intro x hx
        have heq : s ++ v :: ((rest ++ pushes) ++ [nb]) =
            (s ++ v :: (rest ++ pushes)) ++ [nb] := by
          simp
        rw [heq] at hx
        rcases List.mem_append.1 hx with hx1 | hx2
        · exact hsub x hx1
        · rcases List.mem_singleton.1 hx2 with rfl
          exact hnbids
      have hcrit2 : ∀ k ∈ nodes.map GNode.id,
          (k ∈ s ++ v :: ((rest ++ pushes) ++ [nb]) ↔
            degRem nodes edges s k ≤ (P ++ [nb]).count k) := by
        intro k hk
        have heq : s ++ v :: ((rest ++ pushes) ++ [nb]) =
            (s ++ v :: (rest ++ pushes)) ++ [nb] := by
          simp
        rw [heq]
        by_cases hknb : k = nb
        · subst hknb
          constructor
          · intro _
            rw [List.count_append, List.count_singleton]
            simp [hdegnb]
          · intro _
            exact List.mem_append_right _ (List.mem_singleton_self k)
        · have hcount : (P ++ [nb]).count k = P.count k := by
            rw [List.count_append]
            simp [List.count_singleton, hknb]
          rw [hcount]
          constructor
          · intro hm
            rcases List.mem_append.1 hm with hm1 | hm2
            · exact (hcrit k hk).1 hm1
            · exact absurd (List.mem_singleton.1 hm2) hknb
          · intro hle
            exact List.mem_append_left _ ((hcrit k hk).2 hle)
      obtain ⟨pushes2, heqfold, hn2, hs2, hc2⟩ :=
        ih (P ++ [nb]) rest (pushes ++ [nb])
          (by rw [hadj]; simp)
          (by
            have heq : s ++ v :: (rest ++ (pushes ++ [nb])) =
                s ++ v :: ((rest ++ pushes) ++ [nb]) := by
              simp
            rw [heq]
            exact hnodup2)
          (by
            intro x hx
            have heq : s ++ v :: (rest ++ (pushes ++ [nb])) =
                s ++ v :: ((rest ++ pushes) ++ [nb]) := by
              simp
            rw [heq] at hx
            exact hsub2 x hx)
          (by
            intro k hk
            have heq : s ++ v :: (rest ++ (pushes ++ [nb])) =
                s ++ v :: ((rest ++ pushes) ++ [nb]) := by
              simp
            rw [heq]
            exact hcrit2 k hk)
      have hassoc1 : (P ++ [nb]) ++ Nrem = P ++ nb :: Nrem := by simp
      have hassoc2 : pushes ++ [nb] ++ pushes2 = pushes ++ ([nb] ++ pushes2) := by simp
      refine ⟨[nb] ++ pushes2, ?_, ?_, ?_, ?_⟩
      · rw [show rest ++ pushes ++ [nb] = rest ++ (pushes ++ [nb]) from by simp]
        rw [heqfold, hassoc1, hassoc2]
      · rw [← hassoc2]
        exact hn2
      · rw [← hassoc2]
        exact hs2
      · rw [← hassoc2, ← hassoc1]
        exact hc2
    · have hnotpush : ¬ ((some ((degRem nodes edges s nb : Int) - P.count nb)).getD 0 - 1 = 0) := by
        simpa using hpush
      rw [if_neg hnotpush]
      have hcrit2 : ∀ k ∈ nodes.map GNode.id,
          (k ∈ s ++ v :: (rest ++ pushes) ↔
            degRem nodes edges s k ≤ (P ++ [nb]).count k) := by
        intro k hk
        by_cases hknb : k = nb
        · subst hknb
          have hcount : (P ++ [k]).count k = P.count k + 1 := by
            simp
          rw [hcount]
          have hne : (degRem nodes edges s k : Int) - P.count k - 1 ≠ 0 := hpush
          constructor
          · intro hm
            have := (hcrit k hk).1 hm
            omega
          · intro hle
            refine (hcrit k hk).2 ?_
            have : degRem nodes edges s k ≠ P.count k + 1 := by
              intro heq
              apply hne
              rw [heq]
              push_cast
              ring
            omega
        · have hcount : (P ++ [nb]).count k = P.count k := by
            rw [List.count_append]
            simp [List.count_singleton, hknb]
          rw [hcount]
          exact hcrit k hk
      obtain ⟨pushes2, heqfold, hn2, hs2, hc2⟩ :=
        ih (P ++ [nb]) rest pushes (by rw [hadj]; simp) hnodup hsub hcrit2
      have hassoc1 : (P ++ [nb]) ++ Nrem = P ++ nb :: Nrem := by simp
      refine ⟨pushes2, ?_, ?_, ?_, ?_⟩
      · rw [heqfold, hassoc1]
      · exact hn2
      · exact hs2
      · rw [← hassoc1]
        exact hc2

end KahnFold

section KahnLoopLemmas

variable {α : Type} [DecidableEq α]

theorem exists_min_rank (rk : α → Nat) :
    ∀ S : List α, S ≠ [] → ∃ a ∈ S, ∀ b ∈ S, rk a ≤ rk b := by
  intro S
  induction S with
  | nil => intro h; exact absurd rfl h
  | cons a S ih =>
    intro _
    by_cases hS : S = []
    · subst hS
      exact ⟨a, List.mem_singleton_self a, by
        intro b hb
        rcases List.mem_singleton.1 hb with rfl
        exact Nat.le_refl _⟩
    · obtain ⟨m, hm, hmin⟩ := ih hS
      by_cases hcmp : rk a ≤ rk m
      · refine ⟨a, List.mem_cons_self a S, ?_⟩
        intro b hb
        rcases List.mem_cons.1 hb with rfl | hbm
        · exact Nat.le_refl _
        · exact Nat.le_trans hcmp (hmin b hbm)
      · refine ⟨m, List.mem_cons_of_mem a hm, ?_⟩
        intro b hb
        rcases List.mem_cons.1 hb with rfl | hbm
        · exact Nat.le_of_lt (Nat.lt_of_not_le hcmp)
        · exact hmin b hbm

theorem filter_length_ne_zero_exists {p : α → Bool} (l : List α)
    (h : ¬(l.filter p).length = 0) : ∃ a ∈ l, p a = true := by
  by_contra hcon
  push_neg at hcon
  refine h ((filter_length_zero_iff l).2 ?_)
  intro a ha
  have := hcon a ha
  rcases hpa : p a with _ | _
  · rfl
  · exact absurd hpa this

theorem fEdges_mem_ends (nodes : List (GNode α)) (edges : List (GEdge α)) (e : GEdge α)
    (he : e ∈ fEdges nodes edges) :
    e.fromId ∈ nodes.map GNode.id ∧ e.toId ∈ nodes.map GNode.id := by
  unfold fEdges at he
  have := List.of_mem_filter he
  simpa using this

theorem fEdges_sub_edges (nodes : List (GNode α)) (edges : List (GEdge α)) (e : GEdge α)
    (he : e ∈ fEdges nodes edges) : e ∈ edges :=
  List.mem_of_mem_filter he

theorem filter_notmem_append_le (ids : List α) :
    ∀ (padd M : List α), padd.Nodup → (∀ x ∈ padd, x ∈ ids ∧ x ∉ M) →
      (ids.filter fun k => decide (k ∉ M ++ padd)).length + padd.length ≤
        (ids.filter fun k => decide (k ∉ M)).length := by
  intro padd
  induction padd with
  | nil =>
    intro M _ _
    simp
  | cons x padd ih =>
    intro M hnd hx
    have hxi := hx x (List.mem_cons_self x padd)
    have hstep : (ids.filter fun k => decide (k ∉ M ++ [x])).length + 1 ≤
        (ids.filter fun k => decide (k ∉ M)).length := by
      refine filter_snoc_lt _ _ x ?_ ?_ ?_ ids hxi.1
      · simp
      · simpa using hxi.2
      · intro a hah
        simp only [decide_eq_decide]
        constructor
        · intro ha hm
          exact ha (List.mem_append_left [x] hm)
        · intro ha hm
          rcases List.mem_append.1 hm with hm1 | hm2
          · exact ha hm1
          · exact hah (List.mem_singleton.1 hm2)
    have hrec := ih (M ++ [x]) (List.nodup_cons.1 hnd).2 ?_
    · have heq : M ++ x :: padd = (M ++ [x]) ++ padd := by simp
      rw [heq]
      simp only [List.length_cons]
      omega
    · intro y hy
      have hyi := hx y (List.mem_cons_of_mem x hy)
      refine ⟨hyi.1, ?_⟩
      intro hm
      rcases List.mem_append.1 hm with hm1 | hm2
      · exact hyi.2 hm1
      · rcases List.mem_singleton.1 hm2 with rfl
        exact (List.nodup_cons.1 hnd).1 hy

theorem kahnLoop_zero (g : JMap α (List α)) (q : List α) (d : JMap α Int) (s : List α) :
    kahnLoop g 0 q d s = s := by
  rw [kahnLoop]

theorem kahnLoop_nilq (g : JMap α (List α)) (f : Nat) (d : JMap α Int) (s : List α) :
    kahnLoop g (f + 1) [] d s = s := by
  rw [kahnLoop]

theorem kahnLoop_cons (g : JMap α (List α)) (f : Nat) (v : α) (q : List α)
    (d : JMap α Int) (s : List α) :
    kahnLoop g (f + 1) (v :: q) d s =
      kahnLoop g f
        ((((g.get v).getD []).foldl
          (fun (st : JMap α Int × List α) nb =>
            let dv := ((st.1.get nb).getD 0) - 1
            (st.1.set nb dv, if dv = 0 then st.2 ++ [nb] else st.2))
          (d, q)).2)
        ((((g.get v).getD []).foldl
          (fun (st : JMap α Int × List α) nb =>
            let dv := ((st.1.get nb).getD 0) - 1
            (st.1.set nb dv, if dv = 0 then st.2 ++ [nb] else st.2))
          (d, q)).1)
        (s ++ [v]) := by
  rw [kahnLoop]

end KahnLoopLemmas

section KahnLoopSpec

variable {α : Type} [DecidableEq α]

theorem kahnLoop_end_state (nodes : List (GNode α)) (edges : List (GEdge α))
    (rk : α → Nat) (hrank : ∀ e ∈ fEdges nodes edges, rk e.fromId < rk e.toId)
    (s : List α)
    (hnodup : (s ++ ([] : List α)).Nodup)
    (hsub : ∀ x ∈ s ++ ([] : List α), x ∈ nodes.map GNode.id)
    (hcrit : ∀ k ∈ nodes.map GNode.id, (k ∈ s ++ ([] : List α) ↔ degRem nodes edges s k = 0))
    (hord : ∀ e ∈ fEdges nodes edges, e.toId ∈ s →
      ∃ s1 s2, s = s1 ++ e.toId :: s2 ∧ e.fromId ∈ s1) :
    KahnOut nodes edges s s := by
  have hcomplete : ∀ k ∈ nodes.map GNode.id, k ∈ s := by
    have hS : (nodes.map GNode.id).filter (fun k => decide (k ∉ s)) = [] := by
      by_contra hne
      obtain ⟨m, hmS, hmin⟩ := exists_min_rank rk _ hne
      have hmids : m ∈ nodes.map GNode.id := List.mem_of_mem_filter hmS
      have hmnotin : m ∉ s := by
        have := List.of_mem_filter hmS
        simpa using this
      have hdeg : ¬ degRem nodes edges s m = 0 := by
        intro h0
        exact hmnotin (by simpa using (hcrit m hmids).2 h0)
      obtain ⟨e, he, hpe⟩ := filter_length_ne_zero_exists _ hdeg
      simp only [Bool.and_eq_true, decide_eq_true_eq] at hpe
      have hfids := (fEdges_mem_ends nodes edges e he).1
      have hfS : e.fromId ∈ (nodes.map GNode.id).filter (fun k => decide (k ∉ s)) := by
        refine List.mem_filter.2 ⟨hfids, ?_⟩
        simpa using hpe.2
      have h1 := hmin e.fromId hfS
      have h2 := hrank e he
      rw [hpe.1] at h2
      omega
    intro k hk
    by_contra hknot
    have : k ∈ (nodes.map GNode.id).filter (fun k => decide (k ∉ s)) := by
      refine List.mem_filter.2 ⟨hk, ?_⟩
      simpa using hknot
    rw [hS] at this
    simp at this
  refine ⟨⟨[], by simp⟩, by simpa using hnodup, ?_, hcomplete, ?_⟩
  · intro x hx
    exact hsub x (by simpa using hx)
  · intro e he
    have hto : e.toId ∈ s := hcomplete e.toId (fEdges_mem_ends nodes edges e he).2
    exact hord e he hto

theorem kahnLoop_spec (nodes : List (GNode α)) (edges : List (GEdge α))
    (hnd : (nodes.map GNode.id).Nodup) (rk : α → Nat)
    (hrank : ∀ e ∈ fEdges nodes edges, rk e.fromId < rk e.toId) :
    ∀ (fuel : Nat) (q s : List α),
      (s ++ q).Nodup →
      (∀ x ∈ s ++ q, x ∈ nodes.map GNode.id) →
      (∀ k ∈ nodes.map GNode.id, (k ∈ s ++ q ↔ degRem nodes edges s k = 0)) →
      (∀ e ∈ fEdges nodes edges, e.toId ∈ q → e.fromId ∈ s) →
      (∀ e ∈ fEdges nodes edges, e.toId ∈ s →
        ∃ s1 s2, s = s1 ++ e.toId :: s2 ∧ e.fromId ∈ s1) →
      q.length + 2 * ((nodes.map GNode.id).filter fun k => decide (k ∉ s ++ q)).length ≤ fuel →
      KahnOut nodes edges s
        (kahnLoop ((nodes.map GNode.id).map fun k => (k, adjOf nodes edges k)) fuel q
          ((nodes.map GNode.id).map fun k => (k, (degRem nodes edges s k : Int))) s) := by
  intro fuel
  induction fuel with
  | zero =>
    intro q s hnodup hsub hcrit hqord hord hfuel
    have hq : q = [] := by
      rcases q with _ | ⟨x, q⟩
      · rfl
      · simp at hfuel
    subst hq
    rw [kahnLoop_zero]
    have hU : ((nodes.map GNode.id).filter fun k => decide (k ∉ s ++ [])).length = 0 := by
      omega
    have hcomplete : ∀ k ∈ nodes.map GNode.id, k ∈ s := by
      intro k hk
      have := (filter_length_zero_iff _).1 hU k hk
      simp only [decide_eq_false_iff_not, not_not] at this
      simpa using this
    refine ⟨⟨[], by simp⟩, by simpa using hnodup, ?_, hcomplete, ?_⟩
    · intro x hx
      exact hsub x (by simpa using hx)
    · intro e he
      have hto : e.toId ∈ s := hcomplete e.toId (fEdges_mem_ends nodes edges e he).2
      exact hord e he hto
  | succ fuel ih =>
    intro q s hnodup hsub hcrit hqord hord hfuel
    rcases q with _ | ⟨v, rest⟩
    · rw [kahnLoop_nilq]
      exact kahnLoop_end_state nodes edges rk hrank s hnodup hsub hcrit hord
    · have hvids : v ∈ nodes.map GNode.id :=
        hsub v (List.mem_append_right s (List.mem_cons_self v rest))
      have hvnotins : v ∉ s := by
        rw [List.nodup_append] at hnodup
        intro hv
        exact hnodup.2.2 hv (List.mem_cons_self v rest)
      rw [kahnLoop_cons]
      have hgv : (JMap.get ((nodes.map GNode.id).map fun k => (k, adjOf nodes edges k))
          v).getD [] = adjOf nodes edges v := by
        rw [JMap.get_mapped, if_pos hvids]
        rfl
      rw [hgv]
      have hdinit :
          ((nodes.map GNode.id).map fun k => (k, (degRem nodes edges s k : Int))) =
          ((nodes.map GNode.id).map fun k =>
            (k, ((degRem nodes edges s k : Int) - ([] : List α).count k))) := by
        refine List.map_congr_left ?_
        intro k _
        simp
      rw [hdinit]
      obtain ⟨pushes2, heqfold, hn2, hs2, hc2⟩ :=
        kahnFold_spec nodes edges hnd s v (adjOf nodes edges v) [] rest []
          (by simp)
          (by simpa using hnodup)
          (by
            intro x hx
            refine hsub x ?_
            simpa using hx)
          (by
            intro k hk
            have h0 : ([] : List α).count k = 0 := rfl
            rw [h0]
            constructor
            · intro hm
              have := (hcrit k hk).1 (by simpa using hm)
              omega
            · intro hle
              have : degRem nodes edges s k = 0 := by omega
              have := (hcrit k hk).2 this
              simpa using this)
      rw [show rest ++ ([] : List α) = rest from by simp] at heqfold
      rw [heqfold]
      have hsimpl : ([] : List α) ++ adjOf nodes edges v = adjOf nodes edges v := by simp
      rw [hsimpl] at hc2
      have hdfinal :
          ((nodes.map GNode.id).map fun k =>
            (k, ((degRem nodes edges s k : Int) -
              (([] : List α) ++ adjOf nodes edges v).count k))) =
          ((nodes.map GNode.id).map fun k =>
            (k, (degRem nodes edges (s ++ [v]) k : Int))) := by
        refine List.map_congr_left ?_
        intro k _
        have hcnt := cntEdge_le_degRem nodes edges s v k hvnotins
        have hca := count_adjOf nodes edges v k
        rw [hsimpl, hca]
        congr 1
        push_cast
        omega
      rw [hdfinal]
      have hpush2 : ([] : List α) ++ pushes2 = pushes2 := by simp
      rw [hpush2] at hn2 hs2 hc2 ⊢
      -- list-shape normalization
      have hshape : s ++ v :: (rest ++ pushes2) = (s ++ [v]) ++ (rest ++ pushes2) := by
        simp
      -- new invariants for the recursive call
      have hnodup' : ((s ++ [v]) ++ (rest ++ pushes2)).Nodup := by
        rw [← hshape]
        exact hn2
      have hsub' : ∀ x ∈ (s ++ [v]) ++ (rest ++ pushes2), x ∈ nodes.map GNode.id := by
        intro x hx
        rw [← hshape] at hx
        exact hs2 x hx
      have hcrit' : ∀ k ∈ nodes.map GNode.id,
          (k ∈ (s ++ [v]) ++ (rest ++ pushes2) ↔ degRem nodes edges (s ++ [v]) k = 0) := by
        intro k hk
        rw [← hshape]
        rw [hc2 k hk]
        have hcnt := cntEdge_le_degRem nodes edges s v k hvnotins
        have hca := count_adjOf nodes edges v k
        rw [hca]
        omega
      have hqord' : ∀ e ∈ fEdges nodes edges, e.toId ∈ rest ++ pushes2 →
          e.fromId ∈ s ++ [v] := by
        intro e he hto
        have htoids := (fEdges_mem_ends nodes edges e he).2
        have hmem : e.toId ∈ (s ++ [v]) ++ (rest ++ pushes2) :=
          List.mem_append_right _ hto
        have hdeg0 : degRem nodes edges (s ++ [v]) e.toId = 0 :=
          (hcrit' e.toId htoids).1 hmem
        exact (degRem_zero_iff nodes edges (s ++ [v]) e.toId).1 hdeg0 e he rfl
      have hord' : ∀ e ∈ fEdges nodes edges, e.toId ∈ s ++ [v] →
          ∃ s1 s2, s ++ [v] = s1 ++ e.toId :: s2 ∧ e.fromId ∈ s1 := by
        intro e he hto
        rcases List.mem_append.1 hto with hto1 | hto2
        · obtain ⟨s1, s2, hdec, hfrom⟩ := hord e he hto1
          refine ⟨s1, s2 ++ [v], ?_, hfrom⟩
          rw [hdec]
          simp
        · rcases List.mem_singleton.1 hto2 with htov
          have hfrom : e.fromId ∈ s := by
            refine hqord e he ?_
            rw [htov]
            exact List.mem_cons_self v rest
          exact ⟨s, [], by rw [htov], hfrom⟩
      have hfuel' : (rest ++ pushes2).length +
          2 * ((nodes.map GNode.id).filter fun k =>
            decide (k ∉ (s ++ [v]) ++ (rest ++ pushes2))).length ≤ fuel := by
        have hp2nodup : pushes2.Nodup := by
          have heq2 : s ++ v :: (rest ++ pushes2) = (s ++ v :: rest) ++ pushes2 := by
            simp
          rw [heq2] at hn2
          exact (List.nodup_append.1 hn2).2.1
        have hp2fresh : ∀ x ∈ pushes2, x ∈ nodes.map GNode.id ∧ x ∉ s ++ v :: rest := by
          intro x hx
          constructor
          · refine hs2 x ?_
            refine List.mem_append_right s ?_
            refine List.mem_cons_of_mem v ?_
            exact List.mem_append_right rest hx
          · intro hm
            have heq2 : s ++ v :: (rest ++ pushes2) = (s ++ v :: rest) ++ pushes2 := by
              simp
            rw [heq2] at hn2
            exact (List.nodup_append.1 hn2).2.2 hm hx
        have hdrop := filter_notmem_append_le (nodes.map GNode.id) pushes2
          (s ++ v :: rest) hp2nodup hp2fresh
        have heq3 : (s ++ v :: rest) ++ pushes2 = (s ++ [v]) ++ (rest ++ pushes2) := by
          simp
        rw [heq3] at hdrop
        simp only [List.length_append] at hfuel ⊢
        simp only [List.length_cons] at hfuel
        omega
      have hout := ih (rest ++ pushes2) (s ++ [v]) hnodup' hsub' hcrit' hqord' hord' hfuel'
      obtain ⟨⟨t, hpre⟩, hnd2, hsub2, hcompl2, hedge2⟩ := hout
      refine ⟨⟨[v] ++ t, ?_⟩, hnd2, hsub2, hcompl2, hedge2⟩
      rw [hpre]
      simp

end KahnLoopSpec

section KahnAssemble

variable {α : Type} [DecidableEq α]

theorem filter_partition_length {p : α → Bool} :
    ∀ l : List α, (l.filter p).length + (l.filter fun a => !(p a)).length = l.length := by
  intro l
  induction l with
  | nil => rfl
  | cons a l ih =>
    rcases hpa : p a with _ | _
    · simp only [List.filter, hpa, Bool.not_false, List.length_cons]
      omega
    · simp only [List.filter, hpa, Bool.not_true, List.length_cons]
      omega

theorem degRem_nil_s (nodes : List (GNode α)) (edges : List (GEdge α)) (k : α) :
    degRem nodes edges [] k =
      ((fEdges nodes edges).filter fun e => decide (e.toId = k)).length := by
  unfold degRem
  congr 1
  refine List.filter_congr ?_
  intro e _
  simp

theorem sum_to_counts_le :
    ∀ ids : List α, ids.Nodup → ∀ l : List (GEdge α),
      (ids.map fun k => (l.filter fun e => decide (e.toId = k)).length).sum ≤ l.length := by
  intro ids
  induction ids with
  | nil => intro _ l; simp
  | cons k ids' ih =>
    intro hnd l
    have hnd' : ids'.Nodup := (List.nodup_cons.1 hnd).2
    have hknot : k ∉ ids' := (List.nodup_cons.1 hnd).1
    simp only [List.map_cons, List.sum_cons]
    have hmapeq : (ids'.map fun k' => (l.filter fun e => decide (e.toId = k')).length) =
        (ids'.map fun k' =>
          ((l.filter fun e => !(decide (e.toId = k))).filter
            fun e => decide (e.toId = k')).length) := by
      refine List.map_congr_left ?_
      intro k' hk'
      have hkk : k' ≠ k := fun h => hknot (h ▸ hk')
      rw [List.filter_filter]
      congr 1
      refine List.filter_congr ?_
      intro e _
      rcases he : decide (e.toId = k') with _ | _
      · simp
      · have : e.toId = k' := of_decide_eq_true he
        simp [this, hkk]
    rw [hmapeq]
    have hrec := ih hnd' (l.filter fun e => !(decide (e.toId = k)))
    have hpart := filter_partition_length (p := fun e : GEdge α => decide (e.toId = k)) l
    omega

theorem filter_pos_le_sum (dg : α → Nat) :
    ∀ ids : List α, (ids.filter fun k => !(decide (dg k = 0))).length ≤ (ids.map dg).sum := by
  intro ids
  induction ids with
  | nil => simp
  | cons k ids ih =>
    simp only [List.map_cons, List.sum_cons]
    by_cases h : dg k = 0
    · rw [List.filter_cons_of_neg (by simp [h])]
      omega
    · rw [List.filter_cons_of_pos (by simp [h])]
      simp only [List.length_cons]
      omega

theorem U_le_fEdges (nodes : List (GNode α)) (edges : List (GEdge α))
    (hnd : (nodes.map GNode.id).Nodup) :
    ((nodes.map GNode.id).filter fun k => !(decide (degRem nodes edges [] k = 0))).length ≤
      (fEdges nodes edges).length := by
  have h1 := filter_pos_le_sum (fun k => degRem nodes edges [] k) (nodes.map GNode.id)
  have h2 : ((nodes.map GNode.id).map fun k => degRem nodes edges [] k) =
      (nodes.map GNode.id).map fun k =>
        ((fEdges nodes edges).filter fun e => decide (e.toId = k)).length :=
    List.map_congr_left fun k _ => degRem_nil_s nodes edges k
  rw [h2] at h1
  exact le_trans h1 (sum_to_counts_le (nodes.map GNode.id) hnd (fEdges nodes edges))

theorem topologicalSort_sorted (nodes : List (GNode α)) (edges : List (GEdge α))
    (hnd : (nodes.map GNode.id).Nodup) (rk : α → Nat)
    (hrank : ∀ e ∈ fEdges nodes edges, rk e.fromId < rk e.toId) :
    ∃ sorted, topologicalSort nodes edges = sorted.reverse ∧
      KahnOut nodes edges [] sorted := by
  have hbt := buildTopoGraph_spec nodes edges hnd
  refine ⟨kahnLoop ((nodes.map GNode.id).map fun k => (k, adjOf nodes edges k))
      (nodes.length + edges.length + 1)
      ((nodes.map GNode.id).filter fun k => decide ((degRem nodes edges [] k : Int) = 0))
      ((nodes.map GNode.id).map fun k => (k, (degRem nodes edges [] k : Int))) [], ?_, ?_⟩
  · simp only [topologicalSort]
    rw [hbt, kahnInitQueue_spec]
  · have hiffmem : ∀ k ∈ nodes.map GNode.id,
        ((k ∈ ([] : List α) ++ ((nodes.map GNode.id).filter
          fun k => decide ((degRem nodes edges [] k : Int) = 0))) ↔
          degRem nodes edges [] k = 0) := by
      intro k hk
      simp only [List.nil_append]
      constructor
      · intro hkq
        have hdec := List.of_mem_filter hkq
        have h2 : (degRem nodes edges [] k : Int) = 0 := of_decide_eq_true hdec
        exact_mod_cast h2
      · intro hdeg
        refine List.mem_filter.2 ⟨hk, ?_⟩
        simp [hdeg]
    refine kahnLoop_spec nodes edges hnd rk hrank (nodes.length + edges.length + 1) _ []
      ?_ ?_ hiffmem ?_ ?_ ?_
    · simp only [List.nil_append]
      exact hnd.filter _
    · intro x hx
      simp only [List.nil_append] at hx
      exact (List.mem_filter.1 hx).1
    · intro e he htoq
      have hdeg : degRem nodes edges [] e.toId = 0 :=
        (hiffmem e.toId (fEdges_mem_ends nodes edges e he).2).1 (by simpa using htoq)
      exact (degRem_zero_iff nodes edges [] e.toId).1 hdeg e he rfl
    · intro e _ hto
      exact absurd hto (List.not_mem_nil _)
    · have hUeq : ((nodes.map GNode.id).filter fun k =>
          decide (k ∉ ([] : List α) ++ ((nodes.map GNode.id).filter
            fun k => decide ((degRem nodes edges [] k : Int) = 0)))) =
          ((nodes.map GNode.id).filter fun k =>
            !(decide (degRem nodes edges [] k = 0))) := by
        refine List.filter_congr ?_
        intro k hk
        rw [decide_not]
        have h1 : decide (k ∈ ([] : List α) ++ ((nodes.map GNode.id).filter
            fun k => decide ((degRem nodes edges [] k : Int) = 0))) =
            decide (degRem nodes edges [] k = 0) :=
          decide_eq_decide.2 (hiffmem k hk)
        rw [h1]
      rw [hUeq]
      have hpartition := filter_partition_length
        (p := fun k => decide ((degRem nodes edges [] k : Int) = 0)) (nodes.map GNode.id)
      have hpeq : ((nodes.map GNode.id).filter fun k =>
          !(decide ((degRem nodes edges [] k : Int) = 0))) =
          ((nodes.map GNode.id).filter fun k =>
            !(decide (degRem nodes edges [] k = 0))) := by
        refine List.filter_congr ?_
        intro k _
        have : decide ((degRem nodes edges [] k : Int) = 0) =
            decide (degRem nodes edges [] k = 0) :=
          decide_eq_decide.2 (by exact_mod_cast Iff.rfl)
        rw [this]
      rw [hpeq] at hpartition
      have hU := U_le_fEdges nodes edges hnd
      have hfle : (fEdges nodes edges).length ≤ edges.length :=
        List.length_filter_le _ edges
      have hids : (nodes.map GNode.id).length = nodes.length := List.length_map _ _
      omega

end KahnAssemble


/-- C1 (corrected): for nodes with distinct ids and an acyclic edge list over
those ids, `topologicalSort` returns each node id exactly once, and for every
edge `(from, to)` the parent `to` appears STRICTLY BEFORE the child `from` in
the returned sequence (the claim's direction — child at a lower or equal index
than parent — is the opposite of what the final reversal produces: the
reversal puts the oldest commits first, so parents/ancestors sort BEFORE
children). -/
theorem topologicalSort_parents_precede_children (nodes : List (GNode Nat))
    (edges : List (GEdge Nat)) (hnd : (nodes.map GNode.id).Nodup)
    (hEnds : ∀ e ∈ edges, e.fromId ∈ nodes.map GNode.id ∧ e.toId ∈ nodes.map GNode.id)
    (hAcyclic : AcyclicEdges edges) :
    (topologicalSort nodes edges).Nodup ∧
    (∀ x ∈ topologicalSort nodes edges, x ∈ nodes.map GNode.id) ∧
    (∀ k ∈ nodes.map GNode.id, k ∈ topologicalSort nodes edges) ∧
    (∀ e ∈ edges, ∃ l1 l2, topologicalSort nodes edges = l1 ++ e.toId :: l2 ∧
      e.fromId ∈ l2) := by
  obtain ⟨rk, hrk⟩ := hAcyclic
  have hfe : fEdges nodes edges = edges := fEdges_eq_of_ends nodes edges hEnds
  obtain ⟨sorted, hrev, hout⟩ :=
    topologicalSort_sorted nodes edges hnd rk (by rw [hfe]; exact hrk)
  obtain ⟨-, hnodup, hsub, hcompl, hord⟩ := hout
  rw [hrev]
  refine ⟨List.nodup_reverse.2 hnodup, ?_, ?_, ?_⟩
  · intro x hx
    exact hsub x (List.mem_reverse.1 hx)
  · intro k hk
    exact List.mem_reverse.2 (hcompl k hk)
  · intro e he
    obtain ⟨l1, l2, hdec, hfrom⟩ := hord e (by rw [hfe]; exact he)
    refine ⟨l2.reverse, l1.reverse, ?_, List.mem_reverse.2 hfrom⟩
    rw [hdec]
    simp

/-- Witness for C1 at a concrete instance: two nodes `0`, `1` and the single
edge `0 → 1`; the theorem applies and in particular the output lists parent
`1` before child `0`. -/
theorem topologicalSort_parents_precede_children_witness :
    ((List.map GNode.id [⟨0⟩, ⟨1⟩]).Nodup ∧
      (∀ e ∈ [(⟨0, 1⟩ : GEdge Nat)],
        e.fromId ∈ List.map GNode.id [⟨0⟩, ⟨1⟩] ∧
        e.toId ∈ List.map GNode.id [⟨0⟩, ⟨1⟩]) ∧
      AcyclicEdges [(⟨0, 1⟩ : GEdge Nat)]) ∧
    (∀ e ∈ [(⟨0, 1⟩ : GEdge Nat)], ∃ l1 l2,
      topologicalSort [⟨0⟩, ⟨1⟩] [(⟨0, 1⟩ : GEdge Nat)] = l1 ++ e.toId :: l2 ∧
      e.fromId ∈ l2) := by
  have h1 : (List.map GNode.id ([⟨0⟩, ⟨1⟩] : List (GNode Nat))).Nodup := by decide
  have h2 : ∀ e ∈ [(⟨0, 1⟩ : GEdge Nat)],
      e.fromId ∈ List.map GNode.id ([⟨0⟩, ⟨1⟩] : List (GNode Nat)) ∧
      e.toId ∈ List.map GNode.id ([⟨0⟩, ⟨1⟩] : List (GNode Nat)) := by decide
  have h3 : AcyclicEdges [(⟨0, 1⟩ : GEdge Nat)] :=
    ⟨fun x => x, by intro e he; simp at he; subst he; decide⟩
  exact ⟨⟨h1, h2, h3⟩,
    (topologicalSort_parents_precede_children [⟨0⟩, ⟨1⟩] [⟨0, 1⟩] h1 h2 h3).2.2.2⟩

/-- Counterexample to C1 as stated: with nodes `0`, `1` and the single edge
`(from, to) = (0, 1)`, the output is `[1, 0]` — the child `0` appears at
index 1, strictly AFTER the parent `1` at index 0, refuting the claim that
the child appears at a lower or equal index than the parent. -/
theorem topologicalSort_child_first_counterexample :
    topologicalSort ([⟨0⟩, ⟨1⟩] : List (GNode Nat)) [⟨0, 1⟩] = [1, 0] ∧
    ¬(List.indexOf 0 (topologicalSort ([⟨0⟩, ⟨1⟩] : List (GNode Nat)) [⟨0, 1⟩]) ≤
      List.indexOf 1 (topologicalSort ([⟨0⟩, ⟨1⟩] : List (GNode Nat)) [⟨0, 1⟩])) := by
  decide

section LayoutLemmas

variable {α : Type} [DecidableEq α]

theorem calculateLayout_eq_staged (nodes : List (GNode α)) (edges : List (GEdge α))
    (w h hg vg : ℚ) :
    calculateLayout nodes edges w h hg vg = calcStaged nodes edges w h hg vg := rfl

theorem JMap.get_append_none {β : Type} (m1 m2 : JMap α β) (k : α)
    (h : m1.get k = none) : JMap.get (m1 ++ m2) k = m2.get k := by
  induction m1 with
  | nil => rfl
  | cons hd tl ih =>
    obtain ⟨k0, v0⟩ := hd
    rw [JMap.get] at h
    by_cases hk : k0 = k
    · rw [if_pos hk] at h
      exact absurd h (by simp)
    · rw [if_neg hk] at h
      show JMap.get ((k0, v0) :: (tl ++ m2)) k = m2.get k
      rw [JMap.get, if_neg hk]
      exact ih h

theorem foldl_set_keyed {γ β : Type} (key : γ → α) (val : γ → β) :
    ∀ (l : List γ) (m0 : JMap α β),
      (∀ x ∈ l, JMap.get m0 (key x) = none) → (l.map key).Nodup →
      l.foldl (fun m x => JMap.set m (key x) (val x)) m0 =
        m0 ++ l.map (fun x => (key x, val x)) := by
  intro l
  induction l with
  | nil => intro m0 _ _; simp
  | cons a l ih =>
    intro m0 hnone hnd
    rw [List.foldl_cons, JMap.set_new _ _ _ (hnone a (List.mem_cons_self a l))]
    have hnd' : (l.map key).Nodup := (List.nodup_cons.1 (by simpa using hnd)).2
    have hka : key a ∉ l.map key := (List.nodup_cons.1 (by simpa using hnd)).1
    rw [ih (m0 ++ [(key a, val a)]) ?_ hnd']
    · simp
    · intro x hx
      refine JMap.get_append_none m0 _ (key x) (hnone x (List.mem_cons_of_mem a hx)) |>.trans ?_
      rw [JMap.get]
      rw [if_neg ?_]
      · rfl
      · intro hcon
        exact hka (hcon ▸ List.mem_map_of_mem key hx)

theorem foldl_count_keyed {γ : Type} (key : γ → Nat) :
    ∀ (l : List γ) (m0 : JMap Nat Nat),
      (∀ x ∈ l, JMap.get m0 (key x) = none) → (l.map key).Nodup →
      l.foldl (fun m x => JMap.set m (key x) (((JMap.get m (key x)).getD 0) + 1)) m0 =
        m0 ++ l.map (fun x => (key x, 1)) := by
  intro l
  induction l with
  | nil => intro m0 _ _; simp
  | cons a l ih =>
    intro m0 hnone hnd
    rw [List.foldl_cons, hnone a (List.mem_cons_self a l)]
    rw [JMap.set_new _ _ _ (hnone a (List.mem_cons_self a l))]
    have hnd' : (l.map key).Nodup := (List.nodup_cons.1 (by simpa using hnd)).2
    have hka : key a ∉ l.map key := (List.nodup_cons.1 (by simpa using hnd)).1
    rw [ih (m0 ++ [(key a, Option.getD none 0 + 1)]) ?_ hnd']
    · simp
    · intro x hx
      refine JMap.get_append_none m0 _ (key x) (hnone x (List.mem_cons_of_mem a hx)) |>.trans ?_
      rw [JMap.get]
      rw [if_neg ?_]
      · rfl
      · intro hcon
        exact hka (hcon ▸ List.mem_map_of_mem key hx)

theorem placeBody_fold (LC : JMap Nat Nat) (w h hg vg : ℚ) (ids : List α)
    (base : α → LNode α) (lv : α → Nat) (hidnd : ids.Nodup) :
    ∀ (ents done : List (α × Nat)),
      ((done ++ ents).map Prod.fst).Nodup →
      ((done ++ ents).map Prod.snd).Nodup →
      (∀ p ∈ ents, p.1 ∈ ids) →
      (∀ p ∈ ents, LC.get p.2 = some 1) →
      (∀ p ∈ ents, p.2 = lv p.1) →
      ents.foldl (placeBody LC w h hg vg)
        (done.map (fun kv => (kv.2, 1)),
         ids.map (fun k => (k, if k ∈ done.map Prod.fst
           then placeNode base lv h vg k else base k)))
      = ((done ++ ents).map (fun kv => (kv.2, 1)),
         ids.map (fun k => (k, if k ∈ (done ++ ents).map Prod.fst
           then placeNode base lv h vg k else base k))) := by
  intro ents
  induction ents with
  | nil =>
    intro done _ _ _ _ _
    simp only [List.foldl_nil, List.append_nil]
  | cons kv rest ih =>
    intro done hknd hvnd hmem hLC hlv
    have hkin : kv.1 ∈ ids := hmem kv (List.mem_cons_self kv rest)
    have hknotdone : kv.1 ∉ done.map Prod.fst := by
      intro hcon
      have : ¬(done.map Prod.fst).Disjoint ((kv :: rest).map Prod.fst) := by
        intro hdisj
        exact hdisj hcon (by simp)
      rw [List.map_append, List.nodup_append] at hknd
      exact this hknd.2.2
    have hvnotdone : kv.2 ∉ done.map Prod.snd := by
      intro hcon
      have : ¬(done.map Prod.snd).Disjoint ((kv :: rest).map Prod.snd) := by
        intro hdisj
        exact hdisj hcon (by simp)
      rw [List.map_append, List.nodup_append] at hvnd
      exact this hvnd.2.2
    have hget1 : JMap.get (done.map fun kv => (kv.2, 1)) kv.2 = none := by
      have hmm : (done.map fun kv : α × Nat => (kv.2, (1 : Nat))) =
          (done.map Prod.snd).map (fun v => (v, 1)) := by
        rw [List.map_map]; rfl
      rw [hmm, JMap.get_mapped]
      rw [if_neg hvnotdone]
    have hget2 : JMap.get (ids.map fun k => (k, if k ∈ done.map Prod.fst
        then placeNode base lv h vg k else base k)) kv.1 = some (base kv.1) := by
      rw [JMap.get_mapped, if_pos hkin, if_neg hknotdone]
    rw [List.foldl_cons]
    have hstep : placeBody LC w h hg vg
        ((done.map fun kv => (kv.2, 1)),
         ids.map fun k => (k, if k ∈ done.map Prod.fst
           then placeNode base lv h vg k else base k)) kv =
        (((done ++ [kv]).map fun kv => (kv.2, 1)),
         ids.map fun k => (k, if k ∈ (done ++ [kv]).map Prod.fst
           then placeNode base lv h vg k else base k)) := by
      simp only [placeBody, hget1, hget2]
      rw [hLC kv (List.mem_cons_self kv rest)]
      rw [JMap.set_new _ _ _ hget1]
      rw [JMap.set_mapped _ kv.1 _ ids hidnd hkin]
      rw [Prod.mk.injEq]
      constructor
      · simp
      · refine List.map_congr_left ?_
        intro k hk
        by_cases hkeq : k = kv.1
        · subst hkeq
          rw [if_pos rfl, if_pos (by simp)]
          have hy : kv.2 = lv kv.1 := hlv kv (List.mem_cons_self kv rest)
          simp only [placeNode, ← hy, Option.getD_some, Option.getD_none, Prod.mk.injEq,
            LNode.mk.injEq, Option.some.injEq]
          refine ⟨trivial, trivial, ?_, trivial⟩
          push_cast
          ring
        · rw [if_neg hkeq]
          have hmemiff : (k ∈ (done ++ [kv]).map Prod.fst) ↔ (k ∈ done.map Prod.fst) := by
            simp [hkeq]
          by_cases hkd : k ∈ done.map Prod.fst
          · rw [if_pos hkd, if_pos (hmemiff.2 hkd)]
          · rw [if_neg hkd, if_neg (fun hc => hkd (hmemiff.1 hc))]
    rw [hstep]
    have hassoc : done ++ kv :: rest = (done ++ [kv]) ++ rest := by simp
    rw [hassoc] at hknd hvnd ⊢
    exact ih (done ++ [kv]) hknd hvnd
      (fun p hp => hmem p (List.mem_cons_of_mem kv hp))
      (fun p hp => hLC p (List.mem_cons_of_mem kv hp))
      (fun p hp => hlv p (List.mem_cons_of_mem kv hp))

end LayoutLemmas

section LayoutLemmas2

variable {α : Type} [DecidableEq α]

theorem ite_mem_nil_defeq (k : α) (a b : LNode α) :
    (if k ∈ ([] : List (α × Nat)).map Prod.fst then a else b) = b := rfl

theorem layerKeys_eq (S : List α) :
    (S.enum.map (fun p => (p.2, S.length - p.1 - 1))).map Prod.fst = S := by
  rw [List.map_map]
  have h1 : (Prod.fst ∘ fun p : Nat × α => (p.2, S.length - p.1 - 1)) =
      (Prod.snd : Nat × α → α) := rfl
  rw [h1, List.enum_map_snd]

theorem layerVals_nodup (S : List α) :
    ((S.enum.map (fun p => (p.2, S.length - p.1 - 1))).map Prod.snd).Nodup := by
  rw [List.map_map]
  have h1 : (Prod.snd ∘ fun p : Nat × α => (p.2, S.length - p.1 - 1)) =
      ((fun i => S.length - i - 1) ∘ (Prod.fst : Nat × α → Nat)) := rfl
  rw [h1, ← List.map_map, List.enum_map_fst]
  refine List.Nodup.map_on ?_ (List.nodup_range S.length)
  intro i hi j hj hij
  rw [List.mem_range] at hi hj
  omega

theorem enum_indexOf_eq (S : List α) (hnd : S.Nodup) :
    ∀ p ∈ S.enum, S.indexOf p.2 = p.1 := by
  intro p hp
  have h1 := List.mem_enum_iff_getElem?.1 hp
  obtain ⟨hlt, hget⟩ := List.getElem?_eq_some.1 h1
  rw [← hget]
  exact List.indexOf_getElem hnd p.1 hlt

theorem layersOf_spec (nodes : List (GNode α)) (edges : List (GEdge α))
    (hnd : (topologicalSort nodes edges).Nodup) :
    layersOf nodes edges =
      (topologicalSort nodes edges).enum.map
        (fun p => (p.2, (topologicalSort nodes edges).length - p.1 - 1)) := by
  simp only [layersOf]
  refine (foldl_set_keyed Prod.snd
    (fun p => (topologicalSort nodes edges).length - p.1 - 1)
    (topologicalSort nodes edges).enum JMap.empty (fun x _ => rfl) ?_).trans (by rfl)
  rw [List.enum_map_snd]
  exact hnd

theorem nodeMap0Of_spec (nodes : List (GNode α)) (hnd : (nodes.map GNode.id).Nodup) :
    nodeMap0Of nodes =
      nodes.map (fun nd => (nd.id, ({ id := nd.id, x := none, y := none } : LNode α))) := by
  unfold nodeMap0Of
  exact (foldl_set_keyed GNode.id
    (fun nd => ({ id := nd.id, x := none, y := none } : LNode α))
    nodes JMap.empty (fun x _ => rfl) hnd).trans (by rfl)

theorem countsOf_spec (nodes : List (GNode α)) (edges : List (GEdge α))
    (hnd : (topologicalSort nodes edges).Nodup) :
    countsOf nodes edges =
      ((topologicalSort nodes edges).enum.map
        (fun p => (p.2, (topologicalSort nodes edges).length - p.1 - 1))).map
        (fun kv => (kv.2, 1)) := by
  unfold countsOf
  rw [layersOf_spec nodes edges hnd]
  simp only [JMap.entries]
  exact (foldl_count_keyed Prod.snd _ JMap.empty (fun x _ => rfl)
    (layerVals_nodup (topologicalSort nodes edges))).trans (by rfl)

end LayoutLemmas2

section LayoutLemmas3

variable {α : Type} [DecidableEq α]

theorem placedOf_spec (nodes : List (GNode α)) (edges : List (GEdge α)) (w h hg vg : ℚ)
    (hndS : (topologicalSort nodes edges).Nodup)
    (hidnd : (nodes.map GNode.id).Nodup)
    (hsub : ∀ x ∈ topologicalSort nodes edges, x ∈ nodes.map GNode.id) :
    placedOf nodes edges w h hg vg =
      (((topologicalSort nodes edges).enum.map
          (fun p => (p.2, (topologicalSort nodes edges).length - p.1 - 1))).map
          (fun kv => (kv.2, 1)),
       (nodes.map GNode.id).map (fun k => (k,
         if k ∈ topologicalSort nodes edges
         then placeNode (fun k => ({ id := k, x := none, y := none } : LNode α))
           (fun k => (topologicalSort nodes edges).length -
             (topologicalSort nodes edges).indexOf k - 1) h vg k
         else ({ id := k, x := none, y := none } : LNode α)))) := by
  unfold placedOf
  rw [layersOf_spec nodes edges hndS, countsOf_spec nodes edges hndS,
    nodeMap0Of_spec nodes hidnd]
  simp only [JMap.entries]
  have h1 : (((topologicalSort nodes edges).enum.map
      (fun p => (p.2, (topologicalSort nodes edges).length - p.1 - 1))).map
      Prod.fst).Nodup := by
    rw [layerKeys_eq]
    exact hndS
  have h2 := layerVals_nodup (topologicalSort nodes edges)
  have h3 : ∀ p ∈ (topologicalSort nodes edges).enum.map
      (fun p => (p.2, (topologicalSort nodes edges).length - p.1 - 1)),
      p.1 ∈ nodes.map GNode.id := by
    intro p hp
    refine hsub p.1 ?_
    have := List.mem_map_of_mem Prod.fst hp
    rwa [layerKeys_eq] at this
  have h4 : ∀ p ∈ (topologicalSort nodes edges).enum.map
      (fun p => (p.2, (topologicalSort nodes edges).length - p.1 - 1)),
      JMap.get (((topologicalSort nodes edges).enum.map
        (fun p => (p.2, (topologicalSort nodes edges).length - p.1 - 1))).map
        (fun kv => (kv.2, 1))) p.2 = some 1 := by
    intro p hp
    have hLCm : (((topologicalSort nodes edges).enum.map
        (fun p => (p.2, (topologicalSort nodes edges).length - p.1 - 1))).map
        (fun kv => (kv.2, (1 : Nat)))) =
        (((topologicalSort nodes edges).enum.map
          (fun p => (p.2, (topologicalSort nodes edges).length - p.1 - 1))).map
          Prod.snd).map (fun v => (v, (1 : Nat))) := by
      simp only [List.map_map]
      rfl
    rw [hLCm, JMap.get_mapped, if_pos (List.mem_map_of_mem Prod.snd hp)]
  have h5 : ∀ p ∈ (topologicalSort nodes edges).enum.map
      (fun p => (p.2, (topologicalSort nodes edges).length - p.1 - 1)),
      p.2 = (fun k => (topologicalSort nodes edges).length -
        (topologicalSort nodes edges).indexOf k - 1) p.1 := by
    intro p hp
    obtain ⟨q, hq, rfl⟩ := List.mem_map.1 hp
    show (topologicalSort nodes edges).length - q.1 - 1 =
      (topologicalSort nodes edges).length -
        (topologicalSort nodes edges).indexOf q.2 - 1
    rw [enum_indexOf_eq (topologicalSort nodes edges) hndS q hq]
  have hbridge : nodes.map (fun nd => (nd.id, ({ id := nd.id, x := none, y := none } : LNode α))) =
      (nodes.map GNode.id).map (fun k => (k,
        if k ∈ ([] : List (α × Nat)).map Prod.fst
        then placeNode (fun k => ({ id := k, x := none, y := none } : LNode α))
          (fun k => (topologicalSort nodes edges).length -
            (topologicalSort nodes edges).indexOf k - 1) h vg k
        else ({ id := k, x := none, y := none } : LNode α))) := by
    rw [List.map_map]
    rfl
  rw [hbridge]
  refine (placeBody_fold (((topologicalSort nodes edges).enum.map
      (fun p => (p.2, (topologicalSort nodes edges).length - p.1 - 1))).map
      (fun kv => (kv.2, 1))) w h hg vg (nodes.map GNode.id)
    (fun k => ({ id := k, x := none, y := none } : LNode α))
    (fun k => (topologicalSort nodes edges).length -
      (topologicalSort nodes edges).indexOf k - 1) hidnd
    ((topologicalSort nodes edges).enum.map
      (fun p => (p.2, (topologicalSort nodes edges).length - p.1 - 1))) []
    (by simpa using h1) (by simpa using h2) h3 h4 h5).trans ?_
  simp only [List.nil_append]
  simp only [layerKeys_eq]

theorem calculateLayout_nodes_closed (nodes : List (GNode α)) (edges : List (GEdge α))
    (w h hg vg : ℚ) (hne : nodes.length ≠ 0)
    (hidnd : (nodes.map GNode.id).Nodup)
    (hndS : (topologicalSort nodes edges).Nodup)
    (hsub : ∀ x ∈ topologicalSort nodes edges, x ∈ nodes.map GNode.id)
    (hcompl : ∀ k ∈ nodes.map GNode.id, k ∈ topologicalSort nodes edges) :
    (calculateLayout nodes edges w h hg vg).1 =
      nodes.map (fun nd =>
        ({ id := nd.id, x := some 0,
           y := some ((((topologicalSort nodes edges).length -
             (topologicalSort nodes edges).indexOf nd.id - 1 : Nat) : ℚ) * vg + h / 2) } :
          LNode α)) := by
  rw [calculateLayout_eq_staged]
  unfold calcStaged
  rw [if_neg hne]
  show ((placedOf nodes edges w h hg vg).2.entries.map (·.2)) = _
  rw [placedOf_spec nodes edges w h hg vg hndS hidnd hsub]
  simp only [JMap.entries]
  rw [List.map_map, List.map_map]
  refine List.map_congr_left ?_
  intro nd hnd2
  show (if nd.id ∈ topologicalSort nodes edges
    then placeNode (fun k => ({ id := k, x := none, y := none } : LNode α))
      (fun k => (topologicalSort nodes edges).length -
        (topologicalSort nodes edges).indexOf k - 1) h vg nd.id
    else ({ id := nd.id, x := none, y := none } : LNode α)) = _
  rw [if_pos (hcompl nd.id (List.mem_map_of_mem GNode.id hnd2))]
  rfl

end LayoutLemmas3

/-- C9: for a non-empty node list with distinct ids and an acyclic edge list
over those ids, `calculateLayout` gives every node layer
`sorted.length - index - 1` (its position counted from the end of the
topological order), all layers are distinct (one node per layer), every `x`
coordinate is `0` (the one-node-layer centering collapses), and every `y`
coordinate is `layer * verticalGap + nodeHeight / 2`. -/
theorem calculateLayout_singleton_layers (nodes : List (GNode Nat))
    (edges : List (GEdge Nat)) (w h hg vg : ℚ) (hne : nodes.length ≠ 0)
    (hidnd : (nodes.map GNode.id).Nodup)
    (hEnds : ∀ e ∈ edges, e.fromId ∈ nodes.map GNode.id ∧ e.toId ∈ nodes.map GNode.id)
    (hAcyclic : AcyclicEdges edges) :
    ((calculateLayout nodes edges w h hg vg).1 =
      nodes.map (fun nd =>
        ({ id := nd.id, x := some 0,
           y := some ((((topologicalSort nodes edges).length -
             (topologicalSort nodes edges).indexOf nd.id - 1 : Nat) : ℚ) * vg + h / 2) } :
          LNode Nat))) ∧
    (∀ n1 ∈ nodes, ∀ n2 ∈ nodes,
      (topologicalSort nodes edges).length -
          (topologicalSort nodes edges).indexOf n1.id - 1 =
        (topologicalSort nodes edges).length -
          (topologicalSort nodes edges).indexOf n2.id - 1 →
      n1.id = n2.id) := by
  obtain ⟨rk, hrk⟩ := hAcyclic
  have hfe : fEdges nodes edges = edges := fEdges_eq_of_ends nodes edges hEnds
  obtain ⟨sorted, hrev, hout⟩ :=
    topologicalSort_sorted nodes edges hidnd rk (by rw [hfe]; exact hrk)
  obtain ⟨-, hnodup, hsub0, hcompl0, -⟩ := hout
  have hndS : (topologicalSort nodes edges).Nodup := by
    rw [hrev]
    exact List.nodup_reverse.2 hnodup
  have hsub : ∀ x ∈ topologicalSort nodes edges, x ∈ nodes.map GNode.id := by
    intro x hx
    rw [hrev] at hx
    exact hsub0 x (List.mem_reverse.1 hx)
  have hcompl : ∀ k ∈ nodes.map GNode.id, k ∈ topologicalSort nodes edges := by
    intro k hk
    rw [hrev]
    exact List.mem_reverse.2 (hcompl0 k hk)
  refine ⟨calculateLayout_nodes_closed nodes edges w h hg vg hne hidnd hndS hsub hcompl, ?_⟩
  intro n1 h1 n2 h2 heq
  have hm1 : n1.id ∈ topologicalSort nodes edges :=
    hcompl n1.id (List.mem_map_of_mem GNode.id h1)
  have hm2 : n2.id ∈ topologicalSort nodes edges :=
    hcompl n2.id (List.mem_map_of_mem GNode.id h2)
  have hi1 : (topologicalSort nodes edges).indexOf n1.id <
      (topologicalSort nodes edges).length := List.indexOf_lt_length.2 hm1
  have hi2 : (topologicalSort nodes edges).indexOf n2.id <
      (topologicalSort nodes edges).length := List.indexOf_lt_length.2 hm2
  have hidx : (topologicalSort nodes edges).indexOf n1.id =
      (topologicalSort nodes edges).indexOf n2.id := by omega
  have g1 : (topologicalSort nodes edges).get ⟨_, hi1⟩ = n1.id := List.indexOf_get hi1
  have g2 : (topologicalSort nodes edges).get ⟨_, hi2⟩ = n2.id := List.indexOf_get hi2
  rw [← g1, ← g2]
  exact congrArg (topologicalSort nodes edges).get (Fin.ext hidx)

/-- Witness for C9 at a concrete instance: nodes `0`, `1`, edge `0 → 1`, the
default option values; node `1` lands on layer 1 at `(0, 130)`, node `0` on
layer 0 at `(0, 30)`. -/
theorem calculateLayout_singleton_layers_witness :
    (([⟨0⟩, ⟨1⟩] : List (GNode Nat)).length ≠ 0 ∧
      (List.map GNode.id ([⟨0⟩, ⟨1⟩] : List (GNode Nat))).Nodup ∧
      (∀ e ∈ [(⟨0, 1⟩ : GEdge Nat)],
        e.fromId ∈ List.map GNode.id ([⟨0⟩, ⟨1⟩] : List (GNode Nat)) ∧
        e.toId ∈ List.map GNode.id ([⟨0⟩, ⟨1⟩] : List (GNode Nat))) ∧
      AcyclicEdges [(⟨0, 1⟩ : GEdge Nat)]) ∧
    (calculateLayout ([⟨0⟩, ⟨1⟩] : List (GNode Nat)) [⟨0, 1⟩] 120 60 150 100).1 =
      ([⟨0⟩, ⟨1⟩] : List (GNode Nat)).map (fun nd =>
        ({ id := nd.id, x := some 0,
           y := some ((((topologicalSort ([⟨0⟩, ⟨1⟩] : List (GNode Nat)) [⟨0, 1⟩]).length -
             (topologicalSort ([⟨0⟩, ⟨1⟩] : List (GNode Nat)) [⟨0, 1⟩]).indexOf nd.id -
               1 : Nat) : ℚ) * 100 + 60 / 2) } : LNode Nat)) := by
  have h1 : (([⟨0⟩, ⟨1⟩] : List (GNode Nat)).length ≠ 0) := by decide
  have h2 : (List.map GNode.id ([⟨0⟩, ⟨1⟩] : List (GNode Nat))).Nodup := by decide
  have h3 : ∀ e ∈ [(⟨0, 1⟩ : GEdge Nat)],
      e.fromId ∈ List.map GNode.id ([⟨0⟩, ⟨1⟩] : List (GNode Nat)) ∧
      e.toId ∈ List.map GNode.id ([⟨0⟩, ⟨1⟩] : List (GNode Nat)) := by decide
  have h4 : AcyclicEdges [(⟨0, 1⟩ : GEdge Nat)] :=
    ⟨fun x => x, by intro e he; simp at he; subst he; decide⟩
  exact ⟨⟨h1, h2, h3, h4⟩,
    (calculateLayout_singleton_layers [⟨0⟩, ⟨1⟩] [⟨0, 1⟩] 120 60 150 100 h1 h2 h3 h4).1⟩


section BfsLemmas

variable {α : Type} [DecidableEq α]

theorem buildPathGraph_eq (edges : List (GEdge α)) :
    buildPathGraph edges = edges.foldl bpgStep JMap.empty := rfl

theorem gget_ensure (m : JMap α (List α)) (k u : α) :
    (((if m.has k then m else m.set k []) : JMap α (List α)).get u).getD [] =
      (m.get u).getD [] := by
  by_cases h : m.has k
  · rw [if_pos h]
  · rw [if_neg h]
    rw [JMap.get_set]
    by_cases hk : k = u
    · subst hk
      rw [if_pos rfl]
      unfold JMap.has at h
      rcases hg : m.get k with _ | l
      · rfl
      · rw [hg] at h
        simp at h
    · rw [if_neg hk]

theorem bpgStep_mem (m : JMap α (List α)) (e : GEdge α) (u v : α) :
    v ∈ (((bpgStep m e).get u).getD []) ↔
      v ∈ ((m.get u).getD []) ∨ (u = e.fromId ∧ v = e.toId) ∨
        (u = e.toId ∧ v = e.fromId) := by
  unfold bpgStep
  rw [JMap.get_set]
  by_cases hto : e.toId = u
  · subst hto
    rw [if_pos rfl, JMap.get_set]
    by_cases hfrom : e.fromId = e.toId
    · rw [if_pos hfrom, gget_ensure, gget_ensure]
      simp only [Option.getD_some, List.mem_append, List.mem_singleton, hfrom]
      tauto
    · rw [if_neg hfrom, gget_ensure, gget_ensure]
      simp only [Option.getD_some, List.mem_append, List.mem_singleton]
      constructor
      · rintro (hv | hv)
        · exact Or.inl hv
        · exact Or.inr (Or.inr ⟨trivial, hv⟩)
      · rintro (hv | ⟨hu, _⟩ | ⟨_, hv⟩)
        · exact Or.inl hv
        · exact absurd hu.symm hfrom
        · exact Or.inr hv
  · rw [if_neg hto, JMap.get_set]
    by_cases hfrom : e.fromId = u
    · subst hfrom
      rw [if_pos rfl, gget_ensure, gget_ensure]
      simp only [Option.getD_some, List.mem_append, List.mem_singleton]
      constructor
      · rintro (hv | hv)
        · exact Or.inl hv
        · exact Or.inr (Or.inl ⟨trivial, hv⟩)
      · rintro (hv | ⟨_, hv⟩ | ⟨hu, _⟩)
        · exact Or.inl hv
        · exact Or.inr hv
        · exact absurd hu.symm hto
    · rw [if_neg hfrom, gget_ensure, gget_ensure]
      constructor
      · exact Or.inl
      · rintro (hv | ⟨hu, _⟩ | ⟨hu, _⟩)
        · exact hv
        · exact absurd hu.symm hfrom
        · exact absurd hu.symm hto

theorem adjB_cons (e : GEdge α) (rest : List (GEdge α)) (u v : α) :
    adjB (e :: rest) u v = true ↔
      ((e.fromId = u ∧ e.toId = v) ∨ (e.toId = u ∧ e.fromId = v)) ∨
        adjB rest u v = true := by
  unfold adjB
  rw [List.any_cons, Bool.or_eq_true]
  constructor
  · rintro (he | hr)
    · rw [Bool.or_eq_true, Bool.and_eq_true, Bool.and_eq_true] at he
      rcases he with ⟨h1, h2⟩ | ⟨h1, h2⟩
      · exact Or.inl (Or.inl ⟨of_decide_eq_true h1, of_decide_eq_true h2⟩)
      · exact Or.inl (Or.inr ⟨of_decide_eq_true h1, of_decide_eq_true h2⟩)
    · exact Or.inr hr
  · rintro ((⟨h1, h2⟩ | ⟨h1, h2⟩) | hr)
    · exact Or.inl (by simp [h1, h2])
    · exact Or.inl (by simp [h1, h2])
    · exact Or.inr hr

theorem bpg_fold_mem :
    ∀ (rest : List (GEdge α)) (m : JMap α (List α)) (u v : α),
      v ∈ (((rest.foldl bpgStep m).get u).getD []) ↔
        v ∈ ((m.get u).getD []) ∨ adjB rest u v = true := by
  intro rest
  induction rest with
  | nil =>
    intro m u v
    simp [adjB]
  | cons e rest ih =>
    intro m u v
    rw [List.foldl_cons, ih (bpgStep m e) u v, bpgStep_mem, adjB_cons]
    constructor
    · rintro ((hv | ⟨hu, hv⟩ | ⟨hu, hv⟩) | hr)
      · exact Or.inl hv
      · exact Or.inr (Or.inl (Or.inl ⟨hu.symm, hv.symm⟩))
      · exact Or.inr (Or.inl (Or.inr ⟨hu.symm, hv.symm⟩))
      · exact Or.inr (Or.inr hr)
    · rintro (hv | ((⟨h1, h2⟩ | ⟨h1, h2⟩) | hr))
      · exact Or.inl (Or.inl hv)
      · exact Or.inl (Or.inr (Or.inl ⟨h1.symm, h2.symm⟩))
      · exact Or.inl (Or.inr (Or.inr ⟨h1.symm, h2.symm⟩))
      · exact Or.inr hr

theorem buildPathGraph_mem (edges : List (GEdge α)) (u v : α) :
    v ∈ (((buildPathGraph edges).get u).getD []) ↔ adjB edges u v = true := by
  rw [buildPathGraph_eq, bpg_fold_mem]
  simp

theorem chainAdj_cons2 (edges : List (GEdge α)) (u v : α) (rest : List α) :
    chainAdj edges (u :: v :: rest) = (adjB edges u v && chainAdj edges (v :: rest)) := rfl

theorem chain_split (edges : List (GEdge α)) :
    ∀ (q1 : List α) (x y : α) (q2 : List α),
      chainAdj edges (q1 ++ x :: y :: q2) = true →
      chainAdj edges (q1 ++ [x]) = true ∧ adjB edges x y = true ∧
        chainAdj edges (y :: q2) = true := by
  intro q1
  induction q1 with
  | nil =>
    intro x y q2 h
    rw [List.nil_append, chainAdj_cons2, Bool.and_eq_true] at h
    exact ⟨rfl, h.1, h.2⟩
  | cons a q1 ih =>
    intro x y q2 h
    rcases q1 with _ | ⟨c, q1'⟩
    · rw [List.cons_append, List.nil_append, chainAdj_cons2, Bool.and_eq_true] at h
      obtain ⟨hax, hrest⟩ := h
      obtain ⟨h1, h2, h3⟩ := ih x y q2 hrest
      refine ⟨?_, h2, h3⟩
      rw [List.cons_append, List.nil_append, chainAdj_cons2, Bool.and_eq_true]
      exact ⟨hax, h1⟩
    · rw [List.cons_append, List.cons_append, chainAdj_cons2, Bool.and_eq_true] at h
      obtain ⟨hac, hrest⟩ := h
      rw [← List.cons_append] at hrest
      obtain ⟨h1, h2, h3⟩ := ih x y q2 hrest
      refine ⟨?_, h2, h3⟩
      rw [List.cons_append, List.cons_append, chainAdj_cons2, Bool.and_eq_true]
      rw [List.cons_append] at h1
      exact ⟨hac, h1⟩

theorem chain_cons_of_head (edges : List (GEdge α)) (a b : α) (l : List α)
    (hch : chainAdj edges l = true) (hh : l.head? = some b)
    (hab : adjB edges a b = true) : chainAdj edges (a :: l) = true := by
  rcases l with _ | ⟨c, rest⟩
  · exact absurd hh (by simp)
  · have hcb : c = b := by
      rw [List.head?] at hh
      exact Option.some.inj hh
    subst hcb
    rw [chainAdj_cons2, Bool.and_eq_true]
    exact ⟨hab, hch⟩

theorem exists_crossing (edges : List (GEdge α)) (visited : List α) (w : α) :
    ∀ (q : List α) (s : α), chainAdj edges q = true → q.head? = some s →
      s ∈ visited → q.getLast? = some w → w ∉ visited →
      ∃ (q1 : List α) (x y : α) (q2 : List α),
        q = q1 ++ x :: y :: q2 ∧ x ∈ visited ∧ y ∉ visited ∧
          adjB edges x y = true ∧ chainAdj edges (q1 ++ [x]) = true ∧
          (q1 ++ [x]).head? = some s := by
  intro q
  induction q with
  | nil =>
    intro s _ hh _ _ _
    exact absurd hh (by simp)
  | cons a q ih =>
    intro s hch hh hs hl hw
    have ha : a = s := by
      rw [List.head?] at hh
      exact Option.some.inj hh
    subst ha
    rcases q with _ | ⟨b, q'⟩
    · have : a = w := by
        rw [List.getLast?] at hl
        exact Option.some.inj hl
      exact absurd (this ▸ hs) hw
    · rw [chainAdj_cons2, Bool.and_eq_true] at hch
      obtain ⟨hab, hch'⟩ := hch
      by_cases hb : b ∈ visited
      · have hl' : (b :: q').getLast? = some w := by
          rw [List.getLast?_cons_cons] at hl
          exact hl
        obtain ⟨q1, x, y, q2, hdec, hx, hy, hxy, hch1, hh1⟩ :=
          ih b hch' rfl hb hl' hw
        refine ⟨a :: q1, x, y, q2, ?_, hx, hy, hxy, ?_, ?_⟩
        · rw [List.cons_append, hdec]
        · rw [List.cons_append]
          exact chain_cons_of_head edges a b (q1 ++ [x]) hch1 hh1 hab
        · rw [List.cons_append]
          rfl
      · exact ⟨[], a, b, q', rfl, hs, hb, hab, rfl, rfl⟩

theorem chain_closure (edges : List (GEdge α)) (visited : List α)
    (hclosed : ∀ v ∈ visited, ∀ nb, adjB edges v nb = true → nb ∈ visited) :
    ∀ (q : List α) (s : α), chainAdj edges q = true → q.head? = some s →
      s ∈ visited → ∀ x ∈ q, x ∈ visited := by
  intro q
  induction q with
  | nil =>
    intro s _ _ _ x hx
    exact absurd hx (by simp)
  | cons a q ih =>
    intro s hch hh hs x hx
    have ha : a = s := by
      rw [List.head?] at hh
      exact Option.some.inj hh
    subst ha
    rcases q with _ | ⟨b, q'⟩
    · rw [List.mem_singleton] at hx
      exact hx ▸ hs
    · rw [chainAdj_cons2, Bool.and_eq_true] at hch
      obtain ⟨hab, hch'⟩ := hch
      have hbv : b ∈ visited := hclosed a hs b hab
      rcases List.mem_cons.1 hx with hxa | hxq
      · exact hxa ▸ hs
      · exact ih b hch' rfl hbv x hxq

theorem bfsLoop_nilq (g : JMap α (List α)) (endId : α) (f : Nat) (visited : List α) :
    bfsLoop g endId f [] visited = none := by
  cases f <;> rfl

theorem bfsLoop_zero_cons (g : JMap α (List α)) (endId : α) (path : List α)
    (rest : List (List α)) (visited : List α) :
    bfsLoop g endId 0 (path :: rest) visited = none := rfl

theorem bfsLoop_succ_cons (g : JMap α (List α)) (endId : α) (f : Nat) (path : List α)
    (rest : List (List α)) (visited : List α) :
    bfsLoop g endId (f + 1) (path :: rest) visited =
      match path.getLast? with
      | none => bfsLoop g endId f rest visited
      | some node =>
        if node = endId then some path
        else
          bfsLoop g endId f
            (((g.get node).getD []).foldl (bfsStep path) (visited, rest)).2
            (((g.get node).getD []).foldl (bfsStep path) (visited, rest)).1 := rfl

theorem bfs_fold_spec (path : List α) :
    ∀ (adj vis : List α) (q : List (List α)),
      ∃ news : List α,
        adj.foldl (bfsStep path) (vis, q) =
          (vis ++ news, q ++ news.map (fun nb => path ++ [nb])) ∧
        news.Nodup ∧ (∀ x ∈ news, x ∈ adj ∧ x ∉ vis) ∧
        (∀ nb ∈ adj, nb ∈ vis ++ news) := by
  intro adj
  induction adj with
  | nil =>
    intro vis q
    exact ⟨[], by simp, List.nodup_nil, by simp, by simp⟩
  | cons nb adj ih =>
    intro vis q
    rw [List.foldl_cons]
    by_cases hnb : nb ∈ vis
    · rw [show bfsStep path (vis, q) nb = (vis, q) from by simp [bfsStep, hnb]]
      obtain ⟨news, heq, hnd, hprop, hall⟩ := ih vis q
      refine ⟨news, heq, hnd, ?_, ?_⟩
      · intro x hx
        exact ⟨List.mem_cons_of_mem nb (hprop x hx).1, (hprop x hx).2⟩
      · intro x hx
        rcases List.mem_cons.1 hx with h | h
        · subst h
          exact List.mem_append_left news hnb
        · exact hall x h
    · rw [show bfsStep path (vis, q) nb = (vis ++ [nb], q ++ [path ++ [nb]]) from
        by simp [bfsStep, hnb]]
      obtain ⟨news, heq, hnd, hprop, hall⟩ := ih (vis ++ [nb]) (q ++ [path ++ [nb]])
      refine ⟨nb :: news, ?_, ?_, ?_, ?_⟩
      · rw [heq]
        simp
      · rw [List.nodup_cons]
        refine ⟨?_, hnd⟩
        intro hcon
        exact (hprop nb hcon).2 (List.mem_append_right vis (List.mem_singleton.2 rfl))
      · intro x hx
        rcases List.mem_cons.1 hx with h | h
        · subst h
          exact ⟨List.mem_cons_self x adj, hnb⟩
        · refine ⟨List.mem_cons_of_mem nb (hprop x h).1, ?_⟩
          intro hcon
          exact (hprop x h).2 (List.mem_append_left [nb] hcon)
      · intro y hy
        rcases List.mem_cons.1 hy with h | h
        · subst h
          exact List.mem_append_right vis (List.mem_cons_self y news)
        · rcases List.mem_append.1 (hall y h) with h2 | h2
          · rcases List.mem_append.1 h2 with h3 | h3
            · exact List.mem_append_left _ h3
            · rw [List.mem_singleton] at h3
              subst h3
              exact List.mem_append_right vis (List.mem_cons_self y news)
          · exact List.mem_append_right vis (List.mem_cons_of_mem nb h2)

theorem chain_snoc (edges : List (GEdge α)) (y : α) :
    ∀ (l : List α) (x : α), chainAdj edges l = true → l.getLast? = some x →
      adjB edges x y = true → chainAdj edges (l ++ [y]) = true := by
  intro l
  induction l with
  | nil =>
    intro x _ hl _
    exact absurd hl (by simp)
  | cons a l ih =>
    intro x hch hl hxy
    rcases l with _ | ⟨b, l'⟩
    · have hax : a = x := by
        rw [List.getLast?] at hl
        exact Option.some.inj hl
      subst hax
      rw [List.cons_append, List.nil_append, chainAdj_cons2, Bool.and_eq_true]
      exact ⟨hxy, rfl⟩
    · rw [chainAdj_cons2, Bool.and_eq_true] at hch
      obtain ⟨hab, hch'⟩ := hch
      rw [List.getLast?_cons_cons] at hl
      have := ih x hch' hl hxy
      simp only [List.cons_append] at this ⊢
      rw [chainAdj_cons2, Bool.and_eq_true]
      exact ⟨hab, this⟩

theorem adjB_mem_ends (edges : List (GEdge α)) (u v : α)
    (h : adjB edges u v = true) :
    v ∈ edges.map GEdge.fromId ++ edges.map GEdge.toId := by
  unfold adjB at h
  rw [List.any_eq_true] at h
  obtain ⟨e, he, hcase⟩ := h
  rw [Bool.or_eq_true, Bool.and_eq_true, Bool.and_eq_true] at hcase
  rcases hcase with ⟨_, h2⟩ | ⟨_, h2⟩
  · have : v = e.toId := (of_decide_eq_true h2).symm
    subst this
    exact List.mem_append_right _ (List.mem_map_of_mem GEdge.toId he)
  · have : v = e.fromId := (of_decide_eq_true h2).symm
    subst this
    exact List.mem_append_left _ (List.mem_map_of_mem GEdge.fromId he)

theorem ne_nil_of_getLast?_eq_some {l : List α} {x : α} (h : l.getLast? = some x) :
    l ≠ [] := by
  intro hcon
  subst hcon
  simp at h

theorem ne_nil_of_head?_eq_some {l : List α} {x : α} (h : l.head? = some x) :
    l ≠ [] := by
  intro hcon
  subst hcon
  simp at h

theorem bfsLoop_succ_last (g : JMap α (List α)) (endId : α) (f : Nat) (path : List α)
    (rest : List (List α)) (visited : List α) (node : α)
    (hlast : path.getLast? = some node) :
    bfsLoop g endId (f + 1) (path :: rest) visited =
      if node = endId then some path
      else
        bfsLoop g endId f
          (((g.get node).getD []).foldl (bfsStep path) (visited, rest)).2
          (((g.get node).getD []).foldl (bfsStep path) (visited, rest)).1 := by
  rw [bfsLoop_succ_cons, hlast]

theorem bfs_queue_empty_none (edges : List (GEdge α)) (s endId : α) (visited : List α)
    (hs : s ∈ visited)
    (hproc : ∀ v ∈ visited, (∃ p ∈ ([] : List (List α)), p.getLast? = some v) ∨
      (∀ nb, adjB edges v nb = true → nb ∈ visited))
    (hend : endId ∈ visited → ∃ p ∈ ([] : List (List α)), p.getLast? = some endId) :
    ¬ ∃ q, UPath edges s endId q := by
  rintro ⟨q, hh, hl, hch⟩
  have hclosed : ∀ v ∈ visited, ∀ nb, adjB edges v nb = true → nb ∈ visited := by
    intro v hv nb hnb
    rcases hproc v hv with ⟨p, hp, _⟩ | hcl
    · exact absurd hp (by simp)
    · exact hcl nb hnb
  have hall := chain_closure edges visited hclosed q s hch hh hs
  have hendv : endId ∈ visited :=
    hall endId (List.mem_of_mem_getLast? (by rw [hl]; rfl))
  obtain ⟨p, hp, _⟩ := hend hendv
  exact absurd hp (by simp)

theorem bfsLoop_correct (edges : List (GEdge α)) (s endId : α) :
    ∀ (fuel : Nat) (queue : List (List α)) (visited : List α) (dfn : α → Nat),
      (∀ p ∈ queue, p.head? = some s ∧ chainAdj edges p = true) →
      (∀ p ∈ queue, ∃ w, p.getLast? = some w ∧ w ∈ visited ∧ p.length = dfn w + 1) →
      visited.Nodup →
      s ∈ visited →
      (∀ v ∈ visited, v ∈ s :: (edges.map GEdge.fromId ++ edges.map GEdge.toId)) →
      List.Pairwise (fun p q : List α => p.length ≤ q.length) queue →
      (∀ p ∈ queue, ∀ q ∈ queue, p.length ≤ q.length + 1) →
      (∀ v ∈ visited, ∀ q, UPath edges s v q → dfn v + 1 ≤ q.length) →
      (∀ v ∈ visited, (∃ p ∈ queue, p.getLast? = some v) ∨
        (∀ nb, adjB edges v nb = true → nb ∈ visited)) →
      (endId ∈ visited → ∃ p ∈ queue, p.getLast? = some endId) →
      (queue.map (fun p => p.getLast?)).Nodup →
      queue.length + 2 * ((s :: (edges.map GEdge.fromId ++ edges.map GEdge.toId)).length -
        visited.length) ≤ fuel →
      (∀ p, bfsLoop (buildPathGraph edges) endId fuel queue visited = some p →
          UPath edges s endId p ∧ ∀ q, UPath edges s endId q → p.length ≤ q.length) ∧
      (bfsLoop (buildPathGraph edges) endId fuel queue visited = none →
          ¬ ∃ q, UPath edges s endId q) := by
  intro fuel
  induction fuel with
  | zero =>
    intro queue visited dfn _ _ _ hs _ _ _ _ hproc hend _ hfuel
    have hq : queue = [] := by
      rcases queue with _ | ⟨p, rest⟩
      · rfl
      · simp at hfuel
    subst hq
    rw [bfsLoop_nilq]
    refine ⟨fun p hp => absurd hp (by simp), fun _ => ?_⟩
    exact bfs_queue_empty_none edges s endId visited hs hproc hend
  | succ fuel ih =>
    intro queue visited dfn hpaths hends hnd hs huniv hsorted hbnd hcore hproc hend
      huniq hfuel
    rcases queue with _ | ⟨path, rest⟩
    · rw [bfsLoop_nilq]
      refine ⟨fun p hp => absurd hp (by simp), fun _ => ?_⟩
      exact bfs_queue_empty_none edges s endId visited hs hproc hend
    · obtain ⟨node, hlast, hnodev, hlen⟩ := hends path (List.mem_cons_self path rest)
      obtain ⟨hhead, hchain⟩ := hpaths path (List.mem_cons_self path rest)
      rw [bfsLoop_succ_last (buildPathGraph edges) endId fuel path rest visited node hlast]
      by_cases hfound : node = endId
      · rw [if_pos hfound]
        subst hfound
        refine ⟨?_, fun hcon => absurd hcon (by simp)⟩
        intro p hp
        have hpp : path = p := Option.some.inj hp
        subst hpp
        refine ⟨⟨hhead, hlast, hchain⟩, ?_⟩
        intro q hq
        have := hcore node hnodev q hq
        omega
      · rw [if_neg hfound]
        obtain ⟨news, heqfold, hnewsnd, hnewsprop, hallvis⟩ :=
          bfs_fold_spec path (((buildPathGraph edges).get node).getD []) visited rest
        rw [heqfold]
        have hpathne : path ≠ [] := ne_nil_of_getLast?_eq_some hlast
        have hnewsadj : ∀ x ∈ news, adjB edges node x = true := by
          intro x hx
          exact (buildPathGraph_mem edges node x).1 (hnewsprop x hx).1
        have hnewsdisj : ∀ x ∈ news, x ∉ visited := fun x hx => (hnewsprop x hx).2
        have hdisj2 : ∀ x ∈ visited, x ∉ news := by
          intro x hx hcon
          exact hnewsdisj x hcon hx
        have hnbrs : ∀ nb, adjB edges node nb = true → nb ∈ visited ++ news := by
          intro nb hnb
          exact hallvis nb ((buildPathGraph_mem edges node nb).2 hnb)
        have hrest_sorted : List.Pairwise (fun p q : List α => p.length ≤ q.length) rest :=
          (List.pairwise_cons.1 hsorted).2
        have hpath_min : ∀ q ∈ rest, path.length ≤ q.length :=
          (List.pairwise_cons.1 hsorted).1
        have hvislen : (visited ++ news).Nodup := by
          rw [List.nodup_append]
          exact ⟨hnd, hnewsnd, fun x hx => hdisj2 x hx⟩
        have huniv' : ∀ v ∈ visited ++ news,
            v ∈ s :: (edges.map GEdge.fromId ++ edges.map GEdge.toId) := by
          intro v hv
          rcases List.mem_append.1 hv with h | h
          · exact huniv v h
          · exact List.mem_cons_of_mem s (adjB_mem_ends edges node v (hnewsadj v h))
        set dfn' : α → Nat := fun v => if v ∈ news then path.length else dfn v with hdfn'
        have hdfn'_old : ∀ v ∈ visited, dfn' v = dfn v := by
          intro v hv
          rw [hdfn']
          simp only []
          rw [if_neg (hdisj2 v hv)]
        have hdfn'_new : ∀ v ∈ news, dfn' v = path.length := by
          intro v hv
          rw [hdfn']
          simp only []
          rw [if_pos hv]
        have hcore' : ∀ v ∈ visited ++ news, ∀ q, UPath edges s v q →
            dfn' v + 1 ≤ q.length := by
          intro v hv q hq
          rcases List.mem_append.1 hv with h | h
          · rw [hdfn'_old v h]
            exact hcore v h q hq
          · rw [hdfn'_new v h]
            obtain ⟨hqh, hql, hqc⟩ := hq
            obtain ⟨q1, x, y, q2, hdec, hx, hy, hxy, hch1, hh1⟩ :=
              exists_crossing edges visited v q s hqc hqh hs hql (hnewsdisj v h)
            have hprex : UPath edges s x (q1 ++ [x]) :=
              ⟨hh1, List.getLast?_concat q1, hch1⟩
            have hdx : dfn x + 1 ≤ q1.length + 1 := by
              have := hcore x hx (q1 ++ [x]) hprex
              simpa using this
            have hxqueued : ∃ p ∈ path :: rest, p.getLast? = some x := by
              rcases hproc x hx with hquery | hcl
              · exact hquery
              · exact absurd (hcl y hxy) hy
            obtain ⟨px, hpx, hpxl⟩ := hxqueued
            obtain ⟨wx, hwl, _, hwlen⟩ := hends px hpx
            have hwx : wx = x := by
              rw [hpxl] at hwl
              exact (Option.some.inj hwl).symm
            subst hwx
            have hpxmin : path.length ≤ px.length := by
              rcases List.mem_cons.1 hpx with h2 | h2
              · rw [h2]
              · exact hpath_min px h2
            have hqlen : q1.length + 2 ≤ q.length := by
              rw [hdec]
              simp
            omega
        have hqueue' : ∀ p ∈ rest ++ news.map (fun nb => path ++ [nb]),
            p.head? = some s ∧ chainAdj edges p = true := by
          intro p hp
          rcases List.mem_append.1 hp with h | h
          · exact hpaths p (List.mem_cons_of_mem path h)
          · obtain ⟨nb, hnb, rfl⟩ := List.mem_map.1 h
            refine ⟨?_, ?_⟩
            · rw [List.head?_append_of_ne_nil _ hpathne]
              exact hhead
            · exact chain_snoc edges nb path node hchain hlast (hnewsadj nb hnb)
        have hends' : ∀ p ∈ rest ++ news.map (fun nb => path ++ [nb]),
            ∃ w, p.getLast? = some w ∧ w ∈ visited ++ news ∧ p.length = dfn' w + 1 := by
          intro p hp
          rcases List.mem_append.1 hp with h | h
          · obtain ⟨w, hwl, hwv, hwlen⟩ := hends p (List.mem_cons_of_mem path h)
            exact ⟨w, hwl, List.mem_append_left news hwv,
              by rw [hdfn'_old w hwv]; exact hwlen⟩
          · obtain ⟨nb, hnb, rfl⟩ := List.mem_map.1 h
            refine ⟨nb, List.getLast?_concat path, List.mem_append_right visited hnb, ?_⟩
            rw [hdfn'_new nb hnb]
            simp
        have hsorted' : List.Pairwise (fun p q : List α => p.length ≤ q.length)
            (rest ++ news.map (fun nb => path ++ [nb])) := by
          rw [List.pairwise_append]
          refine ⟨hrest_sorted, ?_, ?_⟩
          · have hconstpw : ∀ (l : List α),
                List.Pairwise (fun p q : List α => p.length ≤ q.length)
                  (l.map (fun nb => path ++ [nb])) := by
              intro l
              induction l with
              | nil => exact List.Pairwise.nil
              | cons a l ihl =>
                rw [List.map_cons]
                refine List.Pairwise.cons ?_ ihl
                intro b hb
                obtain ⟨nb, _, rfl⟩ := List.mem_map.1 hb
                simp
            exact hconstpw news
          · intro p hp q hq
            obtain ⟨nb, _, rfl⟩ := List.mem_map.1 hq
            have h1 : p.length ≤ path.length + 1 :=
              hbnd p (List.mem_cons_of_mem path hp) path (List.mem_cons_self path rest)
            simp
            omega
        have hbnd' : ∀ p ∈ rest ++ news.map (fun nb => path ++ [nb]),
            ∀ q ∈ rest ++ news.map (fun nb => path ++ [nb]),
            p.length ≤ q.length + 1 := by
          intro p hp q hq
          rcases List.mem_append.1 hp with h | h
          · rcases List.mem_append.1 hq with h2 | h2
            · exact hbnd p (List.mem_cons_of_mem path h) q (List.mem_cons_of_mem path h2)
            · obtain ⟨nb, _, rfl⟩ := List.mem_map.1 h2
              have h1 : p.length ≤ path.length + 1 :=
                hbnd p (List.mem_cons_of_mem path h) path (List.mem_cons_self path rest)
              simp
              omega
          · obtain ⟨nb, _, rfl⟩ := List.mem_map.1 h
            rcases List.mem_append.1 hq with h2 | h2
            · have h1 : path.length ≤ q.length := hpath_min q h2
              simp
              omega
            · obtain ⟨nb2, _, rfl⟩ := List.mem_map.1 h2
              simp
        have hproc' : ∀ v ∈ visited ++ news,
            (∃ p ∈ rest ++ news.map (fun nb => path ++ [nb]), p.getLast? = some v) ∨
            (∀ nb, adjB edges v nb = true → nb ∈ visited ++ news) := by
          intro v hv
          by_cases hvnode : v = node
          · subst hvnode
            exact Or.inr hnbrs
          · rcases List.mem_append.1 hv with h | h
            · rcases hproc v h with ⟨p, hp, hpl⟩ | hcl
              · rcases List.mem_cons.1 hp with h2 | h2
                · subst h2
                  rw [hlast] at hpl
                  exact absurd (Option.some.inj hpl).symm hvnode
                · exact Or.inl ⟨p, List.mem_append_left _ h2, hpl⟩
              · refine Or.inr ?_
                intro nb hnb
                exact List.mem_append_left news (hcl nb hnb)
            · refine Or.inl ⟨path ++ [v], ?_, List.getLast?_concat path⟩
              exact List.mem_append_right rest
                (List.mem_map_of_mem (fun nb => path ++ [nb]) h)
        have hend' : endId ∈ visited ++ news →
            ∃ p ∈ rest ++ news.map (fun nb => path ++ [nb]),
              p.getLast? = some endId := by
          intro hev
          rcases List.mem_append.1 hev with h | h
          · obtain ⟨p, hp, hpl⟩ := hend h
            rcases List.mem_cons.1 hp with h2 | h2
            · subst h2
              rw [hlast] at hpl
              exact absurd (Option.some.inj hpl) hfound
            · exact ⟨p, List.mem_append_left _ h2, hpl⟩
          · refine ⟨path ++ [endId], ?_, List.getLast?_concat path⟩
            exact List.mem_append_right rest
              (List.mem_map_of_mem (fun nb => path ++ [nb]) h)
        have huniq' : ((rest ++ news.map (fun nb => path ++ [nb])).map
            (fun p => p.getLast?)).Nodup := by
          rw [List.map_append, List.nodup_append]
          refine ⟨(List.nodup_cons.1 (by simpa using huniq)).2, ?_, ?_⟩
          · rw [List.map_map]
            have hcomp : ((fun p : List α => p.getLast?) ∘ (fun nb => path ++ [nb])) =
                (fun nb : α => some nb) := by
              funext nb
              exact List.getLast?_concat path
            rw [hcomp]
            exact hnewsnd.map (fun a b hab => Option.some.inj hab)
          · intro o ho hco
            rw [List.map_map] at hco
            obtain ⟨p, hp, rfl⟩ := List.mem_map.1 ho
            obtain ⟨nb, hnb, hnbeq⟩ := List.mem_map.1 hco
            obtain ⟨w, hwl, hwv, _⟩ := hends p (List.mem_cons_of_mem path hp)
            have : ((fun p : List α => p.getLast?) ∘ (fun nb => path ++ [nb])) nb =
                some nb := List.getLast?_concat path
            rw [this] at hnbeq
            rw [hwl] at hnbeq
            have : w = nb := Option.some.inj hnbeq.symm

            exact hnewsdisj nb hnb (this ▸ hwv)
        have hfuel' : (rest ++ news.map (fun nb => path ++ [nb])).length +
            2 * ((s :: (edges.map GEdge.fromId ++ edges.map GEdge.toId)).length -
              (visited ++ news).length) ≤ fuel := by
          have hsub : (visited ++ news).length ≤
              (s :: (edges.map GEdge.fromId ++ edges.map GEdge.toId)).length :=
            (List.subperm_of_subset hvislen (fun x hx => huniv' x hx)).length_le
          have hsub0 : visited.length ≤ (visited ++ news).length := by
            simp
          simp only [List.length_append, List.length_map, List.length_cons] at *
          omega
        exact ih (rest ++ news.map (fun nb => path ++ [nb])) (visited ++ news) dfn'
          hqueue' hends' hvislen (List.mem_append_left news hs) huniv' hsorted' hbnd'
          hcore' hproc' hend' huniq' hfuel'

/-- C6: `findShortestPath(start, end, edges)`, treating the edges as
undirected, returns the single-element path `[start]` when the endpoints are
equal; whenever it returns a path, that path runs from `start` to `end`
along undirected edges and has minimum length (hence minimum edge count)
among all such paths; and it returns `none` only when no undirected path
from `start` to `end` exists. -/
theorem findShortestPath_correct (startId endId : α) (edges : List (GEdge α)) :
    (startId = endId → findShortestPath startId endId edges = some [startId]) ∧
    (∀ p, findShortestPath startId endId edges = some p →
      UPath edges startId endId p ∧
        ∀ q, UPath edges startId endId q → p.length ≤ q.length) ∧
    (findShortestPath startId endId edges = none →
      ¬ ∃ q, UPath edges startId endId q) := by
  unfold findShortestPath
  by_cases heq : startId = endId
  · rw [if_pos heq]
    refine ⟨fun _ => rfl, ?_, fun hcon => absurd hcon (by simp)⟩
    intro p hp
    have hps : [startId] = p := Option.some.inj hp
    subst hps
    subst heq
    refine ⟨⟨rfl, rfl, rfl⟩, ?_⟩
    rintro q ⟨hqh, _, _⟩
    exact List.length_pos.2 (ne_nil_of_head?_eq_some hqh)
  · rw [if_neg heq]
    have hmain := bfsLoop_correct edges startId endId (4 * edges.length + 2)
      [[startId]] [startId] (fun _ => 0)
      (by
        intro p hp
        rw [List.mem_singleton] at hp
        subst hp
        exact ⟨rfl, rfl⟩)
      (by
        intro p hp
        rw [List.mem_singleton] at hp
        subst hp
        exact ⟨startId, rfl, List.mem_singleton.2 rfl, rfl⟩)
      (by simp)
      (List.mem_singleton.2 rfl)
      (by
        intro v hv
        rw [List.mem_singleton] at hv
        subst hv
        exact List.mem_cons_self v _)
      (by simp)
      (by
        intro p hp q hq
        rw [List.mem_singleton] at hp hq
        subst hp
        subst hq
        exact Nat.le_succ _)
      (by
        intro v hv q hq
        rw [List.mem_singleton] at hv
        subst hv
        exact List.length_pos.2 (ne_nil_of_head?_eq_some hq.1))
      (by
        intro v hv
        rw [List.mem_singleton] at hv
        subst hv
        exact Or.inl ⟨[v], List.mem_singleton.2 rfl, rfl⟩)
      (by
        intro hev
        rw [List.mem_singleton] at hev
        subst hev
        exact ⟨[endId], List.mem_singleton.2 rfl, rfl⟩)
      (by simp)
      (by
        simp only [List.length_cons, List.length_nil, List.length_append,
          List.length_map]
        omega)
    exact ⟨fun h => absurd h heq, hmain.1, hmain.2⟩

/-- Witness for C6 at concrete inputs: for the chain `0 → 1 → 2` the
shortest path from `0` to `2` is `[0, 1, 2]`, the disconnected node `3` is
unreachable, equal endpoints give `[0]`, and the theorem yields minimality
of the length-3 path. -/
theorem findShortestPath_correct_witness :
    (findShortestPath 0 2 [(⟨0, 1⟩ : GEdge Nat), ⟨1, 2⟩] = some [0, 1, 2]) ∧
    (findShortestPath 0 3 [(⟨0, 1⟩ : GEdge Nat), ⟨1, 2⟩] = none) ∧
    (findShortestPath 0 0 [(⟨0, 1⟩ : GEdge Nat), ⟨1, 2⟩] = some [0]) ∧
    (UPath [(⟨0, 1⟩ : GEdge Nat), ⟨1, 2⟩] 0 2 [0, 1, 2] ∧
      ∀ q, UPath [(⟨0, 1⟩ : GEdge Nat), ⟨1, 2⟩] 0 2 q → 3 ≤ q.length) := by
  refine ⟨by decide, by decide, ?_, ?_⟩
  · exact (findShortestPath_correct 0 0 [(⟨0, 1⟩ : GEdge Nat), ⟨1, 2⟩]).1 rfl
  · exact (findShortestPath_correct 0 2 [(⟨0, 1⟩ : GEdge Nat), ⟨1, 2⟩]).2.1
      [0, 1, 2] (by decide)

end BfsLemmas


section CycleLemmas

variable {α : Type} [DecidableEq α]

theorem buildCycleGraph_eq (nodes : List (GNode α)) (edges : List (GEdge α)) :
    buildCycleGraph nodes edges =
      edges.foldl bcgStep (nodes.foldl (fun g n => g.set n.id []) JMap.empty) := rfl

theorem bcg_init_get (u : α) :
    ∀ (nds : List (GNode α)) (m : JMap α (List α)),
      (nds.foldl (fun g n => g.set n.id []) m).get u =
        if u ∈ nds.map GNode.id then some [] else m.get u := by
  intro nds
  induction nds with
  | nil => intro m; simp
  | cons n nds ih =>
    intro m
    rw [List.foldl_cons, ih (m.set n.id [])]
    by_cases hu : u ∈ nds.map GNode.id
    · rw [if_pos hu, if_pos (by simp [hu])]
    · rw [if_neg hu, JMap.get_set]
      by_cases hn : n.id = u
      · rw [if_pos hn, if_pos (by simp [hn])]
      · have hni : u ∉ (n :: nds).map GNode.id := by
          simp only [List.map_cons, List.mem_cons]
          rintro (h | h)
          · exact hn h.symm
          · exact hu h
        rw [if_neg hn, if_neg hni]

theorem bcgStep_isSome (g : JMap α (List α)) (e : GEdge α) (u : α) :
    ((bcgStep g e).get u).isSome = (g.get u).isSome := by
  unfold bcgStep
  by_cases h : g.has e.fromId
  · rw [if_pos h, JMap.get_set]
    by_cases hu : e.fromId = u
    · rw [if_pos hu]
      unfold JMap.has at h
      rw [hu] at h
      rw [Option.isSome]
      rcases hg : g.get u with _ | l
      · rw [hg] at h
        simp at h
      · rfl
    · rw [if_neg hu]
  · rw [if_neg h]

theorem bcgStep_mem (g : JMap α (List α)) (e : GEdge α) (u v : α) :
    v ∈ (((bcgStep g e).get u).getD []) ↔
      v ∈ ((g.get u).getD []) ∨
        (e.fromId = u ∧ e.toId = v ∧ (g.get u).isSome = true) := by
  unfold bcgStep
  by_cases h : g.has e.fromId
  · rw [if_pos h, JMap.get_set]
    by_cases hu : e.fromId = u
    · subst hu
      rw [if_pos rfl]
      unfold JMap.has at h
      rcases hg : g.get e.fromId with _ | l
      · rw [hg] at h
        simp at h
      · simp only [Option.getD_some, List.mem_append, List.mem_singleton,
          Option.isSome_some]
        constructor
        · rintro (hv | hv)
          · exact Or.inl hv
          · exact Or.inr ⟨trivial, hv.symm, trivial⟩
        · rintro (hv | ⟨_, hv, _⟩)
          · exact Or.inl hv
          · exact Or.inr hv.symm
    · rw [if_neg hu]
      constructor
      · exact Or.inl
      · rintro (hv | ⟨he, _, _⟩)
        · exact hv
        · exact absurd he hu
  · rw [if_neg h]
    constructor
    · exact Or.inl
    · rintro (hv | ⟨he, _, hsome⟩)
      · exact hv
      · refine absurd ?_ h
        unfold JMap.has
        rw [he]
        exact hsome

theorem bcg_fold_isSome (u : α) :
    ∀ (es : List (GEdge α)) (g : JMap α (List α)),
      ((es.foldl bcgStep g).get u).isSome = (g.get u).isSome := by
  intro es
  induction es with
  | nil => intro g; rfl
  | cons e es ih =>
    intro g
    rw [List.foldl_cons, ih (bcgStep g e), bcgStep_isSome]

theorem bcg_fold_mem (u v : α) :
    ∀ (es : List (GEdge α)) (g : JMap α (List α)),
      v ∈ (((es.foldl bcgStep g).get u).getD []) ↔
        v ∈ ((g.get u).getD []) ∨
          ((g.get u).isSome = true ∧ ∃ e ∈ es, e.fromId = u ∧ e.toId = v) := by
  intro es
  induction es with
  | nil =>
    intro g
    simp
  | cons e es ih =>
    intro g
    rw [List.foldl_cons, ih (bcgStep g e), bcgStep_mem, bcgStep_isSome]
    constructor
    · rintro ((hv | ⟨he, hv, hsome⟩) | ⟨hsome, e2, he2, h1, h2⟩)
      · exact Or.inl hv
      · exact Or.inr ⟨hsome, e, List.mem_cons_self e es, he, hv⟩
      · exact Or.inr ⟨hsome, e2, List.mem_cons_of_mem e he2, h1, h2⟩
    · rintro (hv | ⟨hsome, e2, he2, h1, h2⟩)
      · exact Or.inl (Or.inl hv)
      · rcases List.mem_cons.1 he2 with h3 | h3
        · subst h3
          exact Or.inl (Or.inr ⟨h1, h2, hsome⟩)
        · exact Or.inr ⟨hsome, e2, h3, h1, h2⟩

theorem buildCycleGraph_mem (nodes : List (GNode α)) (edges : List (GEdge α)) (u v : α) :
    v ∈ (((buildCycleGraph nodes edges).get u).getD []) ↔
      u ∈ nodes.map GNode.id ∧ ∃ e ∈ edges, e.fromId = u ∧ e.toId = v := by
  rw [buildCycleGraph_eq, bcg_fold_mem, bcg_init_get]
  by_cases hu : u ∈ nodes.map GNode.id
  · rw [if_pos hu]
    simp [hu]
  · rw [if_neg hu]
    simp [hu]

theorem dcDfs_succ (g : JMap α (List α)) (f : Nat) (n : α) (vis vd : List α) :
    dcDfs g (f + 1) n vis vd =
      (let res : Bool × List α × List α :=
        ((g.get n).getD []).foldl (dcStep (dcDfs g f)) (false, setAdd vis n, vd);
      if res.1 then res else (false, res.2.1.erase n, setAdd res.2.2 n)) := rfl

theorem setAdd_not_mem (s : List α) (a : α) (h : a ∉ s) :
    setAdd s a = s ++ [a] := by
  unfold setAdd
  rw [if_neg h]

theorem dcStep_skip (rec : α → List α → List α → Bool × List α × List α)
    (s d : List α) (nb : α) (hvis : nb ∉ s) (hd : nb ∈ d) :
    dcStep rec ((false : Bool), s, d) nb = ((false : Bool), s, d) := by
  unfold dcStep
  rw [if_neg (by simp)]
  simp only []
  rw [if_neg hvis, if_pos hd]

theorem dcStep_rec (rec : α → List α → List α → Bool × List α × List α)
    (s d : List α) (nb : α) (hvis : nb ∉ s) (hd : nb ∉ d) :
    dcStep rec ((false : Bool), s, d) nb = rec nb s d := by
  unfold dcStep
  rw [if_neg (by simp)]
  simp only []
  rw [if_neg hvis, if_neg hd]

theorem dcDfs_sound (g : JMap α (List α)) (rk : α → Nat) (U : List α)
    (hadj : ∀ u v, v ∈ ((g.get u).getD []) → rk v < rk u)
    (hadjU : ∀ u v, v ∈ ((g.get u).getD []) → v ∈ U) :
    ∀ (fuel : Nat) (n : α) (vis vd : List α),
      vis.Nodup → (∀ v ∈ vis, v ∈ U) → n ∈ U → n ∉ vis →
      (∀ v ∈ vis, rk n < rk v) →
      U.length + 1 ≤ fuel + vis.length →
      ∃ vd2, dcDfs g fuel n vis vd = (false, vis, vd2) := by
  intro fuel
  induction fuel with
  | zero =>
    intro n vis vd hnd hvisU hnU hnvis _ hfuel
    exfalso
    have hsub : (n :: vis).Nodup := List.nodup_cons.2 ⟨hnvis, hnd⟩
    have hsubU : n :: vis ⊆ U := by
      intro x hx
      rcases List.mem_cons.1 hx with h | h
      · exact h ▸ hnU
      · exact hvisU x h
    have := (List.subperm_of_subset hsub hsubU).length_le
    simp only [List.length_cons] at this
    omega
  | succ fuel ih =>
    intro n vis vd hnd hvisU hnU hnvis hrkvis hfuel
    rw [dcDfs_succ]
    have hvisnd' : (setAdd vis n).Nodup := by
      rw [setAdd_not_mem vis n hnvis, List.nodup_append]
      exact ⟨hnd, List.nodup_singleton n, by
        intro x hx
        rw [List.mem_singleton]
        intro hcon
        exact hnvis (hcon ▸ hx)⟩
    have hfold : ∀ (l : List α), (∀ nb ∈ l, nb ∈ ((g.get n).getD [])) →
        ∀ (d : List α),
        ∃ d2, l.foldl (dcStep (dcDfs g fuel)) (false, setAdd vis n, d) =
          (false, setAdd vis n, d2) := by
      intro l
      induction l with
      | nil =>
        intro _ d
        exact ⟨d, rfl⟩
      | cons nb l ihl =>
        intro hl d
        rw [List.foldl_cons]
        have hnbadj : nb ∈ ((g.get n).getD []) := hl nb (List.mem_cons_self nb l)
        have hnbrk : rk nb < rk n := hadj n nb hnbadj
        have hnbU : nb ∈ U := hadjU n nb hnbadj
        have hnbvis : nb ∉ setAdd vis n := by
          rw [setAdd_not_mem vis n hnvis]
          intro hcon
          rcases List.mem_append.1 hcon with h | h
          · have := hrkvis nb h
            omega
          · rw [List.mem_singleton] at h
            subst h
            omega
        by_cases hnbd : nb ∈ d
        · rw [dcStep_skip (dcDfs g fuel) (setAdd vis n) d nb hnbvis hnbd]
          exact ihl (fun x hx => hl x (List.mem_cons_of_mem nb hx)) d
        · have hrk' : ∀ v ∈ setAdd vis n, rk nb < rk v := by
            intro v hv
            rw [setAdd_not_mem vis n hnvis] at hv
            rcases List.mem_append.1 hv with h | h
            · have := hrkvis v h
              omega
            · rw [List.mem_singleton] at h
              subst h
              exact hnbrk
          have hvisU' : ∀ v ∈ setAdd vis n, v ∈ U := by
            intro v hv
            rw [setAdd_not_mem vis n hnvis] at hv
            rcases List.mem_append.1 hv with h | h
            · exact hvisU v h
            · rw [List.mem_singleton] at h
              exact h ▸ hnU
          have hfuel' : U.length + 1 ≤ fuel + (setAdd vis n).length := by
            rw [setAdd_not_mem vis n hnvis]
            simp only [List.length_append, List.length_singleton]
            omega
          obtain ⟨vd2, hrec⟩ := ih nb (setAdd vis n) d hvisnd' hvisU' hnbU hnbvis
            hrk' hfuel'
          rw [dcStep_rec (dcDfs g fuel) (setAdd vis n) d nb hnbvis hnbd, hrec]
          exact ihl (fun x hx => hl x (List.mem_cons_of_mem nb hx)) vd2
    obtain ⟨d2, hfoldeq⟩ := hfold ((g.get n).getD []) (fun nb h => h) vd
    rw [hfoldeq]
    simp only []
    rw [if_neg (by simp)]
    refine ⟨setAdd d2 n, ?_⟩
    rw [setAdd_not_mem vis n hnvis]
    rw [List.erase_append_right _ (by
      intro hcon
      exact hnvis hcon)]
    simp [List.erase_cons]

theorem dcLoop_false (g : JMap α (List α)) (rk : α → Nat) (U : List α)
    (hadj : ∀ u v, v ∈ ((g.get u).getD []) → rk v < rk u)
    (hadjU : ∀ u v, v ∈ ((g.get u).getD []) → v ∈ U)
    (fuel : Nat) (hfuel : U.length + 1 ≤ fuel) :
    ∀ (nds : List (GNode α)) (vd : List α), (∀ nd ∈ nds, nd.id ∈ U) →
      dcLoop g fuel nds [] vd = false := by
  intro nds
  induction nds with
  | nil =>
    intro vd _
    rfl
  | cons nd rest ih =>
    intro vd hU
    rw [show dcLoop g fuel (nd :: rest) [] vd =
        (if nd.id ∈ vd then dcLoop g fuel rest [] vd
         else match dcDfs g fuel nd.id [] vd with
           | (true, _, _) => true
           | (false, v2, d2) => dcLoop g fuel rest v2 d2) from rfl]
    by_cases hvd : nd.id ∈ vd
    · rw [if_pos hvd]
      exact ih vd (fun x hx => hU x (List.mem_cons_of_mem nd hx))
    · rw [if_neg hvd]
      obtain ⟨vd2, hdfs⟩ := dcDfs_sound g rk U hadj hadjU fuel nd.id [] vd
        List.nodup_nil (by simp) (hU nd (List.mem_cons_self nd rest)) (by simp)
        (by simp) (by simpa using hfuel)
      rw [hdfs]
      exact ih vd2 (fun x hx => hU x (List.mem_cons_of_mem nd hx))

theorem detectCycle_false_of_ranked (nodes : List (GNode α)) (edges : List (GEdge α))
    (rk : α → Nat)
    (hrk : ∀ e ∈ edges, rk e.toId < rk e.fromId) :
    detectCycle nodes edges = false := by
  unfold detectCycle
  refine dcLoop_false (buildCycleGraph nodes edges) rk
    (nodes.map GNode.id ++ edges.map GEdge.toId) ?_ ?_
    (nodes.length + edges.length + 2) ?_ nodes [] ?_
  · intro u v hv
    obtain ⟨_, e, he, hef, het⟩ := (buildCycleGraph_mem nodes edges u v).1 hv
    have := hrk e he
    rw [hef, het] at this
    exact this
  · intro u v hv
    obtain ⟨_, e, he, _, het⟩ := (buildCycleGraph_mem nodes edges u v).1 hv
    exact List.mem_append_right _ (het ▸ List.mem_map_of_mem GEdge.toId he)
  · simp only [List.length_append, List.length_map]
    omega
  · intro nd hnd
    exact List.mem_append_left _ (List.mem_map_of_mem GNode.id hnd)

end CycleLemmas

section RepoCycleLemmas

theorem JMap.get_some_pair_mem {κ β : Type} [DecidableEq κ] (m : JMap κ β) (k : κ) (v : β)
    (h : m.get k = some v) : (k, v) ∈ m.entries := by
  induction m with
  | nil => simp [JMap.get] at h
  | cons hd tl ih =>
    obtain ⟨k0, v0⟩ := hd
    rw [JMap.get] at h
    by_cases hk : k0 = k
    · rw [if_pos hk] at h
      subst hk
      rw [Option.some.injEq] at h
      subst h
      exact List.mem_cons_self _ _
    · rw [if_neg hk] at h
      exact List.mem_cons_of_mem _ (ih h)

theorem JMap.get_none_of_not_mem_keys {κ β : Type} [DecidableEq κ] (m : JMap κ β) (k : κ)
    (h : k ∉ m.entries.map Prod.fst) : m.get k = none := by
  induction m with
  | nil => rfl
  | cons hd tl ih =>
    obtain ⟨k0, v0⟩ := hd
    rw [JMap.get]
    have hne : ¬k0 = k := by
      intro hcon
      subst hcon
      exact h (List.mem_map_of_mem Prod.fst (List.mem_cons_self _ _))
    rw [if_neg hne]
    refine ih ?_
    intro hcon
    exact h (List.mem_cons_of_mem _ hcon)

theorem JMap.set_entries_sub {κ β : Type} [DecidableEq κ] (m : JMap κ β) (k : κ) (v : β) :
    ∀ kv ∈ (m.set k v).entries, kv ∈ m.entries ∨ kv = (k, v) := by
  induction m with
  | nil =>
    intro kv hkv
    rw [JMap.set] at hkv
    simp only [JMap.entries] at hkv
    rw [List.mem_singleton] at hkv
    exact Or.inr hkv
  | cons hd tl ih =>
    obtain ⟨k0, v0⟩ := hd
    intro kv hkv
    rw [JMap.set] at hkv
    by_cases hk : k0 = k
    · rw [if_pos hk] at hkv
      rcases List.mem_cons.1 hkv with h | h
      · subst h
        exact Or.inr (by rw [hk])
      · exact Or.inl (List.mem_cons_of_mem _ h)
    · rw [if_neg hk] at hkv
      rcases List.mem_cons.1 hkv with h | h
      · subst h
        exact Or.inl (List.mem_cons_self _ _)
      · rcases ih kv h with h2 | h2
        · exact Or.inl (List.mem_cons_of_mem _ h2)
        · exact Or.inr h2

theorem commit_shape (r : GitRepository) (t msg a ts : JStr) :
    ∃ ps, (r.commit t msg a ts).1 = mkCommit t ps a msg ts ∧
      (r.commit t msg a ts).2 =
        { objects := r.objects.set (mkCommit t ps a msg ts).hashOf (mkCommit t ps a msg ts),
          refs := r.refs.set r.HEAD (mkCommit t ps a msg ts).hashOf,
          HEAD := r.HEAD } ∧
      (∀ p ∈ ps, r.refs.get r.HEAD = some p) := by
  refine ⟨(match r.refs.get r.HEAD with
    | some h => if h = [] then [] else [h]
    | none => []), rfl, rfl, ?_⟩
  rcases hg : r.refs.get r.HEAD with _ | h
  · intro p hp
    simp only [hg] at hp
    simp at hp
  · intro p hp
    simp only [hg] at hp
    by_cases he : h = []
    · rw [if_pos he] at hp
      simp at hp
    · rw [if_neg he] at hp
      rw [List.mem_singleton] at hp
      rw [hp]

end RepoCycleLemmas

section RepoCycleLemmas2

theorem rankedStore_empty : RankedStore GitRepository.empty := by
  refine ⟨fun _ => 0, 1, ?_, ?_⟩
  · intro h hh
    simp [mentionedHashes, GitRepository.empty, JMap.entries, JMap.empty] at hh
  · intro h t ps a m ts hh hget
    simp [GitRepository.empty, JMap.empty, JMap.get] at hget

theorem mentionedHashes_checkout (r : GitRepository) (n : JStr) :
    mentionedHashes (r.checkout n).2 = mentionedHashes r := by
  unfold GitRepository.checkout
  by_cases h : r.refs.has n
  · rw [if_pos h]
    rfl
  · rw [if_neg h]

theorem checkout_objects (r : GitRepository) (n : JStr) :
    (r.checkout n).2.objects = r.objects := by
  unfold GitRepository.checkout
  by_cases h : r.refs.has n
  · rw [if_pos h]
  · rw [if_neg h]

theorem checkout_refs (r : GitRepository) (n : JStr) :
    (r.checkout n).2.refs = r.refs := by
  unfold GitRepository.checkout
  by_cases h : r.refs.has n
  · rw [if_pos h]
  · rw [if_neg h]

theorem rankedStore_checkout (r : GitRepository) (n : JStr)
    (hr : RankedStore r) : RankedStore (r.checkout n).2 := by
  obtain ⟨rk, N, hb, hc⟩ := hr
  refine ⟨rk, N, ?_, ?_⟩
  · rw [mentionedHashes_checkout]
    exact hb
  · rw [checkout_objects]
    exact hc

theorem rankedStore_createBranch (r : GitRepository) (n : JStr) (h : Option JStr)
    (hr : RankedStore r) : RankedStore (r.createBranch n h) := by
  obtain ⟨rk, N, hb, hc⟩ := hr
  have hcases : r.createBranch n h = r ∨
      ∃ hval, r.createBranch n h = { r with refs := r.refs.set n hval } := by
    rcases hm : (match h with
      | some c => if c = [] then r.refs.get r.HEAD else some c
      | none => r.refs.get r.HEAD) with _ | hval
    · refine Or.inl ?_
      simp only [GitRepository.createBranch]
      rw [hm]
    · by_cases he : hval = []
      · refine Or.inl ?_
        simp only [GitRepository.createBranch]
        rw [hm]
        show (if hval = [] then r
          else { objects := r.objects, refs := r.refs.set n hval, HEAD := r.HEAD }) = r
        rw [if_pos he]
      · refine Or.inr ⟨hval, ?_⟩
        simp only [GitRepository.createBranch]
        rw [hm]
        show (if hval = [] then r
          else { objects := r.objects, refs := r.refs.set n hval, HEAD := r.HEAD }) =
          { r with refs := r.refs.set n hval }
        rw [if_neg he]
  rcases hcases with hsame | ⟨hval, hset⟩
  · rw [hsame]
    exact ⟨rk, N, hb, hc⟩
  · rw [hset]
    refine ⟨rk, max N (rk hval + 1), ?_, ?_⟩
    · intro x hx
      unfold mentionedHashes at hx
      simp only [] at hx
      rcases List.mem_append.1 hx with h1 | h1
      · rcases List.mem_append.1 h1 with h2 | h2
        · have : x ∈ mentionedHashes r := by
            unfold mentionedHashes
            exact List.mem_append_left _ (List.mem_append_left _ h2)
          have := hb x this
          omega
        · obtain ⟨kv, hkv, rfl⟩ := List.mem_map.1 h2
          rcases JMap.set_entries_sub r.refs n hval kv hkv with h3 | h3
          · have : kv.2 ∈ mentionedHashes r := by
              unfold mentionedHashes
              exact List.mem_append_left _
                (List.mem_append_right _ (List.mem_map_of_mem Prod.snd h3))
            have := hb kv.2 this
            omega
          · rw [h3]
            simp only []
            omega
      · have : x ∈ mentionedHashes r := by
          unfold mentionedHashes
          exact List.mem_append_right _ h1
        have := hb x this
        omega
    · exact hc

end RepoCycleLemmas2

section RepoCycleLemmas3

theorem mkCommit_hashOf (t : JStr) (ps : List JStr) (a m ts : JStr) :
    (mkCommit t ps a m ts).hashOf = commitHash t ps a m ts := by
  rw [mkCommit, GObj.hashOf]

set_option maxHeartbeats 1000000 in
theorem rankedStore_commit (r : GitRepository) (t m a ts : JStr)
    (hfresh : (r.commit t m a ts).1.hashOf ∉ mentionedHashes r)
    (hr : RankedStore r) : RankedStore (r.commit t m a ts).2 := by
  obtain ⟨ps, h1, h2, hps⟩ := commit_shape r t m a ts
  rw [h1] at hfresh
  rw [h2]
  obtain ⟨rk, N, hb, hc0⟩ := hr
  rw [mkCommit_hashOf] at hfresh h2 ⊢
  generalize hgen : commitHash t ps a m ts = hc at hfresh ⊢
  refine ⟨fun x => if x = hc then N else rk x, N + 1, ?_, ?_⟩
  · intro x hx
    show (if x = hc then N else rk x) < N + 1
    by_cases hxc : x = hc
    · rw [if_pos hxc]
      omega
    · rw [if_neg hxc]
      have hxm : x ∈ mentionedHashes r := by
        unfold mentionedHashes at hx
        simp only [] at hx
        rcases List.mem_append.1 hx with h3 | h3
        · rcases List.mem_append.1 h3 with h4 | h4
          · -- object keys of the new store
            obtain ⟨kv, hkv, rfl⟩ := List.mem_map.1 h4
            rcases JMap.set_entries_sub r.objects hc (mkCommit t ps a m ts) kv hkv
              with h5 | h5
            · exact List.mem_append_left _ (List.mem_append_left _
                (List.mem_map_of_mem Prod.fst h5))
            · rw [h5] at hxc
              exact absurd rfl hxc
          · -- ref values of the new table
            obtain ⟨kv, hkv, rfl⟩ := List.mem_map.1 h4
            rcases JMap.set_entries_sub r.refs r.HEAD hc kv hkv with h5 | h5
            · exact List.mem_append_left _ (List.mem_append_right _
                (List.mem_map_of_mem Prod.snd h5))
            · rw [h5] at hxc
              exact absurd rfl hxc
        · -- mentioned fields of stored objects
          rw [List.mem_flatMap] at h3
          obtain ⟨o, ho, hxo⟩ := h3
          obtain ⟨kv, hkv, rfl⟩ := List.mem_map.1 ho
          rcases JMap.set_entries_sub r.objects hc (mkCommit t ps a m ts) kv hkv
            with h5 | h5
          · refine List.mem_append_right _ ?_
            rw [List.mem_flatMap]
            exact ⟨kv.2, List.mem_map_of_mem Prod.snd h5, hxo⟩
          · rw [h5] at hxo
            have hxo2 : x ∈ hc :: ps := by
              rw [show (hc, mkCommit t ps a m ts).2.mentioned = hc :: ps from by
                rw [show (hc, mkCommit t ps a m ts).2 = mkCommit t ps a m ts from rfl,
                  mkCommit, GObj.mentioned, ← hgen]] at hxo
              exact hxo
            rcases List.mem_cons.1 hxo2 with h6 | h6
            · exact absurd h6 hxc
            · have := hps x h6
              refine List.mem_append_left _ (List.mem_append_right _ ?_)
              exact List.mem_map_of_mem Prod.snd (JMap.get_some_pair_mem _ _ _ this)
      have := hb x hxm
      omega
  · intro h t2 ps2 a2 m2 ts2 hh2 hget p hp
    show (if p = hc then N else rk p) < (if hh2 = hc then N else rk hh2)
    simp only [] at hget
    rw [JMap.get_set] at hget
    by_cases hkey : hc = h
    · rw [if_pos hkey] at hget
      have hcommit : mkCommit t ps a m ts = GObj.commit t2 ps2 a2 m2 ts2 hh2 :=
        Option.some.inj hget
      rw [mkCommit] at hcommit
      injection hcommit with e1 e2 e3 e4 e5 e6
      subst e2
      have hhh : hh2 = hc := by
        rw [← e6, hgen]
      rw [hhh, if_pos rfl]
      have hpref := hps p hp
      have hpm : p ∈ mentionedHashes r := by
        unfold mentionedHashes
        refine List.mem_append_left _ (List.mem_append_right _ ?_)
        exact List.mem_map_of_mem Prod.snd (JMap.get_some_pair_mem _ _ _ hpref)
      have hpc : p ≠ hc := by
        intro hcon
        exact hfresh (hcon ▸ hpm)
      rw [if_neg hpc]
      exact hb p hpm
    · rw [if_neg hkey] at hget
      have hold := hc0 h t2 ps2 a2 m2 ts2 hh2 hget p hp
      have hobj2 : GObj.commit t2 ps2 a2 m2 ts2 hh2 ∈ r.objects.entries.map Prod.snd :=
        List.mem_map_of_mem Prod.snd (JMap.get_some_pair_mem _ _ _ hget)
      have hhm : hh2 ∈ mentionedHashes r := by
        unfold mentionedHashes
        refine List.mem_append_right _ ?_
        rw [List.mem_flatMap]
        exact ⟨GObj.commit t2 ps2 a2 m2 ts2 hh2, hobj2, List.mem_cons_self _ _⟩
      have hpm : p ∈ mentionedHashes r := by
        unfold mentionedHashes
        refine List.mem_append_right _ ?_
        rw [List.mem_flatMap]
        exact ⟨GObj.commit t2 ps2 a2 m2 ts2 hh2, hobj2, List.mem_cons_of_mem _ hp⟩
      have hpn : ¬p = hc := fun hcon => hfresh (hcon ▸ hpm)
      have hhn : ¬hh2 = hc := fun hcon => hfresh (hcon ▸ hhm)
      rw [if_neg hpn, if_neg hhn]
      exact hold

theorem rankedStore_of_reachableFresh (r : GitRepository) (hr : ReachableFresh r) :
    RankedStore r := by
  induction hr with
  | empty => exact rankedStore_empty
  | commit r t m a ts _ hfresh ih => exact rankedStore_commit r t m a ts hfresh ih
  | createBranch r n h _ ih => exact rankedStore_createBranch r n h ih
  | checkout r n _ ih => exact rankedStore_checkout r n ih

end RepoCycleLemmas3

section SnapLemmas

theorem getCommitGraph_staged (r : GitRepository) :
    r.getCommitGraph =
      { nodes := ((allCommitsOf r).foldl (snapStep r) ([], [])).1,
        edges := ((allCommitsOf r).foldl (snapStep r) ([], [])).2,
        branches := r.refs, head := r.HEAD } := rfl

theorem snapStep_edges (r : GitRepository) (P : SnapEdge → Prop)
    (hP : ∀ h t ps a m ts hh, r.getObject h = some (GObj.commit t ps a m ts hh) →
      ∀ p ∈ ps, P { fromId := hh, toId := p }) :
    ∀ (l : List JStr) (st : List SnapNode × List SnapEdge),
      (∀ e ∈ st.2, P e) → ∀ e ∈ (l.foldl (snapStep r) st).2, P e := by
  intro l
  induction l with
  | nil =>
    intro st hst e he
    exact hst e he
  | cons h l ih =>
    intro st hst e he
    rw [List.foldl_cons] at he
    refine ih (snapStep r st h) ?_ e he
    intro e2 he2
    unfold snapStep at he2
    rcases hobj : r.getObject h with _ | o
    · simp only [hobj] at he2
      exact hst e2 he2
    · rcases o with ⟨c, h'⟩ | ⟨es, h'⟩ | ⟨t2, ps, a2, m2, ts2, hh⟩
      · simp only [hobj] at he2
        exact hst e2 he2
      · simp only [hobj] at he2
        exact hst e2 he2
      · simp only [hobj] at he2
        rcases List.mem_append.1 he2 with h3 | h3
        · exact hst e2 h3
        · obtain ⟨p, hp, rfl⟩ := List.mem_map.1 h3
          exact hP h t2 ps a2 m2 ts2 hh hobj p hp

/-- C4 (corrected): for every repository reachable through the public API in
which each new commit's fingerprint collides with no hash the state already
mentions, `detectCycle` on the commit-graph snapshot returns `false`.
(Without the freshness condition the claim fails: the 32-bit fingerprint
admits collisions, and `createBranch` accepts an arbitrary target, so a
crafted `createBranch`/`checkout`/`commit` sequence stores a commit that is
its own parent and makes `detectCycle` return `true`.) -/
theorem detectCycle_false_of_reachableFresh (r : GitRepository)
    (hr : ReachableFresh r) :
    detectCycle (r.getCommitGraph.gnodes) (r.getCommitGraph.gedges) = false := by
  obtain ⟨rk, N, hb, hcs⟩ := rankedStore_of_reachableFresh r hr
  refine detectCycle_false_of_ranked _ _ rk ?_
  intro e he
  unfold Snapshot.gedges at he
  obtain ⟨se, hse, rfl⟩ := List.mem_map.1 he
  rw [getCommitGraph_staged] at hse
  have hsnap := snapStep_edges r (fun e2 => ∃ h t2 ps a2 m2 ts2 hh,
      r.getObject h = some (GObj.commit t2 ps a2 m2 ts2 hh) ∧
      e2.fromId = hh ∧ e2.toId ∈ ps)
    (fun h t2 ps a2 m2 ts2 hh hobj p hp => ⟨h, t2, ps, a2, m2, ts2, hh, hobj, rfl, hp⟩)
    (allCommitsOf r) ([], []) (by simp) se hse
  obtain ⟨h, t2, ps, a2, m2, ts2, hh, hobj, hef, het⟩ := hsnap
  show rk se.toId < rk se.fromId
  rw [hef]
  exact hcs h t2 ps a2 m2 ts2 hh hobj se.toId het

end SnapLemmas

section CycleCeThms

/-- Witness for C4: a single ordinary commit on the empty repository is
fresh, and the theorem yields an acyclic snapshot. -/
theorem detectCycle_false_of_reachableFresh_witness :
    ReachableFresh ((GitRepository.empty.commit [116] [109] [97] [116]).2) ∧
    detectCycle
      (((GitRepository.empty.commit [116] [109] [97] [116]).2.getCommitGraph).gnodes)
      (((GitRepository.empty.commit [116] [109] [97] [116]).2.getCommitGraph).gedges) =
      false := by
  have h : ReachableFresh ((GitRepository.empty.commit [116] [109] [97] [116]).2) :=
    ReachableFresh.commit GitRepository.empty [116] [109] [97] [116]
      ReachableFresh.empty (by decide)
  exact ⟨h, detectCycle_false_of_reachableFresh _ h⟩

set_option maxRecDepth 100000 in
/-- Counterexample to C4 as stated: `cyRepo` is reachable through the public
API alone, yet its snapshot contains the self-parent commit `cyG` and
`detectCycle` returns `true`. -/
theorem detectCycle_reachable_counterexample :
    Reachable cyRepo ∧
    detectCycle ((cyRepo.getCommitGraph).gnodes) ((cyRepo.getCommitGraph).gedges) =
      true := by
  constructor
  · exact Reachable.commit _ _ _ _ _
      (Reachable.checkout _ _ (Reachable.createBranch _ _ _ Reachable.empty))
  · decide

end CycleCeThms

section TreeClaim

/-- C5 (corrected): `addEntry(mode, name, hash, type)` appends the entry to
`entries` and deterministically recomputes the `hash` field as the
fingerprint of the extended entries sequence — but the recomputed
fingerprint is NOT always different from the one held before the call: the
32-bit fingerprint admits collisions, so an appended entry can leave `hash`
unchanged even though the entries sequence changed. -/
theorem addEntry_appends_and_recomputes (t : GitTree) (mode name hash kind : JStr) :
    (t.addEntry mode name hash kind).entries =
      t.entries ++ [{ mode := mode, name := name, hash := hash, kind := kind }] ∧
    (t.addEntry mode name hash kind).hash =
      treeHash (t.entries ++ [{ mode := mode, name := name, hash := hash, kind := kind }]) := by
  unfold GitTree.addEntry
  exact ⟨rfl, rfl⟩

set_option maxRecDepth 100000 in
/-- Counterexample to C5 as stated: appending the entry
`("m", "n", "h", "k3M=3B51")` to the empty tree changes the entries sequence
but leaves the fingerprint exactly as it was. -/
theorem addEntry_hash_collision_counterexample :
    ((GitTree.new []).addEntry [109] [110] [104]
      [107, 51, 77, 61, 51, 66, 53, 49]).entries ≠ (GitTree.new []).entries ∧
    ((GitTree.new []).addEntry [109] [110] [104]
      [107, 51, 77, 61, 51, 66, 53, 49]).hash = (GitTree.new []).hash := by
  decide

end TreeClaim

